import Mathlib

/-!
Verification of the segVerHandler / volsegSync manifest engine.

This file gives a shallow embedding, in Lean 4, of the pure core of the
repository: the manifest data model and operations of
`src/volsegSync/manifest.py`, the matching and reconciliation algorithms of
`src/segVerHandler/commons.py` (`extract_version_number`,
`verify_volseg_match`, `update_index`), and the service-level operations of
`src/segVerHandler/koms_service.py` that the claims refer to
(`export_index`, `select_segmentation`, `update_segmentation_metadata`,
the version derivation of `link_segmentation`).

Filesystem and clock interactions are made explicit inputs: directory
listings become lists of base names, `datetime.now` becomes a timestamp
parameter, `hash_image` / `_hash_string` become opaque function parameters,
and `os.path.isdir` / `os.path.isfile` results become boolean parameters.
Python dictionaries (which preserve insertion order) are modelled as
association lists with insertion at the end; Python `set` iteration order is
unspecified, so set-typed intermediate values are modelled as deduplicated
lists in a fixed (first-traversal) order, which is one of the admissible
executions.  Log strings built with f-strings are modelled by the `LogMsg`
inductive, one constructor per message template.
-/

namespace SegVer

/-! ### Decimal printing and parsing (Python `str(int)` and `int(str)`) -/

/-- The value of a list of decimal digit characters, as computed by Python
`int` on a digits-only string: fold with base 10. -/
def digitsVal (l : List Char) : Nat :=
  l.foldl (fun a c => 10 * a + (c.toNat - 48)) 0

/-- The character for the last decimal digit of `n`. -/
def digitChar (n : Nat) : Char :=
  Char.ofNat (48 + n % 10)

/-- Fuel-indexed accumulator loop producing the decimal digits of `n`
(most significant first), prepended to `acc`. -/
def natDigitsAux : Nat → Nat → List Char → List Char
  | 0, _, acc => acc
  | fuel + 1, n, acc =>
      let acc' := digitChar n :: acc
      if n < 10 then acc' else natDigitsAux fuel (n / 10) acc'

/-- Decimal digits of `n`, most significant first; Python `str(n)` for a
non-negative `n`. -/
def natDigits (n : Nat) : List Char :=
  natDigitsAux (n + 1) n []

/-- Python `str(n)` as a Lean string. -/
def natRepr (n : Nat) : String :=
  ⟨natDigits n⟩

/-- The canonical version token `f"v{n}"` built by the code from an integer. -/
def vstr (n : Nat) : String :=
  "v" ++ natRepr n

/-- Remove a leading run `p` from `l`; `some r` exactly when `l = p ++ r`.
Used to model the anchored regular expression of `extract_version_number`. -/
def dropLead : List Char → List Char → Option (List Char)
  | [], l => some l
  | _ :: _, [] => none
  | p :: ps, c :: cs => if c = p then dropLead ps cs else none

/-- Python `str.startswith`, via `dropLead`. -/
def startsWithChars (s pre : String) : Bool :=
  (dropLead pre.data s.data).isSome

/-- Python `str.endswith`, via `dropLead` on the reversed text. -/
def endsWithChars (s suf : String) : Bool :=
  (dropLead suf.data.reverse s.data.reverse).isSome

/-- Python `str.strip()`: drop whitespace from both ends. -/
def pyStrip (s : String) : String :=
  ⟨((s.data.dropWhile Char.isWhitespace).reverse.dropWhile Char.isWhitespace).reverse⟩

/-- Python `str.lower()` for the ASCII names handled here. -/
def lowerCase (s : String) : String :=
  ⟨s.data.map Char.toLower⟩

/-- Python `str.split(sep)` for a one-character separator: accumulate the
current field, emit on each separator, keep empty fields. -/
def splitCharAux (c : Char) : List Char → List Char → List (List Char)
  | [], acc => [acc.reverse]
  | x :: xs, acc =>
      if x = c then acc.reverse :: splitCharAux c xs [] else splitCharAux c xs (x :: acc)

/-- Python `os.path.join` for the path shapes used by the repository
(second component relative, no drive letters). -/
def pjoin (a b : String) : String :=
  if a = "" then b else if endsWithChars a "/" then a ++ b else a ++ "/" ++ b

/-- Three-component `os.path.join`. -/
def pjoin3 (a b c : String) : String :=
  pjoin (pjoin a b) c

/-! ### Data model (the persisted-manifest JSON of §6 of the design) -/

/-- A `versions` array element of the persisted manifest. -/
structure VersionRecord where
  id : String
  hash : String
  ts : String
  author : String
  notes : String
  tags : List String
  version : String
  lastUpdated : String
  deriving DecidableEq, Inhabited

/-- A `volumes` map entry: `selected-version` (nullable) plus `versions`. -/
structure VolumeEntry where
  selectedVersion : Option String
  versions : List VersionRecord
  deriving DecidableEq, Inhabited

/-- The `volumes` mapping, an insertion-ordered dictionary. -/
abbrev Vols := List (String × VolumeEntry)

/-- The whole manifest: configuration fields plus the volumes mapping. -/
structure Manifest where
  indexName : String
  volumePath : String
  volumeExtension : String
  labelPath : String
  labelExtension : String
  volumes : Vols
  deriving DecidableEq, Inhabited

/-- One constructor per f-string log template of `update_index` and
`remove_volume_version`. -/
inductive LogMsg where
  | addedVolume (subject : String)
  | addedVersion (version subject : String)
  | removedVolume (subject : String)
  | removedSegVersion (segId subject : String)
  | selectionUpdated (subject latestTok : String)
  | removedAllVersions (subject : String)
  deriving DecidableEq

/-! ### Dictionary primitives on `Vols` -/

/-- `manifest["volumes"].get(s)`. -/
def lookupVol (vols : Vols) (s : String) : Option VolumeEntry :=
  (vols.find? (fun p => p.1 == s)).map (fun p => p.2)

/-- In-place overwrite of the entry at an existing key (position kept). -/
def setVol (vols : Vols) (s : String) (e : VolumeEntry) : Vols :=
  vols.map (fun p => if p.1 = s then (s, e) else p)

/-- `del manifest["volumes"][s]` (no-op when absent, as the callers guard). -/
def delVol (vols : Vols) (s : String) : Vols :=
  vols.filter (fun p => p.1 != s)

/-- Entry literal helper (the dict value shape `{"selected-version": sel,
"versions": vs}`). -/
def mkEntry (sel : Option String) (vs : List VersionRecord) : VolumeEntry :=
  { selectedVersion := sel, versions := vs }

/-- Append one record to an entry's version list (the in-place
`versions.append(entry)` of `add_volume_version` and the merge loop). -/
def appendVersion (e : VolumeEntry) (r : VersionRecord) : VolumeEntry :=
  { e with versions := e.versions ++ [r] }

/-- The key list of a volumes mapping. -/
def keysOf (vols : Vols) : List String :=
  vols.map (fun p => p.1)

/-- The version-token list of an entry. -/
def tokensOf (e : VolumeEntry) : List String :=
  e.versions.map (fun v => v.version)

/-- All version ids of a volumes mapping (the source's `seg_set` before
deduplication). -/
def segIds (vols : Vols) : List String :=
  vols.flatMap (fun p => p.2.versions.map (fun v => v.id))

/-! ### `manifest.py` operations -/

/-- Python `int(v[1:])` on a version token: drop the first character and
parse the rest as decimal.  The source raises `ValueError` when the rest is
empty or not all digits; that case is modelled as `none` and skipped by
`get_latest_version`, and every theorem below stays inside parse-valid
states. -/
def parseTok (v : String) : Option Nat :=
  match v.data with
  | [] => none
  | _ :: rest => if rest ≠ [] ∧ rest.all Char.isDigit then some (digitsVal rest) else none

/-- `manifest.py` `get_all_versions`. -/
def get_all_versions (m : Manifest) (subject_key : String) : List VersionRecord :=
  match lookupVol m.volumes subject_key with
  | none => []
  | some e => e.versions

/-- `manifest.py` `get_all_version_strings`. -/
def get_all_version_strings (m : Manifest) (subject_key : String) : List String :=
  (get_all_versions m subject_key).map (fun v => v.version)

/-- `manifest.py` `get_selected_version` (absent subject and null selection
both give `none`, as in the source). -/
def get_selected_version (m : Manifest) (subject_key : String) : Option String :=
  match lookupVol m.volumes subject_key with
  | none => none
  | some e => e.selectedVersion

/-- `manifest.py` `set_selected_version` (no-op when the subject is absent). -/
def set_selected_version (m : Manifest) (subject_key : String) (version : Option String) : Manifest :=
  match lookupVol m.volumes subject_key with
  | none => m
  | some e => { m with volumes := setVol m.volumes subject_key { e with selectedVersion := version } }

/-- Overwrite `manifest["volumes"][s]["versions"]` (no-op when absent). -/
def set_versions (m : Manifest) (subject_key : String) (vs : List VersionRecord) : Manifest :=
  match lookupVol m.volumes subject_key with
  | none => m
  | some e => { m with volumes := setVol m.volumes subject_key { e with versions := vs } }

/-- One step of the `get_latest_version` loop:
`if latest_version is None or v_version > latest_version`. -/
def latestStep (acc : Option Nat) (v : VersionRecord) : Option Nat :=
  match parseTok v.version with
  | some k =>
      match acc with
      | none => some k
      | some a => if k > a then some k else some a
  | none => acc

/-- The whole `get_latest_version` loop over a record list. -/
def latestFold (l : List VersionRecord) : Option Nat :=
  l.foldl latestStep none

/-- `manifest.py` `get_latest_version`: maximum of `int(v["version"][1:])`
over the subject's records, `none` for an absent subject or no records. -/
def get_latest_version (m : Manifest) (subject_key : String) : Option Nat :=
  match lookupVol m.volumes subject_key with
  | none => none
  | some e => latestFold e.versions

/-- `manifest.py` `remove_volume`. -/
def remove_volume (m : Manifest) (subject_key : String) : Manifest :=
  { m with volumes := delVol m.volumes subject_key }

/-- Render `f"v{x}"` where `x` is the `Option Nat` returned by
`get_latest_version` (Python prints `None` as the string `None`). -/
def vstrOpt : Option Nat → String
  | some k => vstr k
  | none => "v" ++ "None"

/-- `manifest.py` `remove_volume_version`.  Mirrors the source exactly,
including the quirk that the "other versions remain" test reads the
pre-removal list (the local `versions` binding is stale after the filtered
list is written back), while `get_latest_version` reads the filtered list. -/
def remove_volume_version (m : Manifest) (subject_key version : String) :
    Manifest × Option LogMsg :=
  match lookupVol m.volumes subject_key with
  | none => (m, none)
  | some e =>
      let filtered := e.versions.filter (fun v => v.version != version)
      let m1 := set_versions m subject_key filtered
      let step :=
        if get_selected_version m1 subject_key = some version then
          if e.versions ≠ [] then
            let latest_version := vstrOpt (get_latest_version m1 subject_key)
            (set_selected_version m1 subject_key (some latest_version),
              some (LogMsg.selectionUpdated subject_key latest_version))
          else
            (set_selected_version m1 subject_key none,
              some (LogMsg.removedAllVersions subject_key))
        else (m1, none)
      let m2 := step.1
      let emptied :=
        match lookupVol m2.volumes subject_key with
        | some e2 => e2.versions.isEmpty
        | none => false
      (if emptied then { m2 with volumes := delVol m2.volumes subject_key } else m2, step.2)

/-- The record literal built by `manifest.py` `add_volume_version`:
`_hash_string` is an opaque collaborator, passed as `hashString`; the two
`_utc_iso()` defaults are the explicit `ts_val` / `lu_val` inputs. -/
def addEntry (hashString : String → String)
    (subject_key version author notes : String) (tags : List String)
    (ts_val lu_val : String) : VersionRecord :=
  { id := subject_key ++ "-" ++ version,
    hash := hashString (subject_key ++ "-" ++ version ++ ts_val), ts := ts_val,
    author := author, notes := notes, tags := tags, version := version,
    lastUpdated := lu_val }

/-- `manifest.py` `add_volume_version` (continued): the whole operation. -/
def add_volume_version (hashString : String → String) (m : Manifest)
    (subject_key version author notes : String) (tags : List String)
    (ts_val lu_val : String) : Manifest × Bool :=
  let vols0 :=
    if lookupVol m.volumes subject_key = none then
      m.volumes ++ [(subject_key, { selectedVersion := some version, versions := [] })]
    else m.volumes
  let entry := addEntry hashString subject_key version author notes tags ts_val lu_val
  match lookupVol vols0 subject_key with
  | none => (m, false)
  | some e =>
      if e.versions.any (fun v => v.version == version) then
        ({ m with volumes := vols0 }, false)
      else
        ({ m with volumes := setVol vols0 subject_key { e with versions := e.versions ++ [entry] } }, true)

/-- Python truthiness of the nullable `selected-version` string. -/
def truthyStr : Option String → Bool
  | none => false
  | some s => !s.isEmpty

/-- `manifest.py` `get_volume_seg_tuples`: one `(subject, volume path,
segmentation path)` triple per subject with a truthy selected version. -/
def get_volume_seg_tuples (m : Manifest) (root_dir : String) :
    List (String × String × String) :=
  m.volumes.filterMap (fun p =>
    let sel := get_selected_version m p.1
    if truthyStr sel then
      some (p.1,
        pjoin3 root_dir m.volumePath (p.1 ++ m.volumeExtension),
        pjoin3 root_dir m.labelPath (p.1 ++ "-" ++ sel.getD "" ++ m.labelExtension))
    else none)

/-! ### `commons.py`: matching -/

/-- `commons.py` `extract_version_number`: the anchored regular expression
match of `^<vol_name>-v(\d+)$` against `seg_base`, returning the parsed
integer (so leading zeros in the digits are allowed and collapse). -/
def extract_version_number (seg_base vol_name : String) : Option Nat :=
  match dropLead (vol_name ++ "-v").data seg_base.data with
  | none => none
  | some ds => if ds ≠ [] ∧ ds.all Char.isDigit then some (digitsVal ds) else none

/-- Sort key `int(x["version"][1:])` used by `verify_volseg_match`; the
records reaching that sort are built with canonical `v<int>` tokens, so the
source's parse never fails there. -/
def recKey (r : VersionRecord) : Nat :=
  digitsVal r.version.data.tail

/-- Stable insertion of a record into a list sorted ascending by `recKey`
(inserted after existing equal keys, as Python's stable sort keeps the
original relative order). -/
def insertSorted (r : VersionRecord) : List VersionRecord → List VersionRecord
  | [] => [r]
  | x :: xs => if recKey r ≤ recKey x then r :: x :: xs else x :: insertSorted r xs

/-- Python `list.sort(key=lambda x: int(x["version"][1:]))`: stable,
ascending by numeric version. -/
def sortVersions (l : List VersionRecord) : List VersionRecord :=
  l.foldr insertSorted []

/-- The candidate `VersionRecord` that `verify_volseg_match` builds for a
matched segmentation base name: `hash_image` on the joined file path
becomes `hashF`, the two uses of the per-record `datetime.now` timestamp
become `tsF seg_base`. -/
def mkMatchRecord (segmentations_path sext : String) (hashF tsF : String → String)
    (seg_base : String) (ver_num : Nat) : VersionRecord :=
  let ts := tsF seg_base
  { id := seg_base, hash := hashF (pjoin segmentations_path (seg_base ++ sext)),
    ts := ts, author := "", notes := "", tags := [], version := "v" ++ natRepr ver_num,
    lastUpdated := ts }

/-- `commons.py` `find_outliers`: starting from the two (deduplicated) name
sets, discard every indexed volume name from the reference side and every
indexed version id from the target side. -/
def find_outliers (reference_list target_list : List String) (volumes_index : Vols) :
    List String × List String :=
  volumes_index.foldl
    (fun (st : List String × List String) kv =>
      (st.1.erase kv.1, kv.2.versions.foldl (fun t v => t.erase v.id) st.2))
    (reference_list.dedup, target_list.dedup)

/-- Result of `verify_volseg_match`: the produced volumes index and the two
warning lists (volumes without segmentation, segmentations without volume).
The count logs and the missing-directory / empty-directory errors are not
modelled beyond the guard that suppresses outlier warnings when a side is
empty. -/
structure MatchResult where
  index : Vols
  withoutSeg : List String
  withoutVol : List String
  deriving DecidableEq

/-- `commons.py` `verify_volseg_match`, restricted to its pure core: the
directory walks have already produced the two base-name lists
(`ref_fnames`, `tar_fnames`).  Python's `set(ref_fnames)` iteration is
modelled as `dedup` order, one of the admissible set orders. -/
def verify_volseg_match (ref_fnames tar_fnames : List String)
    (segmentations_path sext : String) (hashF tsF : String → String) : MatchResult :=
  let volumes_index :=
    (ref_fnames.dedup).foldl
      (fun acc vol_name =>
        let versions := tar_fnames.filterMap (fun seg_base =>
          if !(startsWithChars seg_base (vol_name ++ "-v")) then none
          else
            match extract_version_number seg_base vol_name with
            | none => none
            | some ver_num =>
                some (mkMatchRecord segmentations_path sext hashF tsF seg_base ver_num))
        if versions = [] then acc
        else
          let sorted := sortVersions versions
          acc ++ [(vol_name,
            { selectedVersion := some ((sorted.getLastD default).version),
              versions := sorted })])
      []
  let outliers :=
    if ref_fnames ≠ [] ∧ tar_fnames ≠ [] then
      find_outliers ref_fnames tar_fnames volumes_index
    else ([], [])
  { index := volumes_index, withoutSeg := outliers.1, withoutVol := outliers.2 }

/-- The per-volume `versions` list built inside `verify_volseg_match`'s
loop: one candidate record per target base name that passes the
`startswith` guard and the anchored version-number extraction. -/
def matchList (tar_fnames : List String) (segmentations_path sext : String)
    (hashF tsF : String → String) (vol_name : String) : List VersionRecord :=
  tar_fnames.filterMap (fun seg_base =>
    if !(startsWithChars seg_base (vol_name ++ "-v")) then none
    else
      match extract_version_number seg_base vol_name with
      | none => none
      | some ver_num =>
          some (mkMatchRecord segmentations_path sext hashF tsF seg_base ver_num))

/-- The `VolumeEntry` that `verify_volseg_match` stores for a volume with a
non-empty match list: versions sorted ascending, selection on the last
(highest) sorted record. -/
def verifyEntry (tar_fnames : List String) (segmentations_path sext : String)
    (hashF tsF : String → String) (vol_name : String) : VolumeEntry :=
  { selectedVersion :=
      some (((sortVersions (matchList tar_fnames segmentations_path sext hashF tsF vol_name)).getLastD default).version),
    versions := sortVersions (matchList tar_fnames segmentations_path sext hashF tsF vol_name) }

/-! ### `commons.py`: reconciliation (`update_index`) -/

/-- One step of the merge loop of `update_index`: a subject of the new data
is inserted verbatim when absent, otherwise the new versions whose token is
not in the (pre-loop snapshot of) existing token list are appended. -/
def mergeOne (vols : Vols) (subject_key : String) (new_vol_data : VolumeEntry) :
    Vols × List LogMsg :=
  match lookupVol vols subject_key with
  | none =>
      (vols ++ [(subject_key, new_vol_data)],
        LogMsg.addedVolume subject_key ::
          new_vol_data.versions.map (fun v => LogMsg.addedVersion v.version subject_key))
  | some e =>
      let existing_versions := e.versions.map (fun v => v.version)
      let toAdd := new_vol_data.versions.filter (fun v => !(existing_versions.contains v.version))
      (setVol vols subject_key { e with versions := e.versions ++ toAdd },
        toAdd.map (fun v => LogMsg.addedVersion v.version subject_key))

/-- The full merge loop of `update_index` over the new volumes mapping
(structural recursion over the new entries; the accumulated log is the
concatenation of the per-entry logs, in loop order). -/
def mergePass (vols : Vols) : Vols → Vols × List LogMsg
  | [] => (vols, [])
  | q :: rest =>
      let r := mergeOne vols q.1 q.2
      let rr := mergePass r.1 rest
      (rr.1, r.2 ++ rr.2)

/-- The removed-volumes loop of `update_index`. -/
def removeVolumesPass (vols : Vols) : List String → Vols × List LogMsg
  | [] => (vols, [])
  | s :: rest =>
      let rr := removeVolumesPass (delVol vols s) rest
      (rr.1, LogMsg.removedVolume s :: rr.2)

/-- The body of the removed-segmentations pass for one removed id, over a
subject list: the source iterates every subject of the manifest (there is
no guard on a failed `extract_version_number`, so non-matching subjects get
a `remove_volume_version` call with token `"vNone"` and still produce a
"Removed segmentation version" log line, in source order: removal first,
then the removal line, then any repair message). -/
def removeSegsSubjects (m : Manifest) (seg_id : String) : List String → Manifest × List LogMsg
  | [] => (m, [])
  | s :: rest =>
      let version := extract_version_number seg_id s
      let r := remove_volume_version m s (vstrOpt version)
      let rr := removeSegsSubjects r.1 seg_id rest
      (rr.1, (LogMsg.removedSegVersion seg_id s :: r.2.toList) ++ rr.2)

/-- One removed id of the removed-segmentations pass.  The subject list is
the one at the start of the loop; the source iterates the live dict and
would raise `RuntimeError` if an entry were deleted mid-loop, a state no
theorem below relies on. -/
def removeSegsOne (m : Manifest) (seg_id : String) : Manifest × List LogMsg :=
  removeSegsSubjects m seg_id (keysOf m.volumes)

/-- The removed-segmentations loop of `update_index`. -/
def removeSegsPass (m : Manifest) : List String → Manifest × List LogMsg
  | [] => (m, [])
  | seg_id :: rest =>
      let r := removeSegsOne m seg_id
      let rr := removeSegsPass r.1 rest
      (rr.1, r.2 ++ rr.2)

/-- `commons.py` `update_index`.  The caller passes `{"volumes": matches}`,
so the new data is just a volumes mapping.  The four phases run in source
order: both difference sets are computed from the pre-merge state, then the
merge loop, then removed volumes, then removed segmentation ids.  The
source's warning and error lists are always empty and are omitted. -/
def update_index (m : Manifest) (newVols : Vols) : List LogMsg × Manifest :=
  let volume_set := m.volumes.map (fun p => p.1)
  let new_volume_set := newVols.map (fun p => p.1)
  let seg_set := (m.volumes.flatMap (fun p => p.2.versions.map (fun v => v.id))).dedup
  let new_seg_set := (newVols.flatMap (fun p => p.2.versions.map (fun v => v.id))).dedup
  let merged := mergePass m.volumes newVols
  let removed_volumes := volume_set.filter (fun s => !(new_volume_set.contains s))
  let afterVolumes := removeVolumesPass merged.1 removed_volumes
  let removed_segs := seg_set.filter (fun i => !(new_seg_set.contains i))
  let afterSegs := removeSegsPass { m with volumes := afterVolumes.1 } removed_segs
  (merged.2 ++ afterVolumes.2 ++ afterSegs.2, afterSegs.1)

/-! ### `koms_service.py` operations -/

/-- Failure modes of `export_index` (raised as `SegVerException`s in the
source, before anything is written). -/
inductive ExportErr where
  | dirMissing
  | notCsv
  | noVolumes
  deriving DecidableEq

/-- `commons.py` `validate_csv_path`: the `os.path.isdir` result on the
target's directory is the explicit `dirExists` input; `filename` is the
basename of the target path. -/
def validate_csv_path (dirExists : Bool) (filename : String) : List ExportErr :=
  (if !dirExists then [ExportErr.dirMissing] else []) ++
    (if !(endsWithChars (lowerCase filename) ".csv") then [ExportErr.notCsv] else [])

/-- Python `str.rstrip()` (strip trailing whitespace), applied by
`export_index` to both fields of each row. -/
def rstrip (s : String) : String :=
  ⟨(s.data.reverse.dropWhile Char.isWhitespace).reverse⟩

/-- `koms_service.py` `export_index`, as the list of lines written to the
CSV file: raises (returns `error`) on a missing directory, a non-`.csv`
target or an empty tuple list, in source order, before writing anything. -/
def export_index (m : Manifest) (root_dir : String) (dirExists : Bool)
    (filename : String) : Except ExportErr (List String) :=
  match validate_csv_path dirExists filename with
  | e :: _ => Except.error e
  | [] =>
      let tuples := get_volume_seg_tuples m root_dir
      if tuples = [] then Except.error ExportErr.noVolumes
      else
        Except.ok ("VOLUME FILE,SEGMENTATION FILE" ::
          tuples.map (fun t => rstrip t.2.1 ++ "," ++ rstrip t.2.2))

/-- The version-token validation of `select_segmentation`:
`seg_version.startswith('v') and seg_version[1:].isdigit()`. -/
def tokenShapeOk (seg_version : String) : Bool :=
  match seg_version.data with
  | 'v' :: rest => rest ≠ [] && rest.all Char.isDigit
  | _ => false

/-- `koms_service.py` `select_segmentation`, restricted to its effect on
the manifest.  The `os.path.isfile` results for the volume file and the
expected segmentation file are the `volFileExists` / `segFileExists`
inputs; every early-error branch leaves the manifest unchanged except the
two self-heal paths of the source (volume file gone: remove the volume;
segmentation file gone: remove that version). -/
def select_segmentation (m : Manifest) (volume_fname seg_version_raw : String)
    (volFileExists segFileExists : Bool) : Manifest :=
  let seg_version := pyStrip seg_version_raw
  if !tokenShapeOk seg_version then m
  else if !(endsWithChars volume_fname m.volumeExtension) then m
  else
    let vol_base := volume_fname.dropRight m.volumeExtension.length
    if lookupVol m.volumes vol_base = none then m
    else if !volFileExists then remove_volume m vol_base
    else if !((get_all_version_strings m vol_base).contains seg_version) then m
    else if !segFileExists then (remove_volume_version m vol_base seg_version).1
    else set_selected_version m vol_base (some seg_version)

/-- The tag normalisation `[tag.strip() for tag in seg_tags.split(',')]`. -/
def splitTags (seg_tags : String) : List String :=
  (splitCharAux ',' seg_tags.data []).map (fun l => pyStrip ⟨l⟩)

/-- The per-record core of `koms_service.py`
`update_segmentation_metadata`: author and notes are updated when supplied
non-empty and different; for tags the source compares the raw
comma-separated STRING against the stored tags LIST
(`seg_tags != v.get("tags", [])`), and in Python a `str` never equals a
`list`, so that comparison is always true and the condition reduces to
`seg_tags != ""`; the normalisation to a trimmed list happens only after
the comparison.  `last-updated` is set to `now` iff any branch fired. -/
def update_metadata_record (v : VersionRecord) (seg_author seg_notes seg_tags now : String) :
    VersionRecord × Bool :=
  let step1 :=
    if seg_author ≠ "" ∧ seg_author ≠ v.author then
      ({ v with author := seg_author }, true)
    else (v, false)
  let step2 :=
    if seg_notes ≠ "" ∧ seg_notes ≠ step1.1.notes then
      ({ step1.1 with notes := seg_notes }, true)
    else (step1.1, false)
  let step3 :=
    if seg_tags ≠ "" then
      ({ step2.1 with tags := splitTags seg_tags }, true)
    else (step2.1, false)
  let changes_made := step1.2 || step2.2 || step3.2
  (if changes_made then { step3.1 with lastUpdated := now } else step3.1, changes_made)

/-- Update the first record with a matching token, then stop (the source
loop `break`s after the first match). -/
def updateFirstMeta (seg_version seg_author seg_notes seg_tags now : String) :
    List VersionRecord → List VersionRecord
  | [] => []
  | v :: rest =>
      if v.version = seg_version then
        (update_metadata_record v seg_author seg_notes seg_tags now).1 :: rest
      else v :: updateFirstMeta seg_version seg_author seg_notes seg_tags now rest

/-- `koms_service.py` `update_segmentation_metadata`, as its effect on the
manifest (absent subject or version leaves it unchanged). -/
def update_segmentation_metadata (m : Manifest)
    (volume_fname seg_version seg_author seg_notes seg_tags now : String) : Manifest :=
  let vol_base := volume_fname.dropRight m.volumeExtension.length
  match lookupVol m.volumes vol_base with
  | none => m
  | some e =>
      let e1 := { e with versions := updateFirstMeta seg_version seg_author seg_notes seg_tags now e.versions }
      { m with volumes := setVol m.volumes vol_base e1 }

/-- The version-number derivation of `koms_service.py` `link_segmentation`
(lines 277-280): the segmentation's own suffix when its base name matches
the volume's pattern, else latest+1, else 1. -/
def derive_link_version (m : Manifest) (vol_base seg_base : String) : Nat :=
  match extract_version_number seg_base vol_base with
  | some n => n
  | none =>
      match get_latest_version m vol_base with
      | none => 1
      | some l => l + 1

/-- The parameter names of `manifest.py` `add_volume_version`
(`def add_volume_version(manifest, subject_key, version, author="",
notes="", tags=None, ts=None, last_updated=None)`). -/
def add_volume_version_params : List String :=
  ["manifest", "subject_key", "version", "author", "notes", "tags", "ts", "last_updated"]

/-- The keyword argument names used at the `add_volume_version` call site
of `link_segmentation` (`koms_service.py` line 298:
`add_volume_version(self._manifest, vol_base, f"v{version}",
hash=hash_image(seg_path))`). -/
def link_segmentation_add_call_keywords : List String :=
  ["hash"]

/-- The canonical version id `<subject>-vN` built by `add_volume_version`
(`f"{subject_key}-{version}"` with a canonical token). -/
def mkId (s : String) (n : Nat) : String :=
  s ++ "-" ++ vstr n

/-! ### Derived views and well-formedness predicates -/

/-- Decidable test that a token is canonical, i.e. literally `f"v{n}"` for
the integer it parses to (no leading zeros, as every token the code itself
builds). -/
def canonTokB (v : String) : Bool :=
  v == vstr (digitsVal v.data.tail)

/-- Canonical-or-absent selection. -/
def canonSelB : Option String → Bool
  | none => true
  | some v => canonTokB v

/-- Decidable well-formedness of a manifest's volumes: unique keys, every
record carries a canonical token with the matching `<subject>-vN` id, and
the selection is canonical or absent.  This is the shape every manifest
produced by the code itself has. -/
def ccVolsB (vols : Vols) : Bool :=
  decide ((keysOf vols).Nodup) &&
    vols.all (fun p =>
      p.2.versions.all (fun r => canonTokB r.version && (r.id == p.1 ++ "-" ++ r.version)) &&
        canonSelB p.2.selectedVersion)

/-- The propositional form of `ccVolsB`. -/
def CCVols (vols : Vols) : Prop :=
  (keysOf vols).Nodup ∧
    ∀ p ∈ vols,
      (∀ r ∈ p.2.versions, ∃ n, r.version = vstr n ∧ r.id = mkId p.1 n) ∧
      (p.2.selectedVersion = none ∨ ∃ n, p.2.selectedVersion = some (vstr n))

/-- Decidable test that the on-disk segmentation base names are canonical:
whenever a name matches some volume's `<subject>-v<digits>` pattern, its
digit part has no leading zeros (so the name is exactly the id the code
would itself derive for that subject and number). -/
def canonNamesB (ref tar : List String) : Bool :=
  tar.all (fun t => ref.all (fun s =>
    match extract_version_number t s with
    | some n => t == mkId s n
    | none => true))

/-- The merge pass of `update_index` has nothing to add: every subject of
the new data exists and every incoming token is already present. -/
def MergeNoop (m : Manifest) (newVols : Vols) : Prop :=
  ∀ p ∈ newVols, ∃ e, lookupVol m.volumes p.1 = some e ∧
    ∀ r ∈ p.2.versions, r.version ∈ tokensOf e

/-- A manifest is aligned with an index when reconciling it against that
index has nothing to do: merge is a no-op and no volume key or version id
of the manifest is outside the index. -/
def Aligned (m : Manifest) (idx : Vols) : Prop :=
  (keysOf m.volumes).Nodup ∧ MergeNoop m idx ∧
    (∀ s ∈ keysOf m.volumes, s ∈ keysOf idx) ∧
    (∀ i ∈ segIds m.volumes, i ∈ segIds idx)

/-- Replace the two timestamp fields of a record by a fresh clock reading,
keyed by the record id (which is the segmentation base name in matcher
output): this is exactly how two `verify_volseg_match` runs over the same
files differ. -/
def recRetime (tsF2 : String → String) (r : VersionRecord) : VersionRecord :=
  { r with ts := tsF2 r.id, lastUpdated := tsF2 r.id }

/-- `recRetime` on a whole entry. -/
def entryRetime (tsF2 : String → String) (e : VolumeEntry) : VolumeEntry :=
  { e with versions := e.versions.map (recRetime tsF2) }

/-- `recRetime` on a whole volumes mapping. -/
def volsRetime (tsF2 : String → String) (vols : Vols) : Vols :=
  vols.map (fun p => (p.1, entryRetime tsF2 p.2))

/-! ### Operation sequences (for the invariant claims) -/

/-- The manifest-mutating operations of the system, each carrying its own
environment inputs (hash collaborators, clock readings, directory listings,
file-existence flags).  `add` carries the integer whose `f"v{n}"` rendering
the only call site (`link_segmentation`) passes. -/
inductive Op where
  | add (hashString : String → String) (subject : String) (n : Nat)
      (author notes : String) (tags : List String) (ts lu : String)
  | removeVer (subject tok : String)
  | removeVol (subject : String)
  | select (volume_fname seg_version : String) (volExists segExists : Bool)
  | update (ref tar : List String) (sp sext : String) (hashF tsF : String → String)

/-- Apply one operation to the manifest. -/
def applyOp (m : Manifest) : Op → Manifest
  | Op.add hs s n a no tg ts lu => (add_volume_version hs m s (vstr n) a no tg ts lu).1
  | Op.removeVer s tok => (remove_volume_version m s tok).1
  | Op.removeVol s => remove_volume m s
  | Op.select vf sv ve se => select_segmentation m vf sv ve se
  | Op.update ref tar sp sext hashF tsF =>
      (update_index m (verify_volseg_match ref tar sp sext hashF tsF).index).2

/-- Apply a whole operation sequence. -/
def applyOps (m : Manifest) (ops : List Op) : Manifest :=
  ops.foldl applyOp m

/-- Invariant I2 of the design: every entry's selection is absent or a
token present in that entry's version list. -/
def I2holds (m : Manifest) : Prop :=
  ∀ p ∈ m.volumes, p.2.selectedVersion = none ∨
    ∃ v, p.2.selectedVersion = some v ∧ v ∈ tokensOf p.2

/-- The inductive invariant behind I2 preservation, on a bare volumes
mapping: unique keys, canonical record tokens, and I2 itself. -/
def InvI2V (vols : Vols) : Prop :=
  (keysOf vols).Nodup ∧
    ∀ p ∈ vols,
      (∀ r ∈ p.2.versions, ∃ n, r.version = vstr n) ∧
      (p.2.selectedVersion = none ∨
        ∃ v, p.2.selectedVersion = some v ∧ v ∈ tokensOf p.2)

/-- The inductive invariant behind I2 preservation, on a manifest. -/
def InvI2 (m : Manifest) : Prop :=
  InvI2V m.volumes

/-- Decidable form of `InvI2`, for concrete starting manifests. -/
def invI2B (m : Manifest) : Bool :=
  decide ((keysOf m.volumes).Nodup) &&
    m.volumes.all (fun p =>
      p.2.versions.all (fun r => canonTokB r.version) &&
        (match p.2.selectedVersion with
         | none => true
         | some v => (tokensOf p.2).contains v))

/-! ### Concrete fixtures for counterexamples and witnesses -/

/-- A constant stand-in for the opaque content-hash collaborator. -/
def hashConst : String → String := fun _ => "h"

/-- A constant first-run clock. -/
def tsConst : String → String := fun _ => "t"

/-- A constant second-run clock (a later wall time). -/
def tsConst2 : String → String := fun _ => "u"

/-- A fully canonical record for subject `s`, version `n`. -/
def canonRec (s : String) (n : Nat) : VersionRecord :=
  { id := mkId s n, hash := "h", ts := "t", author := "", notes := "",
    tags := [], version := vstr n, lastUpdated := "t" }

/-- A base manifest with the configuration used by all fixtures. -/
def baseM : Manifest :=
  { indexName := "idx", volumePath := "vols", volumeExtension := ".mha",
    labelPath := "segs", labelExtension := ".nii", volumes := [] }

/-- C1 counterexample: a spec-legal manifest whose only record carries the
token `"v01"` (a valid `v<digits>` token the validation accepts, with its
matching id), while the disk holds the same subject's file named `A-v1`. -/
def recC1 : VersionRecord :=
  { id := "A-v01", hash := "h", ts := "t", author := "", notes := "",
    tags := [], version := "v01", lastUpdated := "t" }

/-- The C1 counterexample manifest. -/
def mC1 : Manifest :=
  { baseM with volumes := [("A", { selectedVersion := some "v01", versions := [recC1] })] }

/-- The index computed from the C1 disk state (volume `A`, segmentation
`A-v1`). -/
def idxC1 : Vols :=
  (verify_volseg_match ["A"] ["A-v1"] "segs" ".nii" hashConst tsConst).index

/-- The manifest after the first reconciliation of the C1 scenario. -/
def m1C1 : Manifest :=
  (update_index mC1 idxC1).2

/-- The index computed a second time from the unchanged C1 disk state, at a
later wall time. -/
def idxC1b : Vols :=
  (verify_volseg_match ["A"] ["A-v1"] "segs" ".nii" hashConst tsConst2).index

/-- C2 counterexample: two subjects, one version id to remove. -/
def mC2 : Manifest :=
  { baseM with volumes :=
      [("A", { selectedVersion := some "v1", versions := [canonRec "A" 1, canonRec "A" 2] }),
       ("B", { selectedVersion := some "v1", versions := [canonRec "B" 1] })] }

/-- The new volumes data for the C2 counterexample: `A-v2` has vanished. -/
def newC2 : Vols :=
  [("A", { selectedVersion := some "v1", versions := [canonRec "A" 1] }),
   ("B", { selectedVersion := some "v1", versions := [canonRec "B" 1] })]

/-- C3 fixture: one subject with versions v1, v2, v3 and v3 selected. -/
def mC3 : Manifest :=
  { baseM with volumes :=
      [("A", { selectedVersion := some "v3",
               versions := [canonRec "A" 1, canonRec "A" 2, canonRec "A" 3] })] }

/-- C5 fixture: a record with stored tags `["a"]`. -/
def recC5 : VersionRecord :=
  { id := "A-v1", hash := "h", ts := "t", author := "au", notes := "no",
    tags := ["a"], version := "v1", lastUpdated := "T1" }

/-- C6 fixture: one subject with a selected version. -/
def mC6 : Manifest :=
  { baseM with volumes := [("A", { selectedVersion := some "v1", versions := [canonRec "A" 1] })] }

/-! ### Lemmas: decimal digits -/

theorem digitChar_isDigit (n : Nat) : (digitChar n).isDigit = true := by
  have h : n % 10 < 10 := Nat.mod_lt _ (by omega)
  unfold digitChar
  generalize n % 10 = d at h ⊢
  interval_cases d <;> decide

theorem digitChar_toNat (n : Nat) : (digitChar n).toNat = 48 + n % 10 := by
  have h : n % 10 < 10 := Nat.mod_lt _ (by omega)
  unfold digitChar
  generalize n % 10 = d at h ⊢
  interval_cases d <;> decide

theorem natDigitsAux_eq (n : Nat) : ∀ (fuel : Nat) (acc : List Char), n < fuel →
    natDigitsAux fuel n acc = natDigits n ++ acc := by
  induction n using Nat.strong_induction_on with
  | _ n ih =>
    intro fuel acc h
    obtain ⟨f, rfl⟩ : ∃ f, fuel = f + 1 := ⟨fuel - 1, by omega⟩
    by_cases h10 : n < 10
    · simp [natDigitsAux, natDigits, h10]
    · have hdiv : n / 10 < n := Nat.div_lt_self (by omega) (by omega)
      have hreq : natDigits n = natDigits (n / 10) ++ [digitChar n] := by
        show natDigitsAux (n + 1) n [] = _
        simp only [natDigitsAux, h10, if_false]
        exact ih (n / 10) hdiv n [digitChar n] (by omega)
      calc natDigitsAux (f + 1) n acc
          = natDigitsAux f (n / 10) (digitChar n :: acc) := by
            simp [natDigitsAux, h10]
        _ = natDigits (n / 10) ++ (digitChar n :: acc) :=
            ih (n / 10) hdiv f _ (by omega)
        _ = (natDigits (n / 10) ++ [digitChar n]) ++ acc := by simp
        _ = natDigits n ++ acc := by rw [← hreq]

theorem natDigits_eq (n : Nat) :
    natDigits n = if n < 10 then [digitChar n] else natDigits (n / 10) ++ [digitChar n] := by
  by_cases h10 : n < 10
  · simp [natDigits, natDigitsAux, h10]
  · have hdiv : n / 10 < n := Nat.div_lt_self (by omega) (by omega)
    have h1 : natDigits n = natDigitsAux n (n / 10) [digitChar n] := by
      simp [natDigits, natDigitsAux, h10]
    rw [h1, natDigitsAux_eq (n / 10) n [digitChar n] (by omega)]
    simp [h10]

theorem natDigits_ne_nil (n : Nat) : natDigits n ≠ [] := by
  rw [natDigits_eq]
  split <;> simp

theorem natDigits_all_isDigit (n : Nat) : ∀ c ∈ natDigits n, c.isDigit = true := by
  induction n using Nat.strong_induction_on with
  | _ n ih =>
    rw [natDigits_eq]
    split
    · intro c hc
      simp only [List.mem_singleton] at hc
      subst hc
      exact digitChar_isDigit n
    · next h =>
      intro c hc
      rcases List.mem_append.mp hc with h1 | h1
      · exact ih (n / 10) (Nat.div_lt_self (by omega) (by omega)) c h1
      · simp only [List.mem_singleton] at h1
        subst h1
        exact digitChar_isDigit n

theorem digitsVal_append_singleton (l : List Char) (c : Char) :
    digitsVal (l ++ [c]) = 10 * digitsVal l + (c.toNat - 48) := by
  simp [digitsVal, List.foldl_append]

theorem digitsVal_natDigits (n : Nat) : digitsVal (natDigits n) = n := by
  induction n using Nat.strong_induction_on with
  | _ n ih =>
    rw [natDigits_eq]
    split
    · next h =>
      simp [digitsVal, digitChar_toNat]
      omega
    · next h =>
      rw [digitsVal_append_singleton,
        ih (n / 10) (Nat.div_lt_self (by omega) (by omega)), digitChar_toNat]
      omega

theorem natDigits_inj {a b : Nat} (h : natDigits a = natDigits b) : a = b := by
  have h2 := congrArg digitsVal h
  simpa [digitsVal_natDigits] using h2

/-! ### Lemmas: strings, `dropLead`, `extract_version_number` -/

theorem stringDataEq {a b : String} (h : a.data = b.data) : a = b := by
  cases a
  cases b
  exact congrArg String.mk h

theorem vstr_data (n : Nat) : (vstr n).data = 'v' :: natDigits n := by
  show ("v" ++ natRepr n).data = _
  rw [String.data_append]
  rfl

theorem vstr_inj {a b : Nat} (h : vstr a = vstr b) : a = b := by
  have h2 := congrArg String.data h
  rw [vstr_data, vstr_data] at h2
  exact natDigits_inj (by injection h2)

theorem vstr_ne_vNone (n : Nat) : vstr n ≠ "v" ++ "None" := by
  intro h
  have h2 := congrArg String.data h
  rw [vstr_data] at h2
  have hlit : ("v" ++ "None" : String).data = ['v', 'N', 'o', 'n', 'e'] := by decide
  rw [hlit] at h2
  have h4 : natDigits n = ['N', 'o', 'n', 'e'] := by
    injection h2
  have h5 : ('N' : Char).isDigit = true :=
    natDigits_all_isDigit n 'N' (by rw [h4]; exact List.mem_cons_self _ _)
  simp at h5

theorem parseTok_vstr (n : Nat) : parseTok (vstr n) = some n := by
  unfold parseTok
  rw [vstr_data]
  have h1 : natDigits n ≠ [] := natDigits_ne_nil n
  have h2 : (natDigits n).all Char.isDigit = true := by
    rw [List.all_eq_true]
    exact natDigits_all_isDigit n
  simp [h1, h2, digitsVal_natDigits]

theorem dropLead_eq_some : ∀ (p l r : List Char), dropLead p l = some r ↔ l = p ++ r := by
  intro p
  induction p with
  | nil =>
      intro l r
      simp [dropLead]
  | cons a ps ih =>
      intro l r
      cases l with
      | nil => simp [dropLead]
      | cons c cs =>
          by_cases h : c = a
          · subst h
            simp [dropLead, ih]
          · simp [dropLead, h]

theorem mkId_data (s : String) (n : Nat) :
    (mkId s n).data = s.data ++ '-' :: 'v' :: natDigits n := by
  show ((s ++ "-") ++ vstr n).data = _
  rw [String.data_append, String.data_append, vstr_data]
  have : ("-" : String).data = ['-'] := rfl
  rw [this]
  simp

theorem extract_some_shape {t s : String} {n : Nat}
    (h : extract_version_number t s = some n) :
    ∃ ds, t.data = s.data ++ '-' :: 'v' :: ds ∧ ds ≠ [] ∧
      (∀ c ∈ ds, c.isDigit = true) ∧ digitsVal ds = n := by
  unfold extract_version_number at h
  have hdata : (s ++ "-v").data = s.data ++ ['-', 'v'] := by
    rw [String.data_append]
    try rfl
  cases hds : dropLead (s ++ "-v").data t.data with
  | none => rw [hds] at h; cases h
  | some ds =>
      rw [hds] at h
      dsimp only at h
      have ht : t.data = (s ++ "-v").data ++ ds := (dropLead_eq_some _ _ _).mp hds
      rw [hdata] at ht
      by_cases hc : ds ≠ [] ∧ ds.all Char.isDigit = true
      · rw [if_pos hc] at h
        refine ⟨ds, by simpa using ht, hc.1, ?_, by injection h⟩
        intro c hcm
        exact List.all_eq_true.mp hc.2 c hcm
      · rw [if_neg hc] at h
        simp at h

theorem extract_of_shape (t s : String) (ds : List Char)
    (hts : t.data = s.data ++ '-' :: 'v' :: ds) (h1 : ds ≠ [])
    (h2 : ∀ c ∈ ds, c.isDigit = true) :
    extract_version_number t s = some (digitsVal ds) := by
  unfold extract_version_number
  have hdata : (s ++ "-v").data = s.data ++ ['-', 'v'] := by
    rw [String.data_append]
    try rfl
  have hdl : dropLead (s ++ "-v").data t.data = some ds := by
    rw [dropLead_eq_some, hdata, hts]
    simp
  rw [hdl]
  dsimp only
  rw [if_pos ⟨h1, List.all_eq_true.mpr h2⟩]

theorem takeWhile_all_append (p : Char → Bool) :
    ∀ (a : List Char) (b : Char) (r : List Char),
      (∀ c ∈ a, p c = true) → p b = false → ((a ++ b :: r).takeWhile p) = a := by
  intro a
  induction a with
  | nil =>
      intro b r _ hb
      simp [List.takeWhile, hb]
  | cons x xs ih =>
      intro b r ha hb
      have hx : p x = true := ha x (List.mem_cons_self _ _)
      have hrest : List.takeWhile p (xs ++ b :: r) = xs :=
        ih b r (fun c hc => ha c (List.mem_cons_of_mem _ hc)) hb
      simp [List.takeWhile_cons, hx, hrest]

theorem sep_digits_inj {s1 s2 d1 d2 : List Char}
    (hd1 : ∀ c ∈ d1, c.isDigit = true) (hd2 : ∀ c ∈ d2, c.isDigit = true)
    (h : s1 ++ '-' :: 'v' :: d1 = s2 ++ '-' :: 'v' :: d2) : s1 = s2 ∧ d1 = d2 := by
  have hrev := congrArg List.reverse h
  have hshape : ∀ (s d : List Char),
      (s ++ '-' :: 'v' :: d).reverse = d.reverse ++ 'v' :: '-' :: s.reverse := by
    intro s d
    simp
  rw [hshape, hshape] at hrev
  have h1 : (d1.reverse ++ 'v' :: '-' :: s1.reverse).takeWhile Char.isDigit = d1.reverse :=
    takeWhile_all_append _ _ _ _
      (fun c hc => hd1 c (List.mem_reverse.mp hc)) (by decide)
  have h2 : (d2.reverse ++ 'v' :: '-' :: s2.reverse).takeWhile Char.isDigit = d2.reverse :=
    takeWhile_all_append _ _ _ _
      (fun c hc => hd2 c (List.mem_reverse.mp hc)) (by decide)
  have hd : d1 = d2 := by
    have : d1.reverse = d2.reverse := by rw [← h1, ← h2, hrev]
    simpa using congrArg List.reverse this
  subst hd
  refine ⟨?_, rfl⟩
  have hs : s1.reverse = s2.reverse := by
    have h3 := hrev
    rw [List.append_cancel_left_eq] at h3
    · injection h3 with _ h4
      injection h4
  simpa using congrArg List.reverse hs

theorem extract_mkId_eq (s : String) (n : Nat) :
    extract_version_number (mkId s n) s = some n := by
  have h := extract_of_shape (mkId s n) s (natDigits n) (mkId_data s n)
    (natDigits_ne_nil n) (natDigits_all_isDigit n)
  rwa [digitsVal_natDigits] at h

theorem extract_mkId_unique {s s' : String} {n k : Nat}
    (h : extract_version_number (mkId s n) s' = some k) : s' = s ∧ k = n := by
  obtain ⟨ds, hts, hne, hdig, hval⟩ := extract_some_shape h
  rw [mkId_data] at hts
  obtain ⟨hs, hd⟩ := sep_digits_inj hdig (natDigits_all_isDigit n) hts.symm
  constructor
  · exact stringDataEq hs
  · rw [← hval, hd, digitsVal_natDigits]

/-! ### Lemmas: canonical tokens -/

theorem canonTokB_iff {v : String} : canonTokB v = true ↔ ∃ n, v = vstr n := by
  unfold canonTokB
  constructor
  · intro h
    exact ⟨digitsVal v.data.tail, by simpa using h⟩
  · rintro ⟨n, rfl⟩
    have h1 : (vstr n).data.tail = natDigits n := by
      rw [vstr_data]
      rfl
    rw [h1, digitsVal_natDigits]
    simp

theorem canonTokB_vstr (n : Nat) : canonTokB (vstr n) = true :=
  canonTokB_iff.mpr ⟨n, rfl⟩

/-! ### Lemmas: the volumes dictionary -/

theorem lookupVol_nil (s : String) : lookupVol [] s = none := rfl

theorem lookupVol_cons (p : String × VolumeEntry) (vols : Vols) (s : String) :
    lookupVol (p :: vols) s = if p.1 = s then some p.2 else lookupVol vols s := by
  by_cases h : p.1 = s
  · have hb : (p.1 == s) = true := by simpa using h
    simp [lookupVol, List.find?, hb, h]
  · have hb : (p.1 == s) = false := by simpa using h
    simp [lookupVol, List.find?, hb, h]

theorem keysOf_cons (p : String × VolumeEntry) (vols : Vols) :
    keysOf (p :: vols) = p.1 :: keysOf vols := rfl

theorem lookupVol_eq_none {s : String} :
    ∀ {vols : Vols}, lookupVol vols s = none ↔ s ∉ keysOf vols := by
  intro vols
  induction vols with
  | nil => simp [lookupVol, keysOf]
  | cons p rest ih =>
      rw [lookupVol_cons, keysOf_cons]
      by_cases h : p.1 = s
      · simp [h]
      · rw [if_neg h, ih]
        simp only [List.mem_cons, not_or]
        constructor
        · intro hn
          exact ⟨fun hc => h hc.symm, hn⟩
        · intro hn
          exact hn.2

theorem lookup_mem {s : String} {e : VolumeEntry} :
    ∀ {vols : Vols}, lookupVol vols s = some e → (s, e) ∈ vols := by
  intro vols
  induction vols with
  | nil => intro h; cases h
  | cons p rest ih =>
      intro h
      rw [lookupVol_cons] at h
      by_cases hp : p.1 = s
      · rw [if_pos hp] at h
        injection h with h
        exact List.mem_cons.mpr (Or.inl (by rw [← h, ← hp]))
      · rw [if_neg hp] at h
        exact List.mem_cons_of_mem _ (ih h)

theorem lookup_mem_keys {vols : Vols} {s : String} {e : VolumeEntry}
    (h : lookupVol vols s = some e) : s ∈ keysOf vols := by
  exact List.mem_map.mpr ⟨(s, e), lookup_mem h, rfl⟩

theorem mem_lookup {s : String} {e : VolumeEntry} :
    ∀ {vols : Vols}, (keysOf vols).Nodup → (s, e) ∈ vols → lookupVol vols s = some e := by
  intro vols
  induction vols with
  | nil => intro _ h; cases h
  | cons p rest ih =>
      intro hnd h
      have hnd2 := List.nodup_cons.mp (show (p.1 :: keysOf rest).Nodup from hnd)
      rw [lookupVol_cons]
      rcases List.mem_cons.mp h with h1 | h1
      · rw [← h1]
        simp
      · have hk : s ∈ keysOf rest := List.mem_map.mpr ⟨(s, e), h1, rfl⟩
        have hp : ¬ p.1 = s := by
          intro hc
          rw [hc] at hnd2
          exact hnd2.1 hk
        rw [if_neg hp]
        exact ih hnd2.2 h1

theorem keysOf_setVol (vols : Vols) (s : String) (e : VolumeEntry) :
    keysOf (setVol vols s e) = keysOf vols := by
  simp only [keysOf, setVol, List.map_map]
  apply List.map_congr_left
  intro p _
  by_cases h : p.1 = s
  · simp [h]
  · simp [h]

theorem setVol_cons (p : String × VolumeEntry) (vols : Vols) (s : String) (e : VolumeEntry) :
    setVol (p :: vols) s e = (if p.1 = s then (s, e) else p) :: setVol vols s e := rfl

theorem lookupVol_setVol_ne {s s' : String} (e : VolumeEntry) (h : s' ≠ s) :
    ∀ (vols : Vols), lookupVol (setVol vols s e) s' = lookupVol vols s' := by
  intro vols
  induction vols with
  | nil => rfl
  | cons p rest ih =>
      rw [setVol_cons, lookupVol_cons, lookupVol_cons]
      by_cases hp : p.1 = s
      · rw [if_pos hp]
        have h1 : ¬ ((s, e).1 = s') := fun hc => h hc.symm
        have h2 : ¬ (p.1 = s') := by
          rw [hp]
          exact fun hc => h hc.symm
        rw [if_neg h1, if_neg h2, ih]
      · rw [if_neg hp, ih]

theorem lookupVol_setVol_self {s : String} {e' : VolumeEntry} (e : VolumeEntry) :
    ∀ {vols : Vols}, lookupVol vols s = some e' → lookupVol (setVol vols s e) s = some e := by
  intro vols
  induction vols with
  | nil => intro h; cases h
  | cons p rest ih =>
      intro h
      rw [lookupVol_cons] at h
      rw [setVol_cons]
      by_cases hp : p.1 = s
      · rw [if_pos hp, lookupVol_cons]
        simp
      · rw [if_neg hp] at h
        rw [if_neg hp, lookupVol_cons, if_neg hp]
        exact ih h

theorem setVol_not_mem {s : String} (e : VolumeEntry) :
    ∀ {vols : Vols}, s ∉ keysOf vols → setVol vols s e = vols := by
  intro vols
  induction vols with
  | nil => intro _; rfl
  | cons p rest ih =>
      intro h
      rw [keysOf_cons, List.mem_cons, not_or] at h
      rw [setVol_cons, if_neg (fun hc => h.1 hc.symm), ih h.2]

theorem setVol_self {s : String} {e : VolumeEntry} :
    ∀ {vols : Vols}, (keysOf vols).Nodup → lookupVol vols s = some e →
      setVol vols s e = vols := by
  intro vols
  induction vols with
  | nil => intro _ h; cases h
  | cons p rest ih =>
      intro hnd h
      have hnd2 := List.nodup_cons.mp (show (p.1 :: keysOf rest).Nodup from hnd)
      rw [lookupVol_cons] at h
      rw [setVol_cons]
      by_cases hp : p.1 = s
      · rw [if_pos hp] at h ⊢
        injection h with h
        have hpe : p = (s, e) := by
          rw [← hp, ← h]
        have hrest : s ∉ keysOf rest := by
          rw [← hp]
          exact hnd2.1
        rw [← hpe, setVol_not_mem e hrest]
      · rw [if_neg hp] at h ⊢
        rw [ih hnd2.2 h]

theorem keysOf_delVol_mem {vols : Vols} {s s' : String} :
    s' ∈ keysOf (delVol vols s) ↔ s' ∈ keysOf vols ∧ s' ≠ s := by
  simp only [keysOf, delVol, List.mem_map, List.mem_filter]
  constructor
  · rintro ⟨p, ⟨hm, hne⟩, rfl⟩
    exact ⟨⟨p, hm, rfl⟩, by simpa using hne⟩
  · rintro ⟨⟨p, hm, rfl⟩, hne⟩
    exact ⟨p, ⟨hm, by simpa using hne⟩, rfl⟩

theorem lookupVol_delVol_self (vols : Vols) (s : String) :
    lookupVol (delVol vols s) s = none := by
  rw [lookupVol_eq_none, keysOf_delVol_mem]
  simp

theorem delVol_cons (p : String × VolumeEntry) (vols : Vols) (s : String) :
    delVol (p :: vols) s = if (p.1 != s) = true then p :: delVol vols s else delVol vols s := by
  simp only [delVol, List.filter_cons]

theorem lookupVol_delVol_ne {s s' : String} (h : s' ≠ s) :
    ∀ (vols : Vols), lookupVol (delVol vols s) s' = lookupVol vols s' := by
  intro vols
  induction vols with
  | nil => rfl
  | cons p rest ih =>
      rw [delVol_cons, lookupVol_cons]
      by_cases hp : p.1 = s
      · have hb : (p.1 != s) = false := by simp [hp]
        rw [hb]
        simp only [Bool.false_eq_true, if_false]
        rw [ih]
        have hps : ¬ p.1 = s' := by
          rw [hp]
          exact fun hc => h hc.symm
        rw [if_neg hps]
      · have hb : (p.1 != s) = true := by simp [hp]
        rw [hb]
        simp only [if_true]
        rw [lookupVol_cons, ih]

theorem nodup_keysOf_delVol {s : String} :
    ∀ {vols : Vols}, (keysOf vols).Nodup → (keysOf (delVol vols s)).Nodup := by
  intro vols
  induction vols with
  | nil => intro h; simpa using h
  | cons p rest ih =>
      intro hnd
      have hnd2 := List.nodup_cons.mp (show (p.1 :: keysOf rest).Nodup from hnd)
      rw [delVol_cons]
      by_cases hp : p.1 = s
      · have hb : (p.1 != s) = false := by simp [hp]
        rw [hb]
        simp only [Bool.false_eq_true, if_false]
        exact ih hnd2.2
      · have hb : (p.1 != s) = true := by simp [hp]
        rw [hb]
        simp only [if_true, keysOf_cons]
        refine List.nodup_cons.mpr ⟨?_, ih hnd2.2⟩
        intro hc
        exact hnd2.1 (keysOf_delVol_mem.mp hc).1

theorem mem_segIds {vols : Vols} {i : String} :
    i ∈ segIds vols ↔ ∃ p ∈ vols, ∃ r ∈ p.2.versions, r.id = i := by
  simp [segIds, List.mem_flatMap, List.mem_map]

theorem lookupVol_append_left {s : String} {e : VolumeEntry} :
    ∀ {vols vols' : Vols}, lookupVol vols s = some e →
      lookupVol (vols ++ vols') s = some e := by
  intro vols vols'
  induction vols with
  | nil => intro h; cases h
  | cons p rest ih =>
      intro h
      rw [lookupVol_cons] at h
      rw [List.cons_append, lookupVol_cons]
      by_cases hp : p.1 = s
      · rw [if_pos hp] at h
        rw [if_pos hp]
        exact h
      · rw [if_neg hp] at h
        rw [if_neg hp]
        exact ih h

theorem lookupVol_append_sing {s : String} (p : String × VolumeEntry) :
    ∀ {vols : Vols}, lookupVol vols s = none →
      lookupVol (vols ++ [p]) s = if p.1 = s then some p.2 else none := by
  intro vols
  induction vols with
  | nil =>
      intro _
      rw [List.nil_append, lookupVol_cons, lookupVol_nil]
  | cons q rest ih =>
      intro h
      rw [lookupVol_cons] at h
      by_cases hq : q.1 = s
      · rw [if_pos hq] at h
        cases h
      · rw [if_neg hq] at h
        rw [List.cons_append, lookupVol_cons, if_neg hq, ih h]

theorem setVol_append (vols vols' : Vols) (s : String) (e : VolumeEntry) :
    setVol (vols ++ vols') s e = setVol vols s e ++ setVol vols' s e := by
  simp [setVol]

/-! ### Lemmas: `add_volume_version` -/

theorem any_token_iff {e : VolumeEntry} {ver : String} :
    e.versions.any (fun v => v.version == ver) = true ↔ ver ∈ tokensOf e := by
  simp [tokensOf, List.any_eq_true, beq_iff_eq, List.mem_map]

theorem add_dup {m : Manifest} {s ver : String} {e : VolumeEntry}
    (hs : String → String) (a no : String) (tg : List String) (ts lu : String)
    (hl : lookupVol m.volumes s = some e)
    (hdup : e.versions.any (fun v => v.version == ver) = true) :
    add_volume_version hs m s ver a no tg ts lu = (m, false) := by
  unfold add_volume_version
  simp only [hl, reduceCtorEq, if_false]
  rw [hdup]
  simp

theorem add_fresh_existing {m : Manifest} {s ver : String} {e : VolumeEntry}
    (hs : String → String) (a no : String) (tg : List String) (ts lu : String)
    (hl : lookupVol m.volumes s = some e)
    (hdup : e.versions.any (fun v => v.version == ver) = false) :
    add_volume_version hs m s ver a no tg ts lu =
      ({ m with volumes :=
          setVol m.volumes s (appendVersion e (addEntry hs s ver a no tg ts lu)) }, true) := by
  unfold add_volume_version
  simp only [hl, reduceCtorEq, if_false]
  rw [hdup]
  simp [appendVersion]

theorem add_new {m : Manifest} {s : String} (ver : String)
    (hs : String → String) (a no : String) (tg : List String) (ts lu : String)
    (hl : lookupVol m.volumes s = none) :
    add_volume_version hs m s ver a no tg ts lu =
      ({ m with volumes := m.volumes ++
          [(s, { selectedVersion := some ver,
                 versions := [addEntry hs s ver a no tg ts lu] })] }, true) := by
  have h0 : s ∉ keysOf m.volumes := by rw [← lookupVol_eq_none]; exact hl
  unfold add_volume_version
  simp only [hl, if_true, if_pos]
  have h2 : lookupVol (m.volumes ++
      [(s, ({ selectedVersion := some ver, versions := [] } : VolumeEntry))]) s =
      some { selectedVersion := some ver, versions := [] } := by
    rw [lookupVol_append_sing _ hl]
    simp
  rw [h2]
  dsimp only
  simp only [List.any_nil, Bool.false_eq_true, if_false]
  rw [setVol_append, setVol_not_mem _ h0]
  simp [setVol]

/-! ### Lemmas: the merge pass -/

theorem mergeOne_absent {vols : Vols} {k : String} (ne : VolumeEntry)
    (h : lookupVol vols k = none) :
    mergeOne vols k ne = (vols ++ [(k, ne)],
      LogMsg.addedVolume k :: ne.versions.map (fun v => LogMsg.addedVersion v.version k)) := by
  unfold mergeOne
  rw [h]

theorem mergeOne_present {vols : Vols} {k : String} (ne : VolumeEntry) {e : VolumeEntry}
    (h : lookupVol vols k = some e) :
    mergeOne vols k ne =
      (setVol vols k { e with versions :=
          e.versions ++ ne.versions.filter (fun v => !((tokensOf e).contains v.version)) },
        (ne.versions.filter (fun v => !((tokensOf e).contains v.version))).map
          (fun v => LogMsg.addedVersion v.version k)) := by
  unfold mergeOne
  rw [h]
  rfl

theorem mergePass_cons (vols : Vols) (q : String × VolumeEntry) (rest : Vols) :
    mergePass vols (q :: rest) =
      ((mergePass (mergeOne vols q.1 q.2).1 rest).1,
        (mergeOne vols q.1 q.2).2 ++ (mergePass (mergeOne vols q.1 q.2).1 rest).2) := rfl

theorem mergePass_keeps_selected :
    ∀ (newVols : Vols) {vols : Vols} {s : String} {e : VolumeEntry},
      lookupVol vols s = some e →
      ∃ e', lookupVol (mergePass vols newVols).1 s = some e' ∧
        e'.selectedVersion = e.selectedVersion := by
  intro newVols
  induction newVols with
  | nil => intro vols s e h; exact ⟨e, h, rfl⟩
  | cons q rest ih =>
      intro vols s e h
      rw [mergePass_cons]
      cases hk : lookupVol vols q.1 with
      | none =>
          rw [mergeOne_absent q.2 hk]
          exact ih (lookupVol_append_left h)
      | some e0 =>
          rw [mergeOne_present q.2 hk]
          by_cases hqs : q.1 = s
          · subst hqs
            have he : e0 = e := Option.some.inj (by rw [← hk, h])
            obtain ⟨e', h1, h2⟩ := ih (lookupVol_setVol_self { selectedVersion := e0.selectedVersion, versions := e0.versions ++ List.filter (fun v => !((tokensOf e0).contains v.version)) q.2.versions } hk)
            refine ⟨e', h1, ?_⟩
            rw [h2, ← he]
          · exact ih (by rw [lookupVol_setVol_ne _ (fun hc => hqs hc.symm)]; exact h)

/-- Claim C9: for a subject already present with the same version token,
`add_volume_version` is a no-op: the manifest value is returned unchanged
and the operation reports `False` ("already present") rather than failing;
consequently adding the same `(subject, N)` pair twice equals adding it
once. -/
theorem claim_C9_duplicate_add :
    (∀ (hs : String → String) (m : Manifest) (s ver a no : String) (tg : List String)
        (ts lu : String) (e : VolumeEntry),
        lookupVol m.volumes s = some e → ver ∈ tokensOf e →
        add_volume_version hs m s ver a no tg ts lu = (m, false)) ∧
    (∀ (hs hs2 : String → String) (m : Manifest) (s ver a no a2 no2 : String)
        (tg tg2 : List String) (ts lu ts2 lu2 : String),
        (add_volume_version hs2 (add_volume_version hs m s ver a no tg ts lu).1
            s ver a2 no2 tg2 ts2 lu2).1 =
          (add_volume_version hs m s ver a no tg ts lu).1) := by
  constructor
  · intro hs m s ver a no tg ts lu e hl hin
    exact add_dup hs a no tg ts lu hl (any_token_iff.mpr hin)
  · intro hs hs2 m s ver a no a2 no2 tg tg2 ts lu ts2 lu2
    cases hl : lookupVol m.volumes s with
    | none =>
        rw [add_new ver hs a no tg ts lu hl]
        have h2 : lookupVol (m.volumes ++
            [(s, ({ selectedVersion := some ver,
                    versions := [addEntry hs s ver a no tg ts lu] } : VolumeEntry))]) s =
            some { selectedVersion := some ver,
                   versions := [addEntry hs s ver a no tg ts lu] } := by
          rw [lookupVol_append_sing _ hl]
          simp
        rw [add_dup hs2 a2 no2 tg2 ts2 lu2 h2 (by simp [addEntry])]
    | some e =>
        cases hdup : e.versions.any (fun v => v.version == ver) with
        | true =>
            rw [add_dup hs a no tg ts lu hl hdup, add_dup hs2 a2 no2 tg2 ts2 lu2 hl hdup]
        | false =>
            rw [add_fresh_existing hs a no tg ts lu hl hdup]
            have h2 := lookupVol_setVol_self
              (appendVersion e (addEntry hs s ver a no tg ts lu)) hl
            rw [add_dup hs2 a2 no2 tg2 ts2 lu2 h2 (by simp [appendVersion, addEntry])]

/-- Witness for C9 at a concrete manifest: subject `A` already carries
`v1`, so re-adding `v1` returns the manifest unchanged with `False`. -/
theorem claim_C9_duplicate_add_witness :
    add_volume_version hashConst mC2 "A" "v1" "" "" [] "t" "t" = (mC2, false) := by
  refine claim_C9_duplicate_add.1 hashConst mC2 "A" "v1" "" "" [] "t" "t"
    { selectedVersion := some "v1", versions := [canonRec "A" 1, canonRec "A" 2] } ?_ ?_
  · decide
  · decide

/-- Claim C10: `add_volume_version` sets the selection only when it creates
a brand-new subject entry; appending to an existing subject leaves the
selection unchanged (whatever the new version number), and the merge pass
of reconciliation likewise never touches the selection of an existing
entry. -/
theorem claim_C10_add_preserves_selection :
    (∀ (hs : String → String) (m : Manifest) (s ver a no : String) (tg : List String)
        (ts lu : String) (e : VolumeEntry),
        lookupVol m.volumes s = some e →
        get_selected_version (add_volume_version hs m s ver a no tg ts lu).1 s =
          e.selectedVersion) ∧
    (∀ (hs : String → String) (m : Manifest) (s ver a no : String) (tg : List String)
        (ts lu : String),
        lookupVol m.volumes s = none →
        get_selected_version (add_volume_version hs m s ver a no tg ts lu).1 s =
          some ver) ∧
    (∀ (newVols vols : Vols) (s : String) (e : VolumeEntry),
        lookupVol vols s = some e →
        ∃ e', lookupVol (mergePass vols newVols).1 s = some e' ∧
          e'.selectedVersion = e.selectedVersion) := by
  refine ⟨?_, ?_, ?_⟩
  · intro hs m s ver a no tg ts lu e hl
    cases hdup : e.versions.any (fun v => v.version == ver) with
    | true =>
        rw [add_dup hs a no tg ts lu hl hdup]
        unfold get_selected_version
        rw [hl]
    | false =>
        rw [add_fresh_existing hs a no tg ts lu hl hdup]
        unfold get_selected_version
        rw [lookupVol_setVol_self _ hl]
        simp [appendVersion]
  · intro hs m s ver a no tg ts lu hl
    rw [add_new ver hs a no tg ts lu hl]
    unfold get_selected_version
    rw [lookupVol_append_sing _ hl]
    simp
  · intro newVols vols s e h
    exact mergePass_keeps_selected newVols h

/-- Witness for C10: appending `v9` to subject `A` (selected `v1`,
versions v1 and v2) leaves the selection at `v1`; adding to the fresh
subject `C` selects the added token; the merge pass keeps `A`'s selection. -/
theorem claim_C10_add_preserves_selection_witness :
    get_selected_version (add_volume_version hashConst mC2 "A" "v9" "" "" [] "t" "t").1 "A" =
      some "v1" ∧
    get_selected_version (add_volume_version hashConst mC2 "C" "v9" "" "" [] "t" "t").1 "C" =
      some "v9" ∧
    ∃ e', lookupVol (mergePass mC2.volumes newC2).1 "A" = some e' ∧
      e'.selectedVersion = some "v1" := by
  refine ⟨?_, ?_, ?_⟩
  · rw [claim_C10_add_preserves_selection.1 hashConst mC2 "A" "v9" "" "" [] "t" "t"
      { selectedVersion := some "v1", versions := [canonRec "A" 1, canonRec "A" 2] }
      (by decide)]
  · exact claim_C10_add_preserves_selection.2.1 hashConst mC2 "C" "v9" "" "" [] "t" "t"
      (by decide)
  · exact claim_C10_add_preserves_selection.2.2 newC2 mC2.volumes "A"
      { selectedVersion := some "v1", versions := [canonRec "A" 1, canonRec "A" 2] }
      (by decide)

/-- Claim C5 (code bug evidence): the metadata updater compares the raw
comma-separated tags STRING against the stored tags LIST
(`seg_tags != v.get("tags", [])`, a str-vs-list comparison that is always
true in Python), so re-supplying tags equal to the stored tags still marks
the record changed and bumps `last-updated`: on a record with tags `["a"]`
and `last-updated` `"T1"`, supplying tags `"a"` (which normalises to the
stored value) yields `changed = true` and `last-updated = "T2"`. -/
theorem claim_C5_metadata_tags_always_bump :
    splitTags "a" = recC5.tags ∧
    recC5.lastUpdated = "T1" ∧
    update_metadata_record recC5 "" "" "a" "T2" =
      ({ recC5 with tags := ["a"], lastUpdated := "T2" }, true) := by
  decide

/-- Claim C8 (code bug evidence): the pure version derivation of
`link_segmentation` behaves as claimed (own suffix when the name matches,
else latest+1, else 1), but the subsequent append can never run: the call
site passes the keyword argument `hash`, which is not among the parameters
of `add_volume_version`, so Python raises `TypeError` before any append. -/
theorem claim_C8_link_version_derivation_and_call_mismatch :
    ("hash" ∈ link_segmentation_add_call_keywords ∧
      "hash" ∉ add_volume_version_params) ∧
    derive_link_version mC2 "A" "Aseg" = 3 ∧
    derive_link_version baseM "A" "Aseg" = 1 ∧
    derive_link_version mC2 "A" "A-v7" = 7 := by
  decide

/-! ### Lemmas: `remove_volume_version` -/

theorem mkEntry_eta (e : VolumeEntry) : mkEntry e.selectedVersion e.versions = e := rfl

theorem setVol_setVol (vols : Vols) (s : String) (e1 e2 : VolumeEntry) :
    setVol (setVol vols s e1) s e2 = setVol vols s e2 := by
  simp only [setVol, List.map_map]
  apply List.map_congr_left
  intro p _
  by_cases h : p.1 = s
  · simp [h]
  · simp [h]

theorem delVol_setVol (vols : Vols) (s : String) (e1 : VolumeEntry) :
    delVol (setVol vols s e1) s = delVol vols s := by
  induction vols with
  | nil => rfl
  | cons p rest ih =>
      rw [setVol_cons, delVol_cons, delVol_cons]
      by_cases h : p.1 = s
      · rw [if_pos h]
        have h1 : ((s, e1).1 != s) = false := by simp
        have h2 : (p.1 != s) = false := by simp [h]
        rw [h1, h2]
        simp only [Bool.false_eq_true, if_false]
        exact ih
      · rw [if_neg h]
        rw [ih]

theorem remove_absent (m : Manifest) (s tok : String)
    (h : lookupVol m.volumes s = none) :
    remove_volume_version m s tok = (m, none) := by
  unfold remove_volume_version
  rw [h]

theorem remove_not_selected {m : Manifest} {s tok : String} {e : VolumeEntry}
    (hl : lookupVol m.volumes s = some e)
    (hsel : e.selectedVersion ≠ some tok)
    (hne : e.versions.filter (fun v => v.version != tok) ≠ []) :
    remove_volume_version m s tok =
      ({ m with volumes :=
          setVol m.volumes s (mkEntry e.selectedVersion (e.versions.filter (fun v => v.version != tok))) }, none) := by
  unfold remove_volume_version
  rw [hl]
  dsimp only
  have hm1 : set_versions m s (e.versions.filter (fun v => v.version != tok)) =
      { m with volumes :=
          setVol m.volumes s (mkEntry e.selectedVersion (e.versions.filter (fun v => v.version != tok))) } := by
    unfold set_versions
    rw [hl]
    rfl
  rw [hm1]
  have hlk : lookupVol (setVol m.volumes s
      (mkEntry e.selectedVersion (e.versions.filter (fun v => v.version != tok)))) s =
      some (mkEntry e.selectedVersion (e.versions.filter (fun v => v.version != tok))) :=
    lookupVol_setVol_self _ hl
  have hsel2 : get_selected_version { m with volumes := setVol m.volumes s (mkEntry e.selectedVersion (e.versions.filter (fun v => v.version != tok))) } s = e.selectedVersion := by
    unfold get_selected_version
    rw [hlk]
    rfl
  rw [hsel2, if_neg hsel]
  dsimp only
  rw [hlk]
  simp only [mkEntry]
  have hemp : (e.versions.filter (fun v => v.version != tok)).isEmpty = false := by
    rw [List.isEmpty_eq_false]
    exact hne
  rw [hemp]
  simp [mkEntry]

theorem remove_selected_repair {m : Manifest} {s tok : String} {e : VolumeEntry}
    (hl : lookupVol m.volumes s = some e)
    (hsel : e.selectedVersion = some tok)
    (hvne : e.versions ≠ [])
    (hne : e.versions.filter (fun v => v.version != tok) ≠ []) :
    remove_volume_version m s tok =
      ({ m with volumes :=
          setVol m.volumes s (mkEntry (some (vstrOpt (latestFold (e.versions.filter (fun v => v.version != tok))))) (e.versions.filter (fun v => v.version != tok))) },
        some (LogMsg.selectionUpdated s (vstrOpt (latestFold (e.versions.filter (fun v => v.version != tok)))))) := by
  unfold remove_volume_version
  rw [hl]
  dsimp only
  have hm1 : set_versions m s (e.versions.filter (fun v => v.version != tok)) =
      { m with volumes :=
          setVol m.volumes s (mkEntry e.selectedVersion (e.versions.filter (fun v => v.version != tok))) } := by
    unfold set_versions
    rw [hl]
    rfl
  rw [hm1]
  have hlk : lookupVol (setVol m.volumes s
      (mkEntry e.selectedVersion (e.versions.filter (fun v => v.version != tok)))) s =
      some (mkEntry e.selectedVersion (e.versions.filter (fun v => v.version != tok))) :=
    lookupVol_setVol_self _ hl
  have hsel2 : get_selected_version { m with volumes := setVol m.volumes s (mkEntry e.selectedVersion (e.versions.filter (fun v => v.version != tok))) } s = e.selectedVersion := by
    unfold get_selected_version
    rw [hlk]
    rfl
  rw [hsel2, if_pos hsel, if_pos hvne]
  have hlat : get_latest_version { m with volumes := setVol m.volumes s (mkEntry e.selectedVersion (e.versions.filter (fun v => v.version != tok))) } s = latestFold (e.versions.filter (fun v => v.version != tok)) := by
    unfold get_latest_version
    rw [hlk]
    rfl
  rw [hlat]
  have hss : set_selected_version { m with volumes := setVol m.volumes s (mkEntry e.selectedVersion (e.versions.filter (fun v => v.version != tok))) } s (some (vstrOpt (latestFold (e.versions.filter (fun v => v.version != tok))))) = { m with volumes := setVol m.volumes s (mkEntry (some (vstrOpt (latestFold (e.versions.filter (fun v => v.version != tok))))) (e.versions.filter (fun v => v.version != tok))) } := by
    unfold set_selected_version
    rw [hlk]
    dsimp only
    rw [setVol_setVol]
    rfl
  rw [hss]
  dsimp only
  have hlk2 : lookupVol (setVol m.volumes s
      (mkEntry (some (vstrOpt (latestFold (e.versions.filter (fun v => v.version != tok))))) (e.versions.filter (fun v => v.version != tok)))) s =
      some (mkEntry (some (vstrOpt (latestFold (e.versions.filter (fun v => v.version != tok))))) (e.versions.filter (fun v => v.version != tok))) :=
    lookupVol_setVol_self _ hl
  rw [hlk2]
  simp only [mkEntry]
  have hemp : (e.versions.filter (fun v => v.version != tok)).isEmpty = false := by
    rw [List.isEmpty_eq_false]
    exact hne
  rw [hemp]
  simp [mkEntry]

theorem remove_emptied_fst {m : Manifest} {s tok : String} {e : VolumeEntry}
    (hl : lookupVol m.volumes s = some e)
    (hF : e.versions.filter (fun v => v.version != tok) = []) :
    (remove_volume_version m s tok).1 = { m with volumes := delVol m.volumes s } := by
  unfold remove_volume_version
  rw [hl]
  dsimp only
  rw [hF]
  have hm1 : set_versions m s ([] : List VersionRecord) =
      { m with volumes := setVol m.volumes s (mkEntry e.selectedVersion []) } := by
    unfold set_versions
    rw [hl]
    rfl
  rw [hm1]
  have hlk : lookupVol (setVol m.volumes s (mkEntry e.selectedVersion [])) s =
      some (mkEntry e.selectedVersion []) :=
    lookupVol_setVol_self _ hl
  have hsel2 : get_selected_version { m with volumes := setVol m.volumes s (mkEntry e.selectedVersion []) } s = e.selectedVersion := by
    unfold get_selected_version
    rw [hlk]
    rfl
  rw [hsel2]
  by_cases hsel : e.selectedVersion = some tok
  · rw [if_pos hsel]
    by_cases hv : e.versions ≠ []
    · rw [if_pos hv]
      have hss : set_selected_version { m with volumes := setVol m.volumes s (mkEntry e.selectedVersion []) } s (some (vstrOpt (get_latest_version { m with volumes := setVol m.volumes s (mkEntry e.selectedVersion []) } s))) = { m with volumes := setVol m.volumes s (mkEntry (some (vstrOpt (get_latest_version { m with volumes := setVol m.volumes s (mkEntry e.selectedVersion []) } s))) []) } := by
        unfold set_selected_version
        rw [hlk]
        dsimp only
        rw [setVol_setVol]
        rfl
      rw [hss]
      dsimp only
      rw [lookupVol_setVol_self _ hl]
      simp only [mkEntry]
      simp only [List.isEmpty_nil, if_true]
      rw [delVol_setVol]
    · rw [if_neg hv]
      have hss : set_selected_version { m with volumes := setVol m.volumes s (mkEntry e.selectedVersion []) } s none = { m with volumes := setVol m.volumes s (mkEntry none []) } := by
        unfold set_selected_version
        rw [hlk]
        dsimp only
        rw [setVol_setVol]
        rfl
      rw [hss]
      dsimp only
      rw [lookupVol_setVol_self _ hl]
      simp only [mkEntry]
      simp only [List.isEmpty_nil, if_true]
      rw [delVol_setVol]
  · rw [if_neg hsel]
    dsimp only
    rw [hlk]
    simp only [mkEntry]
    simp only [List.isEmpty_nil, if_true]
    rw [delVol_setVol]

theorem filter_all_ne {l : List VersionRecord} {tok : String}
    (h : ∀ r ∈ l, r.version ≠ tok) :
    l.filter (fun v => v.version != tok) = l := by
  rw [List.filter_eq_self]
  intro r hr
  simpa using h r hr

theorem remove_noop {m : Manifest} {s tok : String} {e : VolumeEntry}
    (hnd : (keysOf m.volumes).Nodup)
    (hl : lookupVol m.volumes s = some e)
    (hnotok : ∀ r ∈ e.versions, r.version ≠ tok)
    (hsel : e.selectedVersion ≠ some tok)
    (hvne : e.versions ≠ []) :
    remove_volume_version m s tok = (m, none) := by
  rw [remove_not_selected hl hsel (by rw [filter_all_ne hnotok]; exact hvne)]
  rw [filter_all_ne hnotok, mkEntry_eta, setVol_self hnd hl]

theorem remove_frame {m : Manifest} {s tok s' : String} (h : s' ≠ s) :
    lookupVol (remove_volume_version m s tok).1.volumes s' = lookupVol m.volumes s' := by
  cases hl : lookupVol m.volumes s with
  | none => rw [remove_absent _ _ _ hl]
  | some e =>
      by_cases hF : e.versions.filter (fun v => v.version != tok) = []
      · rw [remove_emptied_fst hl hF]
        exact lookupVol_delVol_ne h _
      · by_cases hsel : e.selectedVersion = some tok
        · have hvne : e.versions ≠ [] := by
            intro hc
            rw [hc] at hF
            exact hF rfl
          rw [remove_selected_repair hl hsel hvne hF]
          exact lookupVol_setVol_ne _ h m.volumes
        · rw [remove_not_selected hl hsel hF]
          exact lookupVol_setVol_ne _ h m.volumes

theorem remove_keys_nodup {m : Manifest} (s tok : String)
    (hnd : (keysOf m.volumes).Nodup) :
    (keysOf (remove_volume_version m s tok).1.volumes).Nodup := by
  cases hl : lookupVol m.volumes s with
  | none => rw [remove_absent _ _ _ hl]; exact hnd
  | some e =>
      by_cases hF : e.versions.filter (fun v => v.version != tok) = []
      · rw [remove_emptied_fst hl hF]
        exact nodup_keysOf_delVol hnd
      · by_cases hsel : e.selectedVersion = some tok
        · have hvne : e.versions ≠ [] := by
            intro hc
            rw [hc] at hF
            exact hF rfl
          rw [remove_selected_repair hl hsel hvne hF]
          show (keysOf (setVol m.volumes s _)).Nodup
          rw [keysOf_setVol]
          exact hnd
        · rw [remove_not_selected hl hsel hF]
          show (keysOf (setVol m.volumes s _)).Nodup
          rw [keysOf_setVol]
          exact hnd

/-! ### Lemmas: `get_latest_version` on canonical tokens -/

theorem latestStep_some (a : Nat) (r : VersionRecord) {n : Nat} (h : r.version = vstr n) :
    latestStep (some a) r = some (if n > a then n else a) := by
  unfold latestStep
  rw [h, parseTok_vstr]
  by_cases hna : n > a
  · simp [hna]
  · simp [hna]

theorem latestStep_firstNone (r : VersionRecord) {n : Nat} (h : r.version = vstr n) :
    latestStep none r = some n := by
  unfold latestStep
  rw [h, parseTok_vstr]

theorem latestFold_general :
    ∀ (l : List VersionRecord) (a : Nat),
      (∀ r ∈ l, ∃ n, r.version = vstr n) →
      ∃ k, l.foldl latestStep (some a) = some k ∧
        (vstr k ∈ l.map (fun v => v.version) ∨ k = a) ∧ a ≤ k ∧
        (∀ r ∈ l, ∀ j, r.version = vstr j → j ≤ k) := by
  intro l
  induction l with
  | nil =>
      intro a _
      refine ⟨a, rfl, Or.inr rfl, Nat.le_refl a, ?_⟩
      intro r hr
      cases hr
  | cons r rest ih =>
      intro a hc
      obtain ⟨n, hn⟩ := hc r (List.mem_cons_self _ _)
      have hstep : (r :: rest).foldl latestStep (some a) =
          rest.foldl latestStep (some (if n > a then n else a)) := by
        rw [List.foldl_cons, latestStep_some a r hn]
      obtain ⟨k, h1, h2, h3, h4⟩ :=
        ih (if n > a then n else a) (fun r2 hr2 => hc r2 (List.mem_cons_of_mem _ hr2))
      have hak : a ≤ k := by
        refine Nat.le_trans ?_ h3
        split
        · omega
        · exact Nat.le_refl a
      have hnk : n ≤ k := by
        refine Nat.le_trans ?_ h3
        split
        · exact Nat.le_refl n
        · omega
      refine ⟨k, by rw [hstep]; exact h1, ?_, hak, ?_⟩
      · rcases h2 with h2 | h2
        · exact Or.inl (by rw [List.map_cons]; exact List.mem_cons_of_mem _ h2)
        · by_cases hna : n > a
          · rw [if_pos hna] at h2
            subst h2
            exact Or.inl (by rw [List.map_cons, ← hn]; exact List.mem_cons_self _ _)
          · rw [if_neg hna] at h2
            exact Or.inr h2
      · intro r2 hr2 j hj
        rcases List.mem_cons.mp hr2 with hh | hh
        · subst hh
          rw [hn] at hj
          rw [vstr_inj hj.symm]
          exact hnk
        · exact h4 r2 hh j hj

theorem latestFold_canon {l : List VersionRecord}
    (hc : ∀ r ∈ l, ∃ n, r.version = vstr n) (hne : l ≠ []) :
    ∃ k, latestFold l = some k ∧ vstr k ∈ l.map (fun v => v.version) ∧
      ∀ r ∈ l, ∀ j, r.version = vstr j → j ≤ k := by
  cases l with
  | nil => cases hne rfl
  | cons r rest =>
      obtain ⟨n, hn⟩ := hc r (List.mem_cons_self _ _)
      have hstep : latestFold (r :: rest) = rest.foldl latestStep (some n) := by
        unfold latestFold
        rw [List.foldl_cons, latestStep_firstNone r hn]
      obtain ⟨k, h1, h2, h3, h4⟩ :=
        latestFold_general rest n (fun r2 hr2 => hc r2 (List.mem_cons_of_mem _ hr2))
      refine ⟨k, by rw [hstep]; exact h1, ?_, ?_⟩
      · rcases h2 with h2 | h2
        · exact by rw [List.map_cons]; exact List.mem_cons_of_mem _ h2
        · subst h2
          rw [List.map_cons, ← hn]
          exact List.mem_cons_self _ _
      · intro r2 hr2 j hj
        rcases List.mem_cons.mp hr2 with hh | hh
        · subst hh
          rw [hn] at hj
          rw [vstr_inj hj.symm]
          exact h3
        · exact h4 r2 hh j hj

/-- Claim C3: `remove_volume_version` removes the record carrying the
given token; if the removed token was selected and other versions remain,
the selection becomes the remaining version with the highest numeric
suffix; if no versions remain the whole entry is deleted.  Concretely, on
versions v1 v2 v3 with v3 selected, removing v3 re-selects v2, and removing
all three deletes the subject entirely. -/
theorem claim_C3_remove_version :
    (∀ (m : Manifest) (s : String) (t : Nat) (e : VolumeEntry),
       lookupVol m.volumes s = some e →
       (∀ r ∈ e.versions, ∃ n, r.version = vstr n) →
       ((e.versions.filter (fun v => v.version != vstr t) = [] →
           lookupVol (remove_volume_version m s (vstr t)).1.volumes s = none) ∧
        (e.versions.filter (fun v => v.version != vstr t) ≠ [] →
           ∃ e', lookupVol (remove_volume_version m s (vstr t)).1.volumes s = some e' ∧
             e'.versions = e.versions.filter (fun v => v.version != vstr t) ∧
             (e.selectedVersion ≠ some (vstr t) → e'.selectedVersion = e.selectedVersion) ∧
             (e.selectedVersion = some (vstr t) →
               ∃ k, e'.selectedVersion = some (vstr k) ∧ vstr k ∈ tokensOf e' ∧
                 ∀ r ∈ e'.versions, ∀ j, r.version = vstr j → j ≤ k)))) ∧
    get_selected_version (remove_volume_version mC3 "A" "v3").1 "A" = some "v2" ∧
    lookupVol (remove_volume_version (remove_volume_version
      (remove_volume_version mC3 "A" "v3").1 "A" "v2").1 "A" "v1").1.volumes "A" = none := by
  refine ⟨?_, by decide, by decide⟩
  intro m s t e hl hc
  constructor
  · intro hF
    rw [remove_emptied_fst hl hF]
    exact lookupVol_delVol_self m.volumes s
  · intro hF
    by_cases hsel : e.selectedVersion = some (vstr t)
    · have hvne : e.versions ≠ [] := by
        intro hcon
        rw [hcon] at hF
        exact hF rfl
      rw [remove_selected_repair hl hsel hvne hF]
      refine ⟨mkEntry (some (vstrOpt (latestFold (e.versions.filter (fun v => v.version != vstr t))))) (e.versions.filter (fun v => v.version != vstr t)),
        lookupVol_setVol_self _ hl, rfl, fun hcon => absurd hsel hcon, ?_⟩
      intro _
      have hcF : ∀ r ∈ e.versions.filter (fun v => v.version != vstr t), ∃ n, r.version = vstr n := by
        intro r hr
        exact hc r (List.mem_of_mem_filter hr)
      obtain ⟨k, hk1, hk2, hk3⟩ := latestFold_canon hcF hF
      refine ⟨k, ?_, ?_, ?_⟩
      · show some (vstrOpt (latestFold (e.versions.filter (fun v => v.version != vstr t)))) = some (vstr k)
        rw [hk1]
        rfl
      · show vstr k ∈ (e.versions.filter (fun v => v.version != vstr t)).map (fun v => v.version)
        exact hk2
      · exact hk3
    · rw [remove_not_selected hl hsel hF]
      exact ⟨mkEntry e.selectedVersion (e.versions.filter (fun v => v.version != vstr t)),
        lookupVol_setVol_self _ hl, rfl, fun _ => rfl, fun hcon => absurd hcon hsel⟩

/-- Witness for C3: removing `v3` from the concrete entry
`{v1, v2, v3}, selected v3` under subject `A` of `mC3`. -/
theorem claim_C3_remove_version_witness :
    ∃ e', lookupVol (remove_volume_version mC3 "A" (vstr 3)).1.volumes "A" = some e' ∧
      e'.versions = (mkEntry (some "v3") [canonRec "A" 1, canonRec "A" 2, canonRec "A" 3]).versions.filter (fun v => v.version != vstr 3) ∧
      ((mkEntry (some "v3") [canonRec "A" 1, canonRec "A" 2, canonRec "A" 3]).selectedVersion ≠ some (vstr 3) →
        e'.selectedVersion = (mkEntry (some "v3") [canonRec "A" 1, canonRec "A" 2, canonRec "A" 3]).selectedVersion) ∧
      ((mkEntry (some "v3") [canonRec "A" 1, canonRec "A" 2, canonRec "A" 3]).selectedVersion = some (vstr 3) →
        ∃ k, e'.selectedVersion = some (vstr k) ∧ vstr k ∈ tokensOf e' ∧
          ∀ r ∈ e'.versions, ∀ j, r.version = vstr j → j ≤ k) :=
  (claim_C3_remove_version.1 mC3 "A" 3
    (mkEntry (some "v3") [canonRec "A" 1, canonRec "A" 2, canonRec "A" 3])
    (by decide)
    (by
      intro r hr
      simp only [mkEntry, List.mem_cons, List.not_mem_nil, or_false] at hr
      rcases hr with rfl | rfl | rfl
      · exact ⟨1, rfl⟩
      · exact ⟨2, rfl⟩
      · exact ⟨3, rfl⟩)).2 (by decide)

/-! ### Lemmas: CSV export -/

theorem get_volume_seg_tuples_eq {m : Manifest} (root : String)
    (hnd : (keysOf m.volumes).Nodup) :
    get_volume_seg_tuples m root = m.volumes.filterMap (fun p =>
      if truthyStr p.2.selectedVersion then
        some (p.1, pjoin3 root m.volumePath (p.1 ++ m.volumeExtension),
          pjoin3 root m.labelPath (p.1 ++ "-" ++ (p.2.selectedVersion.getD "") ++ m.labelExtension))
      else none) := by
  unfold get_volume_seg_tuples
  apply List.filterMap_congr
  intro p hp
  have hsel : get_selected_version m p.1 = p.2.selectedVersion := by
    unfold get_selected_version
    rw [mem_lookup hnd hp]
  rw [hsel]

/-- Claim C6 (amended): `export_index` fails before writing on a missing
target directory, a non-`.csv` target name, or zero exportable pairs; on
success it emits the header row `VOLUME FILE,SEGMENTATION FILE` followed by
exactly one row per subject with a truthy selected version, whose two
fields are the root-joined paths `<root>/<volume-path>/<subject><vext>` and
`<root>/<label-path>/<subject>-<selected><sext>` (full paths, not bare
filenames), right-stripped. -/
theorem claim_C6_export :
    (∀ (m : Manifest) (root fname : String),
       export_index m root false fname = Except.error ExportErr.dirMissing) ∧
    (∀ (m : Manifest) (root fname : String),
       endsWithChars (lowerCase fname) ".csv" = false →
       export_index m root true fname = Except.error ExportErr.notCsv) ∧
    (∀ (m : Manifest) (root fname : String),
       endsWithChars (lowerCase fname) ".csv" = true →
       get_volume_seg_tuples m root = [] →
       export_index m root true fname = Except.error ExportErr.noVolumes) ∧
    (∀ (m : Manifest) (root fname : String),
       endsWithChars (lowerCase fname) ".csv" = true →
       get_volume_seg_tuples m root ≠ [] →
       export_index m root true fname = Except.ok
         ("VOLUME FILE,SEGMENTATION FILE" ::
           (get_volume_seg_tuples m root).map
             (fun tpl => rstrip tpl.2.1 ++ "," ++ rstrip tpl.2.2))) ∧
    (∀ (m : Manifest) (root : String), (keysOf m.volumes).Nodup →
       get_volume_seg_tuples m root = m.volumes.filterMap (fun p =>
         if truthyStr p.2.selectedVersion then
           some (p.1, pjoin3 root m.volumePath (p.1 ++ m.volumeExtension),
             pjoin3 root m.labelPath (p.1 ++ "-" ++ (p.2.selectedVersion.getD "") ++ m.labelExtension))
         else none)) := by
  refine ⟨?_, ?_, ?_, ?_, ?_⟩
  · intro m root fname
    rfl
  · intro m root fname hcsv
    unfold export_index validate_csv_path
    rw [hcsv]
    rfl
  · intro m root fname hcsv htup
    unfold export_index validate_csv_path
    rw [hcsv]
    dsimp only
    rw [htup]
    rfl
  · intro m root fname hcsv htup
    unfold export_index validate_csv_path
    rw [hcsv]
    dsimp only
    rw [if_neg htup]
    rfl
  · intro m root hnd
    exact get_volume_seg_tuples_eq root hnd

/-- Witness for C6: the success case at the concrete manifest `mC6`. -/
theorem claim_C6_export_witness :
    export_index mC6 "root" true "out.csv" = Except.ok
      ("VOLUME FILE,SEGMENTATION FILE" ::
        (get_volume_seg_tuples mC6 "root").map
          (fun tpl => rstrip tpl.2.1 ++ "," ++ rstrip tpl.2.2)) :=
  claim_C6_export.2.2.2.1 mC6 "root" "out.csv" (by decide) (by decide)

/-- Counterexample for C6 as stated: the exported fields are root-joined
paths, not bare filenames — the single row for `mC6` pairs
`root/vols/A.mha` with `root/segs/A-v1.nii`, and those contain directory
components. -/
theorem claim_C6_counterexample :
    export_index mC6 "root" true "out.csv" =
      Except.ok ["VOLUME FILE,SEGMENTATION FILE", "root/vols/A.mha,root/segs/A-v1.nii"] ∧
    (get_volume_seg_tuples mC6 "root").map (fun t => t.2.2) = ["root/segs/A-v1.nii"] ∧
    ("root/segs/A-v1.nii" : String) ≠ "A-v1.nii" :=
  ⟨by rfl, by rfl, by decide⟩

/-! ### Lemmas: sorting and the matcher -/

theorem startsWith_of_extract {t s : String} {n : Nat}
    (h : extract_version_number t s = some n) :
    startsWithChars t (s ++ "-v") = true := by
  obtain ⟨ds, hts, _, _, _⟩ := extract_some_shape h
  unfold startsWithChars
  have hpre : (s ++ "-v").data = s.data ++ ['-', 'v'] := by
    rw [String.data_append]
  rw [hpre]
  have : dropLead (s.data ++ ['-', 'v']) t.data = some ds := by
    rw [dropLead_eq_some, hts]
    simp
  rw [this]
  rfl

theorem extract_iff (t s : String) (n : Nat) :
    extract_version_number t s = some n ↔
      ∃ ds, ds ≠ [] ∧ (∀ c ∈ ds, c.isDigit = true) ∧
        t.data = s.data ++ '-' :: 'v' :: ds ∧ digitsVal ds = n := by
  constructor
  · intro h
    obtain ⟨ds, hts, hne, hdig, hval⟩ := extract_some_shape h
    exact ⟨ds, hne, hdig, hts, hval⟩
  · rintro ⟨ds, hne, hdig, hts, rfl⟩
    exact extract_of_shape t s ds hts hne hdig

theorem insertSorted_perm (r : VersionRecord) :
    ∀ (l : List VersionRecord), (insertSorted r l).Perm (r :: l) := by
  intro l
  induction l with
  | nil => exact List.Perm.refl _
  | cons x xs ih =>
      rw [insertSorted]
      by_cases h : recKey r ≤ recKey x
      · rw [if_pos h]
      · rw [if_neg h]
        exact (List.Perm.cons x ih).trans (List.Perm.swap r x xs)

theorem sortVersions_perm (l : List VersionRecord) : (sortVersions l).Perm l := by
  induction l with
  | nil => exact List.Perm.refl _
  | cons a xs ih =>
      show (insertSorted a (sortVersions xs)).Perm (a :: xs)
      exact (insertSorted_perm a (sortVersions xs)).trans (List.Perm.cons a ih)

theorem insertSorted_sorted (r : VersionRecord) :
    ∀ {l : List VersionRecord}, List.Pairwise (fun a b => recKey a ≤ recKey b) l →
      List.Pairwise (fun a b => recKey a ≤ recKey b) (insertSorted r l) := by
  intro l
  induction l with
  | nil =>
      intro _
      simp [insertSorted]
  | cons x xs ih =>
      intro h
      obtain ⟨hx, hxs⟩ := List.pairwise_cons.mp h
      rw [insertSorted]
      by_cases hle : recKey r ≤ recKey x
      · rw [if_pos hle]
        refine List.pairwise_cons.mpr ⟨?_, h⟩
        intro b hb
        rcases List.mem_cons.mp hb with rfl | hb2
        · exact hle
        · exact le_trans hle (hx b hb2)
      · rw [if_neg hle]
        refine List.pairwise_cons.mpr ⟨?_, ih hxs⟩
        intro b hb
        have hb2 : b ∈ r :: xs := (insertSorted_perm r xs).mem_iff.mp hb
        rcases List.mem_cons.mp hb2 with rfl | hb3
        · exact le_of_not_le hle
        · exact hx b hb3

theorem sortVersions_sorted (l : List VersionRecord) :
    List.Pairwise (fun a b => recKey a ≤ recKey b) (sortVersions l) := by
  induction l with
  | nil => exact List.Pairwise.nil
  | cons a xs ih => exact insertSorted_sorted a ih

theorem getLastD_mem :
    ∀ {l : List VersionRecord}, l ≠ [] → ∀ (d : VersionRecord), l.getLastD d ∈ l := by
  intro l
  induction l with
  | nil => intro h; exact absurd rfl h
  | cons a xs ih =>
      intro _ d
      rw [List.getLastD_cons]
      by_cases hxs : xs = []
      · subst hxs
        simp
      · exact List.mem_cons_of_mem a (ih hxs a)

theorem pairwise_getLastD_max :
    ∀ {l : List VersionRecord}, List.Pairwise (fun a b => recKey a ≤ recKey b) l →
      ∀ x ∈ l, ∀ d, recKey x ≤ recKey (l.getLastD d) := by
  intro l
  induction l with
  | nil => intro _ x hx; exact absurd hx (List.not_mem_nil x)
  | cons a xs ih =>
      intro h x hx d
      obtain ⟨ha, hxs⟩ := List.pairwise_cons.mp h
      rw [List.getLastD_cons]
      rcases List.mem_cons.mp hx with rfl | hx2
      · cases hxs2 : xs with
        | nil => simp [hxs2]
        | cons b xs2 =>
            subst hxs2
            have hb : recKey b ≤ recKey ((b :: xs2).getLastD x) :=
              ih hxs b (List.mem_cons_self b xs2) x
            exact le_trans (ha b (List.mem_cons_self b xs2)) hb
      · exact ih hxs x hx2 a

theorem sortVersions_ne_nil {l : List VersionRecord} (h : l ≠ []) :
    sortVersions l ≠ [] := by
  intro hc
  have hp := sortVersions_perm l
  rw [hc] at hp
  exact h (List.perm_nil.mp hp.symm)

theorem foldl_optAppend {α β : Type} (g : α → Option β) :
    ∀ (l : List α) (acc : List β),
      l.foldl (fun a2 x => a2 ++ (g x).toList) acc = acc ++ l.filterMap g := by
  intro l
  induction l with
  | nil => intro acc; simp
  | cons x xs ih =>
      intro acc
      rw [List.foldl_cons, List.filterMap_cons]
      cases hg : g x with
      | none => simp [ih]
      | some y => simp [ih]

theorem verify_index_eq (ref_fnames tar_fnames : List String)
    (segmentations_path sext : String) (hashF tsF : String → String) :
    (verify_volseg_match ref_fnames tar_fnames segmentations_path sext hashF tsF).index =
      (ref_fnames.dedup).filterMap (fun vol_name =>
        if matchList tar_fnames segmentations_path sext hashF tsF vol_name = [] then none
        else some (vol_name, verifyEntry tar_fnames segmentations_path sext hashF tsF vol_name)) := by
  unfold verify_volseg_match
  dsimp only
  have hfun : (fun (acc : Vols) vol_name =>
      let versions := tar_fnames.filterMap (fun seg_base =>
        if !(startsWithChars seg_base (vol_name ++ "-v")) then none
        else
          match extract_version_number seg_base vol_name with
          | none => none
          | some ver_num =>
              some (mkMatchRecord segmentations_path sext hashF tsF seg_base ver_num))
      if versions = [] then acc
      else
        let sorted := sortVersions versions
        acc ++ [(vol_name,
          { selectedVersion := some ((sorted.getLastD default).version),
            versions := sorted })]) =
      (fun (acc : Vols) vol_name =>
        acc ++ (if matchList tar_fnames segmentations_path sext hashF tsF vol_name = [] then none
          else some (vol_name, verifyEntry tar_fnames segmentations_path sext hashF tsF vol_name)).toList) := by
    funext acc v
    show (if matchList tar_fnames segmentations_path sext hashF tsF v = [] then acc
      else acc ++ [(v, verifyEntry tar_fnames segmentations_path sext hashF tsF v)]) = _
    by_cases h : matchList tar_fnames segmentations_path sext hashF tsF v = []
    · rw [if_pos h, if_pos h]
      exact (List.append_nil acc).symm
    · rw [if_neg h, if_neg h]
      rfl
  rw [hfun]
  exact (foldl_optAppend (fun vol_name =>
    if matchList tar_fnames segmentations_path sext hashF tsF vol_name = [] then none
    else some (vol_name, verifyEntry tar_fnames segmentations_path sext hashF tsF vol_name))
    ref_fnames.dedup []).trans (List.nil_append _)

theorem verify_mem_index (ref_fnames tar_fnames : List String)
    (segmentations_path sext : String) (hashF tsF : String → String)
    (s : String) (e : VolumeEntry) :
    (s, e) ∈ (verify_volseg_match ref_fnames tar_fnames segmentations_path sext hashF tsF).index ↔
      (s ∈ ref_fnames.dedup ∧
        matchList tar_fnames segmentations_path sext hashF tsF s ≠ [] ∧
        e = verifyEntry tar_fnames segmentations_path sext hashF tsF s) := by
  rw [verify_index_eq, List.mem_filterMap]
  constructor
  · rintro ⟨v, hv, hg⟩
    by_cases h : matchList tar_fnames segmentations_path sext hashF tsF v = []
    · rw [if_pos h] at hg
      exact absurd hg (by simp)
    · rw [if_neg h] at hg
      have hpair := Option.some.inj hg
      have hv2 : v = s := congrArg Prod.fst hpair
      subst hv2
      have he : e = verifyEntry tar_fnames segmentations_path sext hashF tsF v :=
        (congrArg Prod.snd hpair).symm
      exact ⟨hv, h, he⟩
  · rintro ⟨hs, hne, rfl⟩
    exact ⟨s, hs, by rw [if_neg hne]⟩

theorem matchList_mem (tar_fnames : List String) (segmentations_path sext : String)
    (hashF tsF : String → String) (vol_name : String) (r : VersionRecord) :
    r ∈ matchList tar_fnames segmentations_path sext hashF tsF vol_name ↔
      ∃ t ∈ tar_fnames, ∃ n, extract_version_number t vol_name = some n ∧
        r = mkMatchRecord segmentations_path sext hashF tsF t n := by
  unfold matchList
  rw [List.mem_filterMap]
  constructor
  · rintro ⟨t, ht, hf⟩
    by_cases hs : startsWithChars t (vol_name ++ "-v") = true
    · rw [hs] at hf
      simp only [Bool.not_true, Bool.false_eq_true, if_false] at hf
      cases hex : extract_version_number t vol_name with
      | none => rw [hex] at hf; exact absurd hf (by simp)
      | some n =>
          rw [hex] at hf
          exact ⟨t, ht, n, hex, (Option.some.inj hf).symm⟩
    · rw [Bool.not_eq_true] at hs
      rw [hs] at hf
      simp only [Bool.not_false, if_true] at hf
      exact absurd hf (by simp)
  · rintro ⟨t, ht, n, hex, rfl⟩
    refine ⟨t, ht, ?_⟩
    rw [startsWith_of_extract hex]
    simp only [Bool.not_true, Bool.false_eq_true, if_false]
    rw [hex]

theorem nodup_keysOf_filterMap (g : String → Option (String × VolumeEntry))
    (hg : ∀ v p, g v = some p → p.1 = v) :
    ∀ {l : List String}, l.Nodup → (keysOf (l.filterMap g)).Nodup := by
  intro l
  induction l with
  | nil => intro _; simp [keysOf]
  | cons a xs ih =>
      intro h
      obtain ⟨ha, hxs⟩ := List.nodup_cons.mp h
      rw [List.filterMap_cons]
      cases hga : g a with
      | none => exact ih hxs
      | some p =>
          rw [keysOf_cons]
          refine List.nodup_cons.mpr ⟨?_, ih hxs⟩
          intro hmem
          obtain ⟨q, hq, hfst⟩ := List.mem_map.mp hmem
          obtain ⟨v, hvxs, hgv⟩ := List.mem_filterMap.mp hq
          have h1 : q.1 = v := hg v q hgv
          have h2 : p.1 = a := hg a p hga
          rw [h2, h1] at hfst
          exact ha (hfst ▸ hvxs)

theorem verify_keys_nodup (ref_fnames tar_fnames : List String)
    (segmentations_path sext : String) (hashF tsF : String → String) :
    (keysOf (verify_volseg_match ref_fnames tar_fnames segmentations_path sext hashF tsF).index).Nodup := by
  rw [verify_index_eq]
  refine nodup_keysOf_filterMap _ ?_ (List.nodup_dedup ref_fnames)
  intro v p hp
  by_cases h : matchList tar_fnames segmentations_path sext hashF tsF v = []
  · rw [if_pos h] at hp
    exact absurd hp (by simp)
  · rw [if_neg h] at hp
    exact congrArg Prod.fst (Option.some.inj hp).symm

theorem verify_mem_keys (ref_fnames tar_fnames : List String)
    (segmentations_path sext : String) (hashF tsF : String → String) (s : String) :
    s ∈ keysOf (verify_volseg_match ref_fnames tar_fnames segmentations_path sext hashF tsF).index ↔
      (s ∈ ref_fnames.dedup ∧ matchList tar_fnames segmentations_path sext hashF tsF s ≠ []) := by
  constructor
  · intro h
    obtain ⟨kv, hkv, hfst⟩ := List.mem_map.mp h
    have hm := (verify_mem_index ref_fnames tar_fnames segmentations_path sext hashF tsF
      kv.1 kv.2).mp hkv
    rw [hfst] at hm
    exact ⟨hm.1, hm.2.1⟩
  · rintro ⟨hs, hne⟩
    have hm := (verify_mem_index ref_fnames tar_fnames segmentations_path sext hashF tsF
      s (verifyEntry tar_fnames segmentations_path sext hashF tsF s)).mpr ⟨hs, hne, rfl⟩
    exact List.mem_map.mpr ⟨_, hm, rfl⟩

/-! ### Lemmas: `find_outliers` -/

theorem nodup_foldl_erase_map {β γ : Type} [DecidableEq γ] (f : β → γ) :
    ∀ (l : List β) (acc : List γ), acc.Nodup →
      (l.foldl (fun a e => a.erase (f e)) acc).Nodup := by
  intro l
  induction l with
  | nil => intro acc h; exact h
  | cons e es ih =>
      intro acc h
      rw [List.foldl_cons]
      exact ih _ (h.erase (f e))

theorem mem_foldl_erase_map {β γ : Type} [DecidableEq γ] (f : β → γ) (x : γ) :
    ∀ (l : List β) (acc : List γ), acc.Nodup →
      (x ∈ l.foldl (fun a e => a.erase (f e)) acc ↔ x ∈ acc ∧ ∀ e ∈ l, x ≠ f e) := by
  intro l
  induction l with
  | nil => intro acc _; simp
  | cons e es ih =>
      intro acc h
      rw [List.foldl_cons, ih _ (h.erase (f e)), h.mem_erase_iff]
      simp only [List.forall_mem_cons]
      tauto

theorem mem_foldl_erase_nested {β₁ β₂ γ : Type} [DecidableEq γ]
    (g : β₁ → List β₂) (f : β₂ → γ) (x : γ) :
    ∀ (l : List β₁) (acc : List γ), acc.Nodup →
      (x ∈ l.foldl (fun a e => (g e).foldl (fun a2 y => a2.erase (f y)) a) acc ↔
        x ∈ acc ∧ ∀ e ∈ l, ∀ y ∈ g e, x ≠ f y) := by
  intro l
  induction l with
  | nil => intro acc _; simp
  | cons e es ih =>
      intro acc h
      rw [List.foldl_cons, ih _ (nodup_foldl_erase_map f (g e) acc h),
        mem_foldl_erase_map f x (g e) acc h]
      simp only [List.forall_mem_cons]
      tauto

theorem find_outliers_fst (reference_list target_list : List String) (vi : Vols) :
    (find_outliers reference_list target_list vi).1 =
      vi.foldl (fun acc kv => acc.erase kv.1) reference_list.dedup := by
  unfold find_outliers
  suffices h : ∀ (l : Vols) (a b : List String),
      (l.foldl (fun (st : List String × List String) kv =>
        (st.1.erase kv.1, kv.2.versions.foldl (fun t v => t.erase v.id) st.2)) (a, b)).1 =
      l.foldl (fun acc kv => acc.erase kv.1) a by
    exact h vi _ _
  intro l
  induction l with
  | nil => intro a b; rfl
  | cons kv rest ih => intro a b; exact ih _ _

theorem find_outliers_snd (reference_list target_list : List String) (vi : Vols) :
    (find_outliers reference_list target_list vi).2 =
      vi.foldl (fun acc kv => kv.2.versions.foldl (fun t v => t.erase v.id) acc)
        target_list.dedup := by
  unfold find_outliers
  suffices h : ∀ (l : Vols) (a b : List String),
      (l.foldl (fun (st : List String × List String) kv =>
        (st.1.erase kv.1, kv.2.versions.foldl (fun t v => t.erase v.id) st.2)) (a, b)).2 =
      l.foldl (fun acc kv => kv.2.versions.foldl (fun t v => t.erase v.id) acc) b by
    exact h vi _ _
  intro l
  induction l with
  | nil => intro a b; rfl
  | cons kv rest ih => intro a b; exact ih _ _

theorem verify_withoutSeg_mem (ref_fnames tar_fnames : List String)
    (segmentations_path sext : String) (hashF tsF : String → String)
    (href : ref_fnames ≠ []) (htar : tar_fnames ≠ []) (s : String) :
    s ∈ (verify_volseg_match ref_fnames tar_fnames segmentations_path sext hashF tsF).withoutSeg ↔
      (s ∈ ref_fnames.dedup ∧ matchList tar_fnames segmentations_path sext hashF tsF s = []) := by
  have hws : (verify_volseg_match ref_fnames tar_fnames segmentations_path sext hashF tsF).withoutSeg =
      (find_outliers ref_fnames tar_fnames
        (verify_volseg_match ref_fnames tar_fnames segmentations_path sext hashF tsF).index).1 := by
    unfold verify_volseg_match
    dsimp only
    rw [if_pos ⟨href, htar⟩]
  rw [hws, find_outliers_fst]
  rw [mem_foldl_erase_map (Prod.fst :  String × VolumeEntry → String) s
    (verify_volseg_match ref_fnames tar_fnames segmentations_path sext hashF tsF).index
    ref_fnames.dedup (List.nodup_dedup ref_fnames)]
  constructor
  · rintro ⟨hs, hall⟩
    refine ⟨hs, ?_⟩
    by_contra hne
    have hm := (verify_mem_index ref_fnames tar_fnames segmentations_path sext hashF tsF
      s (verifyEntry tar_fnames segmentations_path sext hashF tsF s)).mpr ⟨hs, hne, rfl⟩
    exact hall _ hm rfl
  · rintro ⟨hs, hml⟩
    refine ⟨hs, ?_⟩
    intro kv hkv heq
    have hm := (verify_mem_index ref_fnames tar_fnames segmentations_path sext hashF tsF
      kv.1 kv.2).mp hkv
    exact hm.2.1 (heq ▸ hml)

theorem verify_withoutVol_mem (ref_fnames tar_fnames : List String)
    (segmentations_path sext : String) (hashF tsF : String → String)
    (href : ref_fnames ≠ []) (htar : tar_fnames ≠ []) (t : String) :
    t ∈ (verify_volseg_match ref_fnames tar_fnames segmentations_path sext hashF tsF).withoutVol ↔
      (t ∈ tar_fnames.dedup ∧ ∀ s ∈ ref_fnames, extract_version_number t s = none) := by
  have hwv : (verify_volseg_match ref_fnames tar_fnames segmentations_path sext hashF tsF).withoutVol =
      (find_outliers ref_fnames tar_fnames
        (verify_volseg_match ref_fnames tar_fnames segmentations_path sext hashF tsF).index).2 := by
    unfold verify_volseg_match
    dsimp only
    rw [if_pos ⟨href, htar⟩]
  rw [hwv, find_outliers_snd]
  refine Iff.trans (mem_foldl_erase_nested (fun kv : String × VolumeEntry => kv.2.versions)
    (fun v => v.id) t
    (verify_volseg_match ref_fnames tar_fnames segmentations_path sext hashF tsF).index
    tar_fnames.dedup (List.nodup_dedup tar_fnames)) ?_
  refine and_congr_right ?_
  intro ht
  constructor
  · intro hall s hs
    cases hex : extract_version_number t s with
    | none => rfl
    | some n =>
        exfalso
        have hr : mkMatchRecord segmentations_path sext hashF tsF t n ∈
            matchList tar_fnames segmentations_path sext hashF tsF s :=
          (matchList_mem tar_fnames segmentations_path sext hashF tsF s _).mpr
            ⟨t, List.mem_dedup.mp ht, n, hex, rfl⟩
        have hne : matchList tar_fnames segmentations_path sext hashF tsF s ≠ [] :=
          List.ne_nil_of_mem hr
        have hm := (verify_mem_index ref_fnames tar_fnames segmentations_path sext hashF tsF
          s (verifyEntry tar_fnames segmentations_path sext hashF tsF s)).mpr
          ⟨List.mem_dedup.mpr hs, hne, rfl⟩
        have hrv : mkMatchRecord segmentations_path sext hashF tsF t n ∈
            (verifyEntry tar_fnames segmentations_path sext hashF tsF s).versions :=
          (sortVersions_perm _).mem_iff.mpr hr
        exact hall _ hm _ hrv rfl
  · intro hnone kv hkv y hy heq
    dsimp only at hy heq
    have hm := (verify_mem_index ref_fnames tar_fnames segmentations_path sext hashF tsF
      kv.1 kv.2).mp hkv
    rw [hm.2.2] at hy
    have hy2 : y ∈ matchList tar_fnames segmentations_path sext hashF tsF kv.1 :=
      (sortVersions_perm _).mem_iff.mp hy
    obtain ⟨t2, _, n, hex, rfl⟩ :=
      (matchList_mem tar_fnames segmentations_path sext hashF tsF kv.1 y).mp hy2
    have hid : (mkMatchRecord segmentations_path sext hashF tsF t2 n).id = t2 := rfl
    rw [hid] at heq
    subst heq
    rw [hnone kv.1 (List.mem_dedup.mp hm.1)] at hex
    exact absurd hex (by simp)

/-- Claim C7: the matcher pairs a segmentation with a volume `X` exactly
when its base name is `X-v<digits>` with nothing trailing (the redundant
`startswith` guard included); every volume with a non-empty match list
appears in the index (keys without duplicates) with versions sorted
ascending by numeric suffix and the selection on a record of maximal
numeric suffix; volumes with no match land in the without-segmentation
warnings and segmentations matching no volume in the without-volume
warnings, both excluded from the index; and the `{A, B}` versus
`{A-v1, A-v2, C-v1}` instance produces exactly the advertised result. -/
theorem claim_C7_matching :
    (∀ (t s : String) (n : Nat),
       extract_version_number t s = some n ↔
         ∃ ds, ds ≠ [] ∧ (∀ c ∈ ds, c.isDigit = true) ∧
           t.data = s.data ++ '-' :: 'v' :: ds ∧ digitsVal ds = n) ∧
    (∀ (tar_fnames : List String) (sp sext : String) (hashF tsF : String → String)
       (vol_name : String) (r : VersionRecord),
       r ∈ matchList tar_fnames sp sext hashF tsF vol_name ↔
         ∃ t ∈ tar_fnames, ∃ n, extract_version_number t vol_name = some n ∧
           r = mkMatchRecord sp sext hashF tsF t n) ∧
    (∀ (ref_fnames tar_fnames : List String) (sp sext : String) (hashF tsF : String → String),
       (keysOf (verify_volseg_match ref_fnames tar_fnames sp sext hashF tsF).index).Nodup ∧
       ∀ (s : String) (e : VolumeEntry),
         (s, e) ∈ (verify_volseg_match ref_fnames tar_fnames sp sext hashF tsF).index ↔
           (s ∈ ref_fnames.dedup ∧ matchList tar_fnames sp sext hashF tsF s ≠ [] ∧
             e = verifyEntry tar_fnames sp sext hashF tsF s)) ∧
    (∀ (tar_fnames : List String) (sp sext : String) (hashF tsF : String → String) (s : String),
       (verifyEntry tar_fnames sp sext hashF tsF s).versions.Perm
         (matchList tar_fnames sp sext hashF tsF s) ∧
       List.Pairwise (fun a b => recKey a ≤ recKey b)
         (verifyEntry tar_fnames sp sext hashF tsF s).versions ∧
       (matchList tar_fnames sp sext hashF tsF s ≠ [] →
         ∃ r ∈ (verifyEntry tar_fnames sp sext hashF tsF s).versions,
           (verifyEntry tar_fnames sp sext hashF tsF s).selectedVersion = some r.version ∧
           ∀ x ∈ (verifyEntry tar_fnames sp sext hashF tsF s).versions, recKey x ≤ recKey r)) ∧
    (∀ (ref_fnames tar_fnames : List String) (sp sext : String) (hashF tsF : String → String),
       ref_fnames ≠ [] → tar_fnames ≠ [] →
       (∀ s, s ∈ (verify_volseg_match ref_fnames tar_fnames sp sext hashF tsF).withoutSeg ↔
          (s ∈ ref_fnames.dedup ∧ matchList tar_fnames sp sext hashF tsF s = [])) ∧
       (∀ t, t ∈ (verify_volseg_match ref_fnames tar_fnames sp sext hashF tsF).withoutVol ↔
          (t ∈ tar_fnames.dedup ∧ ∀ s ∈ ref_fnames, extract_version_number t s = none))) ∧
    (keysOf (verify_volseg_match ["A", "B"] ["A-v1", "A-v2", "C-v1"] "segs" ".nii"
        hashConst tsConst).index = ["A"] ∧
     (verify_volseg_match ["A", "B"] ["A-v1", "A-v2", "C-v1"] "segs" ".nii"
        hashConst tsConst).index.map
        (fun kv => (kv.1, kv.2.selectedVersion, kv.2.versions.map (fun r => (r.id, r.version)))) =
       [("A", some "v2", [("A-v1", "v1"), ("A-v2", "v2")])] ∧
     (verify_volseg_match ["A", "B"] ["A-v1", "A-v2", "C-v1"] "segs" ".nii"
        hashConst tsConst).withoutSeg = ["B"] ∧
     (verify_volseg_match ["A", "B"] ["A-v1", "A-v2", "C-v1"] "segs" ".nii"
        hashConst tsConst).withoutVol = ["C-v1"]) := by
  refine ⟨extract_iff, matchList_mem, ?_, ?_, ?_, by decide⟩
  · intro ref_fnames tar_fnames sp sext hashF tsF
    exact ⟨verify_keys_nodup ref_fnames tar_fnames sp sext hashF tsF,
      fun s e => verify_mem_index ref_fnames tar_fnames sp sext hashF tsF s e⟩
  · intro tar_fnames sp sext hashF tsF s
    refine ⟨sortVersions_perm _, sortVersions_sorted _, ?_⟩
    intro hne
    have hnil : sortVersions (matchList tar_fnames sp sext hashF tsF s) ≠ [] :=
      sortVersions_ne_nil hne
    refine ⟨(sortVersions (matchList tar_fnames sp sext hashF tsF s)).getLastD default,
      getLastD_mem hnil default, rfl, ?_⟩
    intro x hx
    exact pairwise_getLastD_max (sortVersions_sorted _) x hx default
  · intro ref_fnames tar_fnames sp sext hashF tsF href htar
    exact ⟨verify_withoutSeg_mem ref_fnames tar_fnames sp sext hashF tsF href htar,
      verify_withoutVol_mem ref_fnames tar_fnames sp sext hashF tsF href htar⟩

/-- Witness for C7: the warning characterisation applied at the concrete
`{A, B}` / `{A-v1, A-v2, C-v1}` instance puts `C-v1` in the without-volume
list. -/
theorem claim_C7_matching_witness :
    "C-v1" ∈ (verify_volseg_match ["A", "B"] ["A-v1", "A-v2", "C-v1"] "segs" ".nii"
      hashConst tsConst).withoutVol :=
  ((claim_C7_matching.2.2.2.2.1 ["A", "B"] ["A-v1", "A-v2", "C-v1"] "segs" ".nii"
    hashConst tsConst (by decide) (by decide)).2 "C-v1").mpr (by decide)

/-! ### Lemmas: the removal passes of `update_index` -/

theorem CCVols_of_b {vols : Vols} (h : ccVolsB vols = true) : CCVols vols := by
  unfold ccVolsB at h
  rw [Bool.and_eq_true] at h
  obtain ⟨h1, h2⟩ := h
  refine ⟨of_decide_eq_true h1, ?_⟩
  intro p hp
  rw [List.all_eq_true] at h2
  have hp2 := h2 p hp
  rw [Bool.and_eq_true] at hp2
  obtain ⟨hv, hsel⟩ := hp2
  constructor
  · intro r hr
    rw [List.all_eq_true] at hv
    have hr2 := hv r hr
    rw [Bool.and_eq_true] at hr2
    obtain ⟨hc, hid⟩ := hr2
    obtain ⟨n, hn⟩ := canonTokB_iff.mp hc
    refine ⟨n, hn, ?_⟩
    have hid2 : r.id = p.1 ++ "-" ++ r.version := by simpa using hid
    rw [hid2, hn]
    rfl
  · cases hs : p.2.selectedVersion with
    | none => exact Or.inl rfl
    | some v =>
        right
        rw [hs] at hsel
        have hc : canonTokB v = true := hsel
        obtain ⟨n, hn⟩ := canonTokB_iff.mp hc
        exact ⟨n, by rw [hn]⟩

theorem lookup_of_mem_keys {vols : Vols} {s : String} (h : s ∈ keysOf vols) :
    ∃ e, lookupVol vols s = some e := by
  cases hl : lookupVol vols s with
  | none => exact absurd h (lookupVol_eq_none.mp hl)
  | some e => exact ⟨e, rfl⟩

theorem removeVolumesPass_eq :
    ∀ (rem : List String) (vols : Vols),
      removeVolumesPass vols rem = (rem.foldl delVol vols, rem.map LogMsg.removedVolume) := by
  intro rem
  induction rem with
  | nil => intro vols; rfl
  | cons s rest ih =>
      intro vols
      show ((removeVolumesPass (delVol vols s) rest).1,
        LogMsg.removedVolume s :: (removeVolumesPass (delVol vols s) rest).2) = _
      rw [ih (delVol vols s)]
      rfl

theorem removeSegsSubjects_cons (m : Manifest) (seg_id s : String) (rest : List String) :
    removeSegsSubjects m seg_id (s :: rest) =
      ((removeSegsSubjects
          (remove_volume_version m s (vstrOpt (extract_version_number seg_id s))).1
          seg_id rest).1,
        (LogMsg.removedSegVersion seg_id s ::
          (remove_volume_version m s (vstrOpt (extract_version_number seg_id s))).2.toList) ++
        (removeSegsSubjects
          (remove_volume_version m s (vstrOpt (extract_version_number seg_id s))).1
          seg_id rest).2) := rfl

theorem removeSegsSubjects_noop (seg_id : String) :
    ∀ (L : List String) (m : Manifest),
      (∀ s ∈ L, remove_volume_version m s (vstrOpt (extract_version_number seg_id s)) = (m, none)) →
      removeSegsSubjects m seg_id L = (m, L.map (fun s => LogMsg.removedSegVersion seg_id s)) := by
  intro L
  induction L with
  | nil => intro m _; rfl
  | cons s rest ih =>
      intro m h
      rw [removeSegsSubjects_cons, h s (by simp)]
      dsimp only
      rw [ih m (fun s2 hs2 => h s2 (by simp [hs2]))]
      rfl

theorem removeSegsSubjects_split (seg_id sOwn : String) (k : Nat) (m : Manifest)
    (hex : extract_version_number seg_id sOwn = some k) :
    ∀ (L1 : List String), ∀ (L2 : List String),
      (∀ s ∈ L1, remove_volume_version m s (vstrOpt (extract_version_number seg_id s)) = (m, none)) →
      (∀ s ∈ L2, remove_volume_version (remove_volume_version m sOwn (vstr k)).1 s
          (vstrOpt (extract_version_number seg_id s)) =
        ((remove_volume_version m sOwn (vstr k)).1, none)) →
      removeSegsSubjects m seg_id (L1 ++ sOwn :: L2) =
        ((remove_volume_version m sOwn (vstr k)).1,
          L1.map (fun s => LogMsg.removedSegVersion seg_id s) ++
            (LogMsg.removedSegVersion seg_id sOwn ::
              (remove_volume_version m sOwn (vstr k)).2.toList) ++
            L2.map (fun s => LogMsg.removedSegVersion seg_id s)) := by
  intro L1
  induction L1 with
  | nil =>
      intro L2 _ h2
      rw [List.nil_append, removeSegsSubjects_cons, hex]
      show ((removeSegsSubjects (remove_volume_version m sOwn (vstr k)).1 seg_id L2).1,
        (LogMsg.removedSegVersion seg_id sOwn ::
          (remove_volume_version m sOwn (vstr k)).2.toList) ++
        (removeSegsSubjects (remove_volume_version m sOwn (vstr k)).1 seg_id L2).2) = _
      rw [removeSegsSubjects_noop seg_id L2 (remove_volume_version m sOwn (vstr k)).1 h2]
      simp
  | cons s L1x ih =>
      intro L2 h1 h2
      rw [List.cons_append, removeSegsSubjects_cons, h1 s (by simp)]
      dsimp only
      rw [ih L2 (fun s2 hs2 => h1 s2 (by simp [hs2])) h2]
      simp

theorem flatMap_no_owner {seg_id sOwn : String} {tl : List LogMsg} :
    ∀ (L : List String), (∀ s ∈ L, s ≠ sOwn) →
      L.flatMap (fun s => LogMsg.removedSegVersion seg_id s ::
        (if s = sOwn then tl else [])) =
        L.map (fun s => LogMsg.removedSegVersion seg_id s) := by
  intro L
  induction L with
  | nil => intro _; rfl
  | cons a L2 ih =>
      intro h
      rw [List.flatMap_cons, if_neg (h a (by simp)), ih (fun s hs => h s (by simp [hs]))]
      rfl

theorem removeSegsOne_canon {m : Manifest} {sOwn : String} {k : Nat}
    (hcc : CCVols m.volumes)
    (hvne : ∀ p ∈ m.volumes, p.2.versions ≠ [])
    (hmem : sOwn ∈ keysOf m.volumes) :
    removeSegsOne m (mkId sOwn k) =
      ((remove_volume_version m sOwn (vstr k)).1,
        (keysOf m.volumes).flatMap (fun s =>
          LogMsg.removedSegVersion (mkId sOwn k) s ::
            (if s = sOwn then (remove_volume_version m sOwn (vstr k)).2.toList else []))) := by
  obtain ⟨L1, L2, hL⟩ := List.append_of_mem hmem
  have hnd0 := hcc.1
  have hnd := hcc.1
  rw [hL, List.nodup_append] at hnd
  have hsownL1 : sOwn ∉ L1 := fun hc => hnd.2.2 hc (by simp)
  have hsownL2 : sOwn ∉ L2 := (List.nodup_cons.mp hnd.2.1).1
  have hstep : ∀ (m2 : Manifest), (keysOf m2.volumes).Nodup →
      ∀ s, s ≠ sOwn → s ∈ keysOf m.volumes →
      lookupVol m2.volumes s = lookupVol m.volumes s →
      remove_volume_version m2 s (vstrOpt (extract_version_number (mkId sOwn k) s)) =
        (m2, none) := by
    intro m2 hnd2 s hs hsk hlk
    have hexn : extract_version_number (mkId sOwn k) s = none := by
      cases hx : extract_version_number (mkId sOwn k) s with
      | none => rfl
      | some n => exact absurd (extract_mkId_unique hx).1 hs
    rw [hexn]
    obtain ⟨e, he⟩ := lookup_of_mem_keys hsk
    have hpe : (s, e) ∈ m.volumes := lookup_mem he
    have hprops := hcc.2 (s, e) hpe
    refine remove_noop hnd2 (by rw [hlk]; exact he) ?_ ?_ (hvne (s, e) hpe)
    · intro r hr
      obtain ⟨n, hn, _⟩ := hprops.1 r hr
      rw [hn]
      exact vstr_ne_vNone n
    · rcases hprops.2 with hnone | ⟨n, hn⟩
      · rw [hnone]; simp
      · rw [hn]
        intro hc
        exact vstr_ne_vNone n (Option.some.inj hc)
  have h1 : ∀ s ∈ L1,
      remove_volume_version m s (vstrOpt (extract_version_number (mkId sOwn k) s)) =
        (m, none) := by
    intro s hs
    refine hstep m hnd0 s (by intro hc; rw [hc] at hs; exact hsownL1 hs) ?_ rfl
    rw [hL]
    exact List.mem_append_left _ hs
  have h2 : ∀ s ∈ L2,
      remove_volume_version (remove_volume_version m sOwn (vstr k)).1 s
          (vstrOpt (extract_version_number (mkId sOwn k) s)) =
        ((remove_volume_version m sOwn (vstr k)).1, none) := by
    intro s hs
    have hne : s ≠ sOwn := by intro hc; rw [hc] at hs; exact hsownL2 hs
    refine hstep (remove_volume_version m sOwn (vstr k)).1
      (remove_keys_nodup sOwn (vstr k) hnd0) s hne ?_ (remove_frame hne)
    rw [hL]
    exact List.mem_append_right _ (List.mem_cons_of_mem _ hs)
  show removeSegsSubjects m (mkId sOwn k) (keysOf m.volumes) = _
  rw [hL]
  rw [removeSegsSubjects_split (mkId sOwn k) sOwn k m (extract_mkId_eq sOwn k) L1 L2 h1 h2]
  rw [List.flatMap_append, List.flatMap_cons, if_pos rfl]
  rw [flatMap_no_owner L1 (by intro s hs hc; rw [hc] at hs; exact hsownL1 hs),
    flatMap_no_owner L2 (by intro s hs hc; rw [hc] at hs; exact hsownL2 hs)]
  simp

theorem remove_keys_eq {m : Manifest} {s tok : String} {e : VolumeEntry}
    (hl : lookupVol m.volumes s = some e)
    (hF : e.versions.filter (fun v => v.version != tok) ≠ []) :
    keysOf (remove_volume_version m s tok).1.volumes = keysOf m.volumes := by
  by_cases hsel : e.selectedVersion = some tok
  · have hvne : e.versions ≠ [] := by
      intro hc
      rw [hc] at hF
      exact hF rfl
    rw [remove_selected_repair hl hsel hvne hF]
    exact keysOf_setVol _ _ _
  · rw [remove_not_selected hl hsel hF]
    exact keysOf_setVol _ _ _

/-- Claim C2 (amended): the removed-volumes loop deletes each removed
subject wholesale with one "removed volume" line each; but the
removed-segmentations loop iterates EVERY subject of the manifest for each
removed id `<subject>-vN` (the source has no guard on a failed extraction),
so it emits one "Removed segmentation version" line per (id, subject) PAIR
— not one per id — calling the removal path with token `"vNone"` on every
non-owning subject.  On a canonical manifest whose entries all hold at
least one version, and provided the owning entry retains a version after
`vN` is removed (the source iterates the LIVE dict, so removing an owner's
last version deletes its entry mid-iteration and Python raises
`RuntimeError` instead of completing the loop), no call of the loop ever
deletes an entry: the key set is unchanged, the `"vNone"` calls are state
no-ops, the net state effect is the single owner-side removal via
`remove_volume_version` (with selection repair), and no other subject's
entry is modified. -/
theorem claim_C2_removal_passes :
    (∀ (vols : Vols) (rem : List String),
       removeVolumesPass vols rem = (rem.foldl delVol vols, rem.map LogMsg.removedVolume)) ∧
    (∀ (m : Manifest) (sOwn : String) (k : Nat),
       CCVols m.volumes → (∀ p ∈ m.volumes, p.2.versions ≠ []) → sOwn ∈ keysOf m.volumes →
       (∀ p ∈ m.volumes, p.1 = sOwn →
         p.2.versions.filter (fun v => v.version != vstr k) ≠ []) →
       removeSegsOne m (mkId sOwn k) =
         ((remove_volume_version m sOwn (vstr k)).1,
           (keysOf m.volumes).flatMap (fun s =>
             LogMsg.removedSegVersion (mkId sOwn k) s ::
               (if s = sOwn then (remove_volume_version m sOwn (vstr k)).2.toList else []))) ∧
       keysOf (removeSegsOne m (mkId sOwn k)).1.volumes = keysOf m.volumes) ∧
    (∀ (m : Manifest) (sOwn : String) (k : Nat) (s2 : String),
       CCVols m.volumes → (∀ p ∈ m.volumes, p.2.versions ≠ []) → sOwn ∈ keysOf m.volumes →
       (∀ p ∈ m.volumes, p.1 = sOwn →
         p.2.versions.filter (fun v => v.version != vstr k) ≠ []) →
       s2 ≠ sOwn →
       lookupVol (removeSegsOne m (mkId sOwn k)).1.volumes s2 = lookupVol m.volumes s2) := by
  refine ⟨fun vols rem => removeVolumesPass_eq rem vols, ?_, ?_⟩
  · intro m sOwn k hcc hvne hmem hkeep
    have hcanon := @removeSegsOne_canon m sOwn k hcc hvne hmem
    refine ⟨hcanon, ?_⟩
    obtain ⟨eO, hlO⟩ := lookup_of_mem_keys hmem
    have hFne : eO.versions.filter (fun v => v.version != vstr k) ≠ [] :=
      hkeep (sOwn, eO) (lookup_mem hlO) rfl
    rw [hcanon]
    exact remove_keys_eq hlO hFne
  · intro m sOwn k s2 hcc hvne hmem _ hne
    rw [@removeSegsOne_canon m sOwn k hcc hvne hmem]
    exact remove_frame hne

/-- Witness for C2 at the concrete two-subject manifest `mC2` with removed
id `A-v2` (subject `A` keeps `v1`, so no entry is deleted mid-loop). -/
theorem claim_C2_removal_passes_witness :
    (removeSegsOne mC2 (mkId "A" 2) =
      ((remove_volume_version mC2 "A" (vstr 2)).1,
        (keysOf mC2.volumes).flatMap (fun s =>
          LogMsg.removedSegVersion (mkId "A" 2) s ::
            (if s = "A" then (remove_volume_version mC2 "A" (vstr 2)).2.toList else []))) ∧
     keysOf (removeSegsOne mC2 (mkId "A" 2)).1.volumes = keysOf mC2.volumes) :=
  claim_C2_removal_passes.2.1 mC2 "A" 2 (CCVols_of_b (by decide)) (by decide) (by decide)
    (by decide)

/-- Counterexample for C2 as stated: reconciling `mC2` (subjects `A`, `B`)
against data from which only the single id `A-v2` has vanished logs TWO
"Removed segmentation version" lines — one per (id, subject) pair — not
one per removed id. -/
theorem claim_C2_counterexample :
    (update_index mC2 newC2).1 =
      [LogMsg.removedSegVersion "A-v2" "A", LogMsg.removedSegVersion "A-v2" "B"] := by
  decide

/-! ### Lemmas: invariant I2 preservation -/

theorem mem_setVol {vols : Vols} {s : String} {ee : VolumeEntry} {p : String × VolumeEntry}
    (h : p ∈ setVol vols s ee) : p = (s, ee) ∨ p ∈ vols := by
  unfold setVol at h
  obtain ⟨q, hq, hqe⟩ := List.mem_map.mp h
  by_cases hqs : q.1 = s
  · rw [if_pos hqs] at hqe
    exact Or.inl hqe.symm
  · rw [if_neg hqs] at hqe
    rw [← hqe]
    exact Or.inr hq

theorem mem_delVol {vols : Vols} {s : String} {p : String × VolumeEntry}
    (h : p ∈ delVol vols s) : p ∈ vols :=
  (List.mem_filter.mp h).1

theorem InvI2V_delVol {vols : Vols} (s : String) (h : InvI2V vols) :
    InvI2V (delVol vols s) :=
  ⟨nodup_keysOf_delVol h.1, fun p hp => h.2 p (mem_delVol hp)⟩

theorem InvI2_remove_volume (m : Manifest) (s : String) (h : InvI2 m) :
    InvI2 (remove_volume m s) :=
  InvI2V_delVol s h

theorem InvI2_remove_version (m : Manifest) (s tok : String) (h : InvI2 m) :
    InvI2 (remove_volume_version m s tok).1 := by
  cases hl : lookupVol m.volumes s with
  | none =>
      rw [remove_absent m s tok hl]
      exact h
  | some e =>
      have hprops := h.2 (s, e) (lookup_mem hl)
      by_cases hF : e.versions.filter (fun v => v.version != tok) = []
      · rw [remove_emptied_fst hl hF]
        exact InvI2V_delVol s h
      · have hcanonF : ∀ r ∈ e.versions.filter (fun v => v.version != tok),
            ∃ n, r.version = vstr n :=
          fun r hr => hprops.1 r (List.mem_filter.mp hr).1
        by_cases hsel : e.selectedVersion = some tok
        · have hvne : e.versions ≠ [] := by
            intro hc
            rw [hc] at hF
            exact hF rfl
          rw [remove_selected_repair hl hsel hvne hF]
          refine ⟨by rw [keysOf_setVol]; exact h.1, ?_⟩
          intro p hp
          rcases mem_setVol hp with rfl | hp2
          · dsimp only
            obtain ⟨k, hk1, hk2, _⟩ := latestFold_canon hcanonF hF
            refine ⟨fun r hr => hcanonF r hr, Or.inr ?_⟩
            refine ⟨vstrOpt (latestFold (e.versions.filter (fun v => v.version != tok))),
              rfl, ?_⟩
            rw [hk1]
            exact hk2
          · exact h.2 p hp2
        · rw [remove_not_selected hl hsel hF]
          refine ⟨by rw [keysOf_setVol]; exact h.1, ?_⟩
          intro p hp
          rcases mem_setVol hp with rfl | hp2
          · dsimp only
            refine ⟨fun r hr => hcanonF r hr, ?_⟩
            rcases hprops.2 with hnone | ⟨v, hv1, hv2⟩
            · exact Or.inl hnone
            · right
              refine ⟨v, hv1, ?_⟩
              obtain ⟨r, hr, hrv⟩ := List.mem_map.mp hv2
              have hvtok : v ≠ tok := by
                intro hc
                rw [hc] at hv1
                exact hsel hv1
              refine List.mem_map.mpr ⟨r, ?_, hrv⟩
              refine List.mem_filter.mpr ⟨hr, ?_⟩
              simp [bne_iff_ne, hrv, hvtok]
          · exact h.2 p hp2

theorem InvI2_add (hs : String → String) (m : Manifest) (s : String) (n : Nat)
    (a no : String) (tg : List String) (ts lu : String) (h : InvI2 m) :
    InvI2 (add_volume_version hs m s (vstr n) a no tg ts lu).1 := by
  cases hl : lookupVol m.volumes s with
  | some e =>
      cases hdup : e.versions.any (fun v => v.version == vstr n) with
      | true =>
          rw [add_dup hs a no tg ts lu hl hdup]
          exact h
      | false =>
          rw [add_fresh_existing hs a no tg ts lu hl hdup]
          refine ⟨by rw [keysOf_setVol]; exact h.1, ?_⟩
          intro p hp
          have hprops := h.2 (s, e) (lookup_mem hl)
          rcases mem_setVol hp with rfl | hp2
          · dsimp only
            constructor
            · intro r hr
              rcases List.mem_append.mp hr with hr1 | hr2
              · exact hprops.1 r hr1
              · have hre : r = addEntry hs s (vstr n) a no tg ts lu := by
                  simpa using hr2
                exact ⟨n, by rw [hre]; rfl⟩
            · rcases hprops.2 with hnone | ⟨v, hv1, hv2⟩
              · exact Or.inl hnone
              · right
                refine ⟨v, hv1, ?_⟩
                show v ∈ tokensOf (appendVersion e (addEntry hs s (vstr n) a no tg ts lu))
                unfold tokensOf appendVersion
                rw [List.map_append]
                exact List.mem_append_left _ hv2
          · exact h.2 p hp2
  | none =>
      rw [add_new (vstr n) hs a no tg ts lu hl]
      have h0 : s ∉ keysOf m.volumes := by
        rw [← lookupVol_eq_none]
        exact hl
      constructor
      · have hk : keysOf (m.volumes ++
            [(s, ({ selectedVersion := some (vstr n),
                    versions := [addEntry hs s (vstr n) a no tg ts lu] } : VolumeEntry))]) =
            keysOf m.volumes ++ [s] := by
          simp [keysOf]
        rw [hk, List.nodup_append]
        refine ⟨h.1, List.nodup_singleton s, ?_⟩
        intro x hx hxs
        rw [List.mem_singleton] at hxs
        rw [hxs] at hx
        exact h0 hx
      · intro p hp
        rcases List.mem_append.mp hp with hp1 | hp2
        · exact h.2 p hp1
        · have hpe : p = (s, mkEntry (some (vstr n)) [addEntry hs s (vstr n) a no tg ts lu]) := by
            simpa [mkEntry] using hp2
          rw [hpe]
          constructor
          · intro r hr
            have hre : r = addEntry hs s (vstr n) a no tg ts lu := by
              simpa [mkEntry] using hr
            exact ⟨n, by rw [hre]; rfl⟩
          · right
            refine ⟨vstr n, rfl, ?_⟩
            show vstr n ∈ [vstr n]
            exact List.mem_singleton.mpr rfl

theorem InvI2_set_selected {m : Manifest} {s v : String}
    (h : InvI2 m) (hv : v ∈ get_all_version_strings m s) :
    InvI2 (set_selected_version m s (some v)) := by
  unfold set_selected_version
  cases hl : lookupVol m.volumes s with
  | none => exact h
  | some e =>
      refine ⟨by rw [keysOf_setVol]; exact h.1, ?_⟩
      intro p hp
      rcases mem_setVol hp with rfl | hp2
      · dsimp only
        have hprops := h.2 (s, e) (lookup_mem hl)
        refine ⟨fun r hr => hprops.1 r hr, Or.inr ⟨v, rfl, ?_⟩⟩
        unfold get_all_version_strings get_all_versions at hv
        rw [hl] at hv
        exact hv
      · exact h.2 p hp2

theorem InvI2_select (m : Manifest) (vf sv : String) (ve se : Bool) (h : InvI2 m) :
    InvI2 (select_segmentation m vf sv ve se) := by
  unfold select_segmentation
  dsimp only
  split
  · exact h
  split
  · exact h
  split
  · exact h
  split
  · exact InvI2_remove_volume m _ h
  split
  · exact h
  next h5 =>
    split
    · exact InvI2_remove_version m _ _ h
    next _h6 =>
      refine InvI2_set_selected h ?_
      have hc : ((get_all_version_strings m (vf.dropRight m.volumeExtension.length)).contains
          (pyStrip sv)) = true := by
        cases hcb : ((get_all_version_strings m (vf.dropRight m.volumeExtension.length)).contains
            (pyStrip sv)) with
        | true => rfl
        | false =>
            exfalso
            apply h5
            rw [hcb]
            rfl
      simpa using hc

theorem InvI2V_mergeOne {vols : Vols} {k : String} {ne : VolumeEntry}
    (h : InvI2V vols)
    (hne : (∀ r ∈ ne.versions, ∃ n, r.version = vstr n) ∧
      (ne.selectedVersion = none ∨ ∃ v, ne.selectedVersion = some v ∧ v ∈ tokensOf ne)) :
    InvI2V (mergeOne vols k ne).1 := by
  cases hl : lookupVol vols k with
  | none =>
      rw [mergeOne_absent ne hl]
      have h0 : k ∉ keysOf vols := by
        rw [← lookupVol_eq_none]
        exact hl
      constructor
      · have hk : keysOf (vols ++ [(k, ne)]) = keysOf vols ++ [k] := by
          simp [keysOf]
        rw [hk, List.nodup_append]
        refine ⟨h.1, List.nodup_singleton k, ?_⟩
        intro x hx hxs
        rw [List.mem_singleton] at hxs
        rw [hxs] at hx
        exact h0 hx
      · intro p hp
        rcases List.mem_append.mp hp with hp1 | hp2
        · exact h.2 p hp1
        · have hpk : p = (k, ne) := by simpa using hp2
          rw [hpk]
          exact hne
  | some e =>
      rw [mergeOne_present ne hl]
      refine ⟨by rw [keysOf_setVol]; exact h.1, ?_⟩
      intro p hp
      have hprops := h.2 (k, e) (lookup_mem hl)
      rcases mem_setVol hp with rfl | hp2
      · dsimp only
        constructor
        · intro r hr
          rcases List.mem_append.mp hr with hr1 | hr2
          · exact hprops.1 r hr1
          · exact hne.1 r (List.mem_filter.mp hr2).1
        · rcases hprops.2 with hnone | ⟨v, hv1, hv2⟩
          · exact Or.inl hnone
          · right
            refine ⟨v, hv1, ?_⟩
            show v ∈ tokensOf _
            unfold tokensOf
            rw [List.map_append]
            exact List.mem_append_left _ hv2
      · exact h.2 p hp2

theorem InvI2V_mergePass :
    ∀ (newVols : Vols) {vols : Vols}, InvI2V vols →
      (∀ q ∈ newVols, (∀ r ∈ q.2.versions, ∃ n, r.version = vstr n) ∧
        (q.2.selectedVersion = none ∨ ∃ v, q.2.selectedVersion = some v ∧ v ∈ tokensOf q.2)) →
      InvI2V (mergePass vols newVols).1 := by
  intro newVols
  induction newVols with
  | nil => intro vols h _; exact h
  | cons q rest ih =>
      intro vols h hq
      rw [mergePass_cons]
      exact ih (InvI2V_mergeOne h (hq q (by simp))) (fun q2 hq2 => hq q2 (by simp [hq2]))

theorem InvI2V_foldl_delVol :
    ∀ (rem : List String) {vols : Vols}, InvI2V vols → InvI2V (rem.foldl delVol vols) := by
  intro rem
  induction rem with
  | nil => intro vols h; exact h
  | cons s rest ih =>
      intro vols h
      exact ih (InvI2V_delVol s h)

theorem InvI2_removeSegsSubjects (seg_id : String) :
    ∀ (L : List String) (m : Manifest), InvI2 m → InvI2 (removeSegsSubjects m seg_id L).1 := by
  intro L
  induction L with
  | nil => intro m h; exact h
  | cons s rest ih =>
      intro m h
      rw [removeSegsSubjects_cons]
      exact ih _ (InvI2_remove_version m s _ h)

theorem InvI2_removeSegsPass :
    ∀ (ids : List String) (m : Manifest), InvI2 m → InvI2 (removeSegsPass m ids).1 := by
  intro ids
  induction ids with
  | nil => intro m h; exact h
  | cons i rest ih =>
      intro m h
      exact ih (removeSegsOne m i).1
        (InvI2_removeSegsSubjects i (keysOf m.volumes) m h)

theorem InvI2_update_index (m : Manifest) (newVols : Vols)
    (h : InvI2 m)
    (hq : ∀ q ∈ newVols, (∀ r ∈ q.2.versions, ∃ n, r.version = vstr n) ∧
      (q.2.selectedVersion = none ∨ ∃ v, q.2.selectedVersion = some v ∧ v ∈ tokensOf q.2)) :
    InvI2 (update_index m newVols).2 := by
  unfold update_index
  dsimp only
  refine InvI2_removeSegsPass _ _ ?_
  show InvI2V (removeVolumesPass (mergePass m.volumes newVols).1 _).1
  rw [removeVolumesPass_eq]
  exact InvI2V_foldl_delVol _ (InvI2V_mergePass newVols h hq)

theorem verify_entry_props (ref_fnames tar_fnames : List String)
    (sp sext : String) (hashF tsF : String → String) :
    ∀ q ∈ (verify_volseg_match ref_fnames tar_fnames sp sext hashF tsF).index,
      (∀ r ∈ q.2.versions, ∃ n, r.version = vstr n) ∧
      (q.2.selectedVersion = none ∨ ∃ v, q.2.selectedVersion = some v ∧ v ∈ tokensOf q.2) := by
  intro q hq
  obtain ⟨hs, hne, he⟩ :=
    (verify_mem_index ref_fnames tar_fnames sp sext hashF tsF q.1 q.2).mp hq
  constructor
  · intro r hr
    rw [he] at hr
    have hr2 : r ∈ matchList tar_fnames sp sext hashF tsF q.1 :=
      (sortVersions_perm _).mem_iff.mp hr
    obtain ⟨t, _, n, _, rfl⟩ := (matchList_mem tar_fnames sp sext hashF tsF q.1 r).mp hr2
    exact ⟨n, rfl⟩
  · right
    rw [he]
    refine ⟨((sortVersions (matchList tar_fnames sp sext hashF tsF q.1)).getLastD default).version,
      rfl, ?_⟩
    have hnil : sortVersions (matchList tar_fnames sp sext hashF tsF q.1) ≠ [] :=
      sortVersions_ne_nil hne
    exact List.mem_map.mpr ⟨_, getLastD_mem hnil default, rfl⟩

theorem InvI2_applyOp (m : Manifest) (op : Op) (h : InvI2 m) : InvI2 (applyOp m op) := by
  cases op with
  | add hs s n a no tg ts lu => exact InvI2_add hs m s n a no tg ts lu h
  | removeVer s tok => exact InvI2_remove_version m s tok h
  | removeVol s => exact InvI2_remove_volume m s h
  | select vf sv ve se => exact InvI2_select m vf sv ve se h
  | update ref tar sp sext hashF tsF =>
      exact InvI2_update_index m _ h (verify_entry_props ref tar sp sext hashF tsF)

theorem InvI2_applyOps :
    ∀ (ops : List Op) (m : Manifest), InvI2 m → InvI2 (applyOps m ops) := by
  intro ops
  induction ops with
  | nil => intro m h; exact h
  | cons op rest ih =>
      intro m h
      exact ih (applyOp m op) (InvI2_applyOp m op h)

theorem I2_of_InvI2 {m : Manifest} (h : InvI2 m) : I2holds m :=
  fun p hp => (h.2 p hp).2

theorem InvI2_of_b {m : Manifest} (h : invI2B m = true) : InvI2 m := by
  unfold invI2B at h
  rw [Bool.and_eq_true] at h
  obtain ⟨h1, h2⟩ := h
  refine ⟨of_decide_eq_true h1, ?_⟩
  intro p hp
  rw [List.all_eq_true] at h2
  have hp2 := h2 p hp
  rw [Bool.and_eq_true] at hp2
  obtain ⟨hv, hsel⟩ := hp2
  constructor
  · intro r hr
    rw [List.all_eq_true] at hv
    exact canonTokB_iff.mp (hv r hr)
  · cases hs : p.2.selectedVersion with
    | none => exact Or.inl rfl
    | some v =>
        right
        rw [hs] at hsel
        refine ⟨v, rfl, ?_⟩
        simpa using hsel

/-- Claim C4: along any sequence of the system's manifest operations
(adding a canonical version, removing a version or a volume, selecting a
version, or reconciling against a matcher-produced index), the inductive
invariant — unique keys, canonical record tokens, and I2 — is preserved
step by step, and therefore after every operation each entry's
selected-version is either absent or the `version` field of some record in
that entry's `versions` list. -/
theorem claim_C4_invariant_I2 :
    (∀ (m : Manifest) (op : Op), InvI2 m → InvI2 (applyOp m op)) ∧
    (∀ (m : Manifest) (ops : List Op), InvI2 m → InvI2 (applyOps m ops)) ∧
    (∀ (m : Manifest) (ops : List Op), InvI2 m → I2holds (applyOps m ops)) := by
  refine ⟨InvI2_applyOp, ?_, ?_⟩
  · intro m ops h
    exact InvI2_applyOps ops m h
  · intro m ops h
    exact I2_of_InvI2 (InvI2_applyOps ops m h)

/-- Witness for C4: a concrete mixed operation sequence on `mC2` ends in a
state satisfying I2. -/
theorem claim_C4_invariant_I2_witness :
    I2holds (applyOps mC2
      [Op.removeVer "A" "v2", Op.add hashConst "A" 5 "" "" [] "t" "t",
       Op.removeVol "B", Op.select "A.mha" "v1" true true]) :=
  claim_C4_invariant_I2.2.2 mC2
    [Op.removeVer "A" "v2", Op.add hashConst "A" 5 "" "" [] "t" "t",
     Op.removeVol "B", Op.select "A.mha" "v1" true true]
    (InvI2_of_b (by decide))

/-! ### Lemmas: reconciliation against an aligned index is a no-op -/

theorem mergeOne_noop {vols : Vols} {k : String} {ne e : VolumeEntry}
    (hnd : (keysOf vols).Nodup)
    (hl : lookupVol vols k = some e)
    (htok : ∀ r ∈ ne.versions, r.version ∈ tokensOf e) :
    mergeOne vols k ne = (vols, []) := by
  rw [mergeOne_present ne hl]
  have hF : ne.versions.filter (fun v => !((tokensOf e).contains v.version)) = [] := by
    rw [List.filter_eq_nil_iff]
    intro r hr
    simp [htok r hr]
  rw [hF]
  have he2 : ({ e with versions := e.versions ++ [] } : VolumeEntry) = e := by
    rw [List.append_nil]
  rw [he2, setVol_self hnd hl]
  rfl

theorem mergePass_noop :
    ∀ (newVols : Vols) {vols : Vols}, (keysOf vols).Nodup →
      (∀ q ∈ newVols, ∃ e, lookupVol vols q.1 = some e ∧
        ∀ r ∈ q.2.versions, r.version ∈ tokensOf e) →
      mergePass vols newVols = (vols, []) := by
  intro newVols
  induction newVols with
  | nil => intro vols _ _; rfl
  | cons q rest ih =>
      intro vols hnd h
      obtain ⟨e, hl, htok⟩ := h q (by simp)
      rw [mergePass_cons, mergeOne_noop hnd hl htok]
      rw [ih hnd (fun q2 hq2 => h q2 (by simp [hq2]))]
      rfl

theorem update_index_noop (m : Manifest) (idx : Vols) (h : Aligned m idx) :
    update_index m idx = ([], m) := by
  obtain ⟨hnd, hmerge, hkeys, hids⟩ := h
  unfold update_index
  dsimp only
  rw [mergePass_noop idx hnd hmerge]
  have hrv : (m.volumes.map (fun p => p.1)).filter
      (fun s => !((idx.map (fun p => p.1)).contains s)) = [] := by
    rw [List.filter_eq_nil_iff]
    intro s hs
    have hs2 : s ∈ keysOf idx := hkeys s hs
    simp only [keysOf] at hs2
    simp [hs2]
  rw [hrv]
  dsimp only
  have hrs : ((m.volumes.flatMap (fun p => p.2.versions.map (fun v => v.id))).dedup).filter
      (fun i => !((idx.flatMap (fun p => p.2.versions.map (fun v => v.id))).dedup.contains i)) = [] := by
    rw [List.filter_eq_nil_iff]
    intro i hi
    have hi2 : i ∈ segIds m.volumes := List.mem_dedup.mp hi
    have hi3 : i ∈ segIds idx := hids i hi2
    have hi4 : i ∈ (idx.flatMap (fun p => p.2.versions.map (fun v => v.id))).dedup :=
      List.mem_dedup.mpr hi3
    simp [hi4]
  rw [hrs]
  rfl

/-! ### Lemmas: the volume-removal fold and the merge pass, structurally -/

theorem lookup_foldl_delVol :
    ∀ (rem : List String) (vols : Vols) (s : String),
      lookupVol (rem.foldl delVol vols) s = if s ∈ rem then none else lookupVol vols s := by
  intro rem
  induction rem with
  | nil => intro vols s; simp
  | cons a rest ih =>
      intro vols s
      rw [List.foldl_cons, ih]
      by_cases hs : s ∈ rest
      · have hm : s ∈ a :: rest := List.mem_cons_of_mem a hs
        rw [if_pos hs, if_pos hm]
      · rw [if_neg hs]
        by_cases hsa : s = a
        · have hm : s ∈ a :: rest := by rw [hsa]; exact List.mem_cons_self a rest
          rw [if_pos hm, hsa, lookupVol_delVol_self]
        · have hm : s ∉ a :: rest := by
            intro hc
            rcases List.mem_cons.mp hc with hc1 | hc2
            · exact hsa hc1
            · exact hs hc2
          rw [if_neg hm, lookupVol_delVol_ne hsa]

theorem keys_foldl_delVol_mem :
    ∀ (rem : List String) (vols : Vols) (s : String),
      s ∈ keysOf (rem.foldl delVol vols) ↔ s ∈ keysOf vols ∧ s ∉ rem := by
  intro rem
  induction rem with
  | nil => intro vols s; simp
  | cons a rest ih =>
      intro vols s
      rw [List.foldl_cons, ih, keysOf_delVol_mem]
      simp only [List.mem_cons]
      constructor
      · rintro ⟨⟨h1, h2⟩, h3⟩
        exact ⟨h1, by rintro (rfl | hc); exact h2 rfl; exact h3 hc⟩
      · rintro ⟨h1, h2⟩
        exact ⟨⟨h1, fun hc => h2 (Or.inl hc)⟩, fun hc => h2 (Or.inr hc)⟩

theorem nodup_keys_foldl_delVol :
    ∀ (rem : List String) {vols : Vols}, (keysOf vols).Nodup →
      (keysOf (rem.foldl delVol vols)).Nodup := by
  intro rem
  induction rem with
  | nil => intro vols h; exact h
  | cons a rest ih =>
      intro vols h
      exact ih (nodup_keysOf_delVol h)

theorem mem_foldl_delVol {p : String × VolumeEntry} :
    ∀ (rem : List String) {vols : Vols}, p ∈ rem.foldl delVol vols → p ∈ vols := by
  intro rem
  induction rem with
  | nil => intro vols h; exact h
  | cons a rest ih =>
      intro vols h
      exact mem_delVol (ih h)

theorem keysOf_append (vols vols' : Vols) :
    keysOf (vols ++ vols') = keysOf vols ++ keysOf vols' := by
  simp [keysOf]

theorem mergeOne_keys_superset {vols : Vols} (k : String) (ne : VolumeEntry) :
    ∀ s ∈ keysOf vols, s ∈ keysOf (mergeOne vols k ne).1 := by
  intro s hs
  cases hlk : lookupVol vols k with
  | none =>
      rw [mergeOne_absent ne hlk]
      rw [keysOf_append]
      exact List.mem_append_left _ hs
  | some e0 =>
      rw [mergeOne_present ne hlk]
      rw [keysOf_setVol]
      exact hs

theorem mergeOne_keys_self {vols : Vols} (k : String) (ne : VolumeEntry) :
    k ∈ keysOf (mergeOne vols k ne).1 := by
  cases hlk : lookupVol vols k with
  | none =>
      rw [mergeOne_absent ne hlk, keysOf_append]
      exact List.mem_append_right _ (by simp [keysOf])
  | some e0 =>
      rw [mergeOne_present ne hlk, keysOf_setVol]
      exact lookup_mem_keys hlk

theorem mergeOne_keys_subset {vols : Vols} (k : String) (ne : VolumeEntry) :
    ∀ s, s ∈ keysOf (mergeOne vols k ne).1 → s ∈ keysOf vols ∨ s = k := by
  intro s hs
  cases hlk : lookupVol vols k with
  | none =>
      rw [mergeOne_absent ne hlk, keysOf_append] at hs
      rcases List.mem_append.mp hs with h1 | h2
      · exact Or.inl h1
      · right
        simpa [keysOf] using h2
  | some e0 =>
      rw [mergeOne_present ne hlk, keysOf_setVol] at hs
      exact Or.inl hs

theorem mergeOne_nodup {vols : Vols} (k : String) (ne : VolumeEntry)
    (hnd : (keysOf vols).Nodup) : (keysOf (mergeOne vols k ne).1).Nodup := by
  cases hlk : lookupVol vols k with
  | none =>
      rw [mergeOne_absent ne hlk, keysOf_append, List.nodup_append]
      refine ⟨hnd, by simp [keysOf], ?_⟩
      intro x hx hxk
      have hk0 : k ∉ keysOf vols := by
        rw [← lookupVol_eq_none]
        exact hlk
      have hxk2 : x = k := by simpa [keysOf] using hxk
      rw [hxk2] at hx
      exact hk0 hx
  | some e0 =>
      rw [mergeOne_present ne hlk, keysOf_setVol]
      exact hnd

theorem mergePass_keys_superset :
    ∀ (newVols : Vols) (vols : Vols) (s : String),
      s ∈ keysOf vols → s ∈ keysOf (mergePass vols newVols).1 := by
  intro newVols
  induction newVols with
  | nil => intro vols s hs; exact hs
  | cons q rest ih =>
      intro vols s hs
      rw [mergePass_cons]
      exact ih _ s (mergeOne_keys_superset q.1 q.2 s hs)

theorem mergePass_keys_new :
    ∀ (newVols : Vols) (vols : Vols), ∀ q ∈ newVols, q.1 ∈ keysOf (mergePass vols newVols).1 := by
  intro newVols
  induction newVols with
  | nil => intro vols q hq; exact absurd hq (List.not_mem_nil q)
  | cons q0 rest ih =>
      intro vols q hq
      rw [mergePass_cons]
      rcases List.mem_cons.mp hq with rfl | hq2
      · exact mergePass_keys_superset rest _ q.1 (mergeOne_keys_self q.1 q.2)
      · exact ih _ q hq2

theorem mergePass_keys_subset :
    ∀ (newVols : Vols) (vols : Vols) (s : String),
      s ∈ keysOf (mergePass vols newVols).1 → s ∈ keysOf vols ∨ s ∈ keysOf newVols := by
  intro newVols
  induction newVols with
  | nil => intro vols s hs; exact Or.inl hs
  | cons q rest ih =>
      intro vols s hs
      rw [mergePass_cons] at hs
      rcases ih _ s hs with h1 | h2
      · rcases mergeOne_keys_subset q.1 q.2 s h1 with h3 | h3
        · exact Or.inl h3
        · right
          rw [keysOf_cons, h3]
          exact List.mem_cons_self _ _
      · right
        rw [keysOf_cons]
        exact List.mem_cons_of_mem _ h2

theorem mergePass_nodup :
    ∀ (newVols : Vols) {vols : Vols}, (keysOf vols).Nodup →
      (keysOf (mergePass vols newVols).1).Nodup := by
  intro newVols
  induction newVols with
  | nil => intro vols h; exact h
  | cons q rest ih =>
      intro vols h
      rw [mergePass_cons]
      exact ih (mergeOne_nodup q.1 q.2 h)

theorem mergeOne_tokens_mono {vols : Vols} (k : String) (ne : VolumeEntry)
    {s : String} {e : VolumeEntry} (hl : lookupVol vols s = some e) :
    ∃ e2, lookupVol (mergeOne vols k ne).1 s = some e2 ∧
      ∀ t ∈ tokensOf e, t ∈ tokensOf e2 := by
  cases hlk : lookupVol vols k with
  | none =>
      rw [mergeOne_absent ne hlk]
      exact ⟨e, lookupVol_append_left hl, fun t ht => ht⟩
  | some e0 =>
      rw [mergeOne_present ne hlk]
      by_cases hks : k = s
      · subst hks
        have he0 : e0 = e := by
          rw [hlk] at hl
          exact Option.some.inj hl
        subst he0
        refine ⟨_, lookupVol_setVol_self _ hlk, ?_⟩
        intro t ht
        show t ∈ tokensOf _
        unfold tokensOf
        rw [List.map_append]
        exact List.mem_append_left _ ht
      · have hsk : s ≠ k := fun hc => hks hc.symm
        rw [lookupVol_setVol_ne _ hsk]
        exact ⟨e, hl, fun t ht => ht⟩

theorem mergePass_tokens_mono :
    ∀ (newVols : Vols) {vols : Vols} {s : String} {e : VolumeEntry},
      lookupVol vols s = some e →
      ∃ e2, lookupVol (mergePass vols newVols).1 s = some e2 ∧
        ∀ t ∈ tokensOf e, t ∈ tokensOf e2 := by
  intro newVols
  induction newVols with
  | nil => intro vols s e hl; exact ⟨e, hl, fun t ht => ht⟩
  | cons q rest ih =>
      intro vols s e hl
      rw [mergePass_cons]
      obtain ⟨e1, hl1, ht1⟩ := mergeOne_tokens_mono q.1 q.2 hl
      obtain ⟨e2, hl2, ht2⟩ := ih hl1
      exact ⟨e2, hl2, fun t ht => ht2 t (ht1 t ht)⟩

theorem mergePass_new_tokens :
    ∀ (newVols : Vols) (vols : Vols), ∀ q ∈ newVols,
      ∃ e, lookupVol (mergePass vols newVols).1 q.1 = some e ∧
        ∀ r ∈ q.2.versions, r.version ∈ tokensOf e := by
  intro newVols
  induction newVols with
  | nil => intro vols q hq; exact absurd hq (List.not_mem_nil q)
  | cons q0 rest ih =>
      intro vols q hq
      rw [mergePass_cons]
      rcases List.mem_cons.mp hq with rfl | hq2
      · have hstep : ∃ e1, lookupVol (mergeOne vols q.1 q.2).1 q.1 = some e1 ∧
            ∀ r ∈ q.2.versions, r.version ∈ tokensOf e1 := by
          cases hlk : lookupVol vols q.1 with
          | none =>
              rw [mergeOne_absent q.2 hlk]
              refine ⟨q.2, ?_, ?_⟩
              · rw [lookupVol_append_sing _ hlk]
                simp
              · intro r hr
                exact List.mem_map.mpr ⟨r, hr, rfl⟩
          | some e0 =>
              rw [mergeOne_present q.2 hlk]
              refine ⟨_, lookupVol_setVol_self _ hlk, ?_⟩
              intro r hr
              show r.version ∈ tokensOf _
              unfold tokensOf
              rw [List.map_append]
              by_cases hin : r.version ∈ tokensOf e0
              · exact List.mem_append_left _ hin
              · refine List.mem_append_right _ ?_
                refine List.mem_map.mpr ⟨r, ?_, rfl⟩
                refine List.mem_filter.mpr ⟨hr, ?_⟩
                simp [hin]
                intro x hx hc
                exact hin (List.mem_map.mpr ⟨x, hx, hc⟩)
        obtain ⟨e1, hl1, ht1⟩ := hstep
        obtain ⟨e2, hl2, ht2⟩ := mergePass_tokens_mono rest hl1
        exact ⟨e2, hl2, fun r hr => ht2 _ (ht1 r hr)⟩
      · exact ih _ q hq2

theorem mergeOne_records {vols : Vols} (k : String) (ne : VolumeEntry)
    {s : String} {e2 : VolumeEntry} {r : VersionRecord}
    (h2 : lookupVol (mergeOne vols k ne).1 s = some e2) (hr : r ∈ e2.versions) :
    (∃ e0, lookupVol vols s = some e0 ∧ r ∈ e0.versions) ∨ (s = k ∧ r ∈ ne.versions) := by
  cases hlk : lookupVol vols k with
  | none =>
      rw [mergeOne_absent ne hlk] at h2
      cases hls : lookupVol vols s with
      | some e0 =>
          rw [lookupVol_append_left hls] at h2
          have he : e0 = e2 := Option.some.inj h2
          rw [← he] at hr
          exact Or.inl ⟨e0, rfl, hr⟩
      | none =>
          rw [lookupVol_append_sing _ hls] at h2
          by_cases hks : k = s
          · rw [if_pos hks] at h2
            have hne2 : ne = e2 := Option.some.inj h2
            rw [← hne2] at hr
            exact Or.inr ⟨hks.symm, hr⟩
          · rw [if_neg hks] at h2
            exact absurd h2 (by simp)
  | some e0 =>
      rw [mergeOne_present ne hlk] at h2
      by_cases hks : k = s
      · subst hks
        rw [lookupVol_setVol_self _ hlk] at h2
        rw [← Option.some.inj h2] at hr
        dsimp only at hr
        rcases List.mem_append.mp hr with hr1 | hr2
        · exact Or.inl ⟨e0, hlk, hr1⟩
        · exact Or.inr ⟨rfl, (List.mem_filter.mp hr2).1⟩
      · have hsk : s ≠ k := fun hc => hks hc.symm
        rw [lookupVol_setVol_ne _ hsk] at h2
        exact Or.inl ⟨e2, h2, hr⟩

theorem mergePass_records :
    ∀ (newVols : Vols) {vols : Vols} {s : String} {e : VolumeEntry} {r : VersionRecord},
      lookupVol (mergePass vols newVols).1 s = some e → r ∈ e.versions →
      (∃ e0, lookupVol vols s = some e0 ∧ r ∈ e0.versions) ∨
        (∃ q ∈ newVols, q.1 = s ∧ r ∈ q.2.versions) := by
  intro newVols
  induction newVols with
  | nil => intro vols s e r hl hr; exact Or.inl ⟨e, hl, hr⟩
  | cons q rest ih =>
      intro vols s e r hl hr
      rw [mergePass_cons] at hl
      rcases ih hl hr with ⟨e1, hl1, hr1⟩ | ⟨q2, hq2, hqs, hqr⟩
      · rcases mergeOne_records q.1 q.2 hl1 hr1 with h1 | ⟨hsk, hrn⟩
        · exact Or.inl h1
        · exact Or.inr ⟨q, List.mem_cons_self _ _, hsk.symm, hrn⟩
      · exact Or.inr ⟨q2, List.mem_cons_of_mem _ hq2, hqs, hqr⟩

theorem mergeOne_selection {vols : Vols} (k : String) (ne : VolumeEntry)
    {s : String} {e2 : VolumeEntry}
    (h2 : lookupVol (mergeOne vols k ne).1 s = some e2) :
    (∃ e0, lookupVol vols s = some e0 ∧ e2.selectedVersion = e0.selectedVersion) ∨
      (s = k ∧ e2.selectedVersion = ne.selectedVersion) := by
  cases hlk : lookupVol vols k with
  | none =>
      rw [mergeOne_absent ne hlk] at h2
      cases hls : lookupVol vols s with
      | some e0 =>
          rw [lookupVol_append_left hls] at h2
          have he : e0 = e2 := Option.some.inj h2
          exact Or.inl ⟨e0, rfl, by rw [← he]⟩
      | none =>
          rw [lookupVol_append_sing _ hls] at h2
          by_cases hks : k = s
          · rw [if_pos hks] at h2
            exact Or.inr ⟨hks.symm, by rw [← Option.some.inj h2]⟩
          · rw [if_neg hks] at h2
            exact absurd h2 (by simp)
  | some e0 =>
      rw [mergeOne_present ne hlk] at h2
      by_cases hks : k = s
      · subst hks
        rw [lookupVol_setVol_self _ hlk] at h2
        refine Or.inl ⟨e0, hlk, ?_⟩
        rw [← Option.some.inj h2]
      · have hsk : s ≠ k := fun hc => hks hc.symm
        rw [lookupVol_setVol_ne _ hsk] at h2
        exact Or.inl ⟨e2, h2, rfl⟩

theorem mergePass_selection :
    ∀ (newVols : Vols) {vols : Vols} {s : String} {e : VolumeEntry},
      lookupVol (mergePass vols newVols).1 s = some e →
      (∃ e0, lookupVol vols s = some e0 ∧ e.selectedVersion = e0.selectedVersion) ∨
        (∃ q ∈ newVols, q.1 = s ∧ e.selectedVersion = q.2.selectedVersion) := by
  intro newVols
  induction newVols with
  | nil => intro vols s e hl; exact Or.inl ⟨e, hl, rfl⟩
  | cons q rest ih =>
      intro vols s e hl
      rw [mergePass_cons] at hl
      rcases ih hl with ⟨e1, hl1, hs1⟩ | ⟨q2, hq2, hqs, hqsel⟩
      · rcases mergeOne_selection q.1 q.2 hl1 with ⟨e0, hl0, hs0⟩ | ⟨hsk, hsn⟩
        · exact Or.inl ⟨e0, hl0, hs1.trans hs0⟩
        · exact Or.inr ⟨q, List.mem_cons_self _ _, hsk.symm, hs1.trans hsn⟩
      · exact Or.inr ⟨q2, List.mem_cons_of_mem _ hq2, hqs, hqsel⟩

theorem CC_mergePass {vols newVols : Vols} (hv : CCVols vols) (hn : CCVols newVols) :
    CCVols (mergePass vols newVols).1 := by
  have hnd : (keysOf (mergePass vols newVols).1).Nodup := mergePass_nodup newVols hv.1
  refine ⟨hnd, ?_⟩
  intro p hp
  have hlp : lookupVol (mergePass vols newVols).1 p.1 = some p.2 := mem_lookup hnd hp
  constructor
  · intro r hr
    rcases mergePass_records newVols hlp hr with ⟨e0, hl0, hr0⟩ | ⟨q, hq, hqs, hqr⟩
    · exact (hv.2 (p.1, e0) (lookup_mem hl0)).1 r hr0
    · have hq2 := (hn.2 q hq).1 r hqr
      rw [hqs] at hq2
      exact hq2
  · rcases mergePass_selection newVols hlp with ⟨e0, hl0, hs0⟩ | ⟨q, hq, hqs, hqsel⟩
    · rw [hs0]
      exact (hv.2 (p.1, e0) (lookup_mem hl0)).2
    · rw [hqsel]
      exact (hn.2 q hq).2

theorem CC_foldl_delVol (rem : List String) {vols : Vols} (hv : CCVols vols) :
    CCVols (rem.foldl delVol vols) :=
  ⟨nodup_keys_foldl_delVol rem hv.1, fun p hp => hv.2 p (mem_foldl_delVol rem hp)⟩

/-! ### Lemmas: canonical-shape preservation through the removal pass -/

theorem CC_remove_version (m : Manifest) (s tok : String) (h : CCVols m.volumes) :
    CCVols (remove_volume_version m s tok).1.volumes := by
  cases hl : lookupVol m.volumes s with
  | none =>
      rw [remove_absent m s tok hl]
      exact h
  | some e =>
      have hprops := h.2 (s, e) (lookup_mem hl)
      by_cases hF : e.versions.filter (fun v => v.version != tok) = []
      · rw [remove_emptied_fst hl hF]
        exact ⟨nodup_keysOf_delVol h.1, fun p hp => h.2 p (mem_delVol hp)⟩
      · have hcanonF : ∀ r ∈ e.versions.filter (fun v => v.version != tok),
            ∃ n, r.version = vstr n ∧ r.id = mkId s n :=
          fun r hr => hprops.1 r (List.mem_filter.mp hr).1
        by_cases hsel : e.selectedVersion = some tok
        · have hvne : e.versions ≠ [] := by
            intro hc
            rw [hc] at hF
            exact hF rfl
          rw [remove_selected_repair hl hsel hvne hF]
          refine ⟨by rw [keysOf_setVol]; exact h.1, ?_⟩
          intro p hp
          rcases mem_setVol hp with rfl | hp2
          · dsimp only
            refine ⟨fun r hr => hcanonF r hr, Or.inr ?_⟩
            have hcanonF2 : ∀ r ∈ e.versions.filter (fun v => v.version != tok),
                ∃ n, r.version = vstr n :=
              fun r hr => (hcanonF r hr).imp (fun n hn => hn.1)
            obtain ⟨k, hk1, _, _⟩ := latestFold_canon hcanonF2 hF
            refine ⟨k, ?_⟩
            rw [hk1]
            rfl
          · exact h.2 p hp2
        · rw [remove_not_selected hl hsel hF]
          refine ⟨by rw [keysOf_setVol]; exact h.1, ?_⟩
          intro p hp
          rcases mem_setVol hp with rfl | hp2
          · dsimp only
            refine ⟨fun r hr => hcanonF r hr, ?_⟩
            rcases hprops.2 with hnone | ⟨n, hn⟩
            · exact Or.inl hnone
            · exact Or.inr ⟨n, hn⟩
          · exact h.2 p hp2

theorem remove_keys_shrink (m : Manifest) (s tok : String) :
    ∀ s2 ∈ keysOf (remove_volume_version m s tok).1.volumes, s2 ∈ keysOf m.volumes := by
  intro s2 hs2
  cases hl : lookupVol m.volumes s with
  | none =>
      rw [remove_absent m s tok hl] at hs2
      exact hs2
  | some e =>
      by_cases hF : e.versions.filter (fun v => v.version != tok) = []
      · rw [remove_emptied_fst hl hF] at hs2
        exact (keysOf_delVol_mem.mp hs2).1
      · by_cases hsel : e.selectedVersion = some tok
        · have hvne : e.versions ≠ [] := by
            intro hc
            rw [hc] at hF
            exact hF rfl
          rw [remove_selected_repair hl hsel hvne hF] at hs2
          rw [keysOf_setVol] at hs2
          exact hs2
        · rw [remove_not_selected hl hsel hF] at hs2
          rw [keysOf_setVol] at hs2
          exact hs2

theorem remove_records_shrink (m : Manifest) (s tok : String) :
    ∀ p ∈ (remove_volume_version m s tok).1.volumes, ∀ r ∈ p.2.versions,
      ∃ p0 ∈ m.volumes, p0.1 = p.1 ∧ r ∈ p0.2.versions := by
  intro p hp r hr
  cases hl : lookupVol m.volumes s with
  | none =>
      rw [remove_absent m s tok hl] at hp
      exact ⟨p, hp, rfl, hr⟩
  | some e =>
      by_cases hF : e.versions.filter (fun v => v.version != tok) = []
      · rw [remove_emptied_fst hl hF] at hp
        exact ⟨p, mem_delVol hp, rfl, hr⟩
      · by_cases hsel : e.selectedVersion = some tok
        · have hvne : e.versions ≠ [] := by
            intro hc
            rw [hc] at hF
            exact hF rfl
          rw [remove_selected_repair hl hsel hvne hF] at hp
          rcases mem_setVol hp with rfl | hp2
          · refine ⟨(s, e), lookup_mem hl, rfl, ?_⟩
            exact (List.mem_filter.mp hr).1
          · exact ⟨p, hp2, rfl, hr⟩
        · rw [remove_not_selected hl hsel hF] at hp
          rcases mem_setVol hp with rfl | hp2
          · refine ⟨(s, e), lookup_mem hl, rfl, ?_⟩
            exact (List.mem_filter.mp hr).1
          · exact ⟨p, hp2, rfl, hr⟩

theorem remove_lookup_self {m : Manifest} {s tok : String} {e : VolumeEntry}
    (hl : lookupVol m.volumes s = some e)
    (hF : e.versions.filter (fun v => v.version != tok) ≠ []) :
    ∃ e2, lookupVol (remove_volume_version m s tok).1.volumes s = some e2 ∧
      e2.versions = e.versions.filter (fun v => v.version != tok) := by
  by_cases hsel : e.selectedVersion = some tok
  · have hvne : e.versions ≠ [] := by
      intro hc
      rw [hc] at hF
      exact hF rfl
    rw [remove_selected_repair hl hsel hvne hF]
    exact ⟨_, lookupVol_setVol_self _ hl, rfl⟩
  · rw [remove_not_selected hl hsel hF]
    exact ⟨_, lookupVol_setVol_self _ hl, rfl⟩

theorem CC_removeSegsSubjects (seg_id : String) :
    ∀ (L : List String) (m : Manifest), CCVols m.volumes →
      CCVols (removeSegsSubjects m seg_id L).1.volumes := by
  intro L
  induction L with
  | nil => intro m h; exact h
  | cons s rest ih =>
      intro m h
      rw [removeSegsSubjects_cons]
      exact ih _ (CC_remove_version m s _ h)

theorem keys_removeSegsSubjects_shrink (seg_id : String) :
    ∀ (L : List String) (m : Manifest) (s2 : String),
      s2 ∈ keysOf (removeSegsSubjects m seg_id L).1.volumes → s2 ∈ keysOf m.volumes := by
  intro L
  induction L with
  | nil => intro m s2 h; exact h
  | cons s rest ih =>
      intro m s2 h
      rw [removeSegsSubjects_cons] at h
      exact remove_keys_shrink m s _ s2 (ih _ s2 h)

theorem records_removeSegsSubjects_shrink (seg_id : String) :
    ∀ (L : List String) (m : Manifest),
      ∀ p ∈ (removeSegsSubjects m seg_id L).1.volumes, ∀ r ∈ p.2.versions,
        ∃ p0 ∈ m.volumes, p0.1 = p.1 ∧ r ∈ p0.2.versions := by
  intro L
  induction L with
  | nil => intro m p hp r hr; exact ⟨p, hp, rfl, hr⟩
  | cons s rest ih =>
      intro m p hp r hr
      rw [removeSegsSubjects_cons] at hp
      obtain ⟨p1, hp1, hk1, hr1⟩ := ih _ p hp r hr
      obtain ⟨p0, hp0, hk0, hr0⟩ := remove_records_shrink m s _ p1 hp1 r hr1
      exact ⟨p0, hp0, hk0.trans hk1, hr0⟩

theorem CC_removeSegsPass :
    ∀ (ids : List String) (m : Manifest), CCVols m.volumes →
      CCVols (removeSegsPass m ids).1.volumes := by
  intro ids
  induction ids with
  | nil => intro m h; exact h
  | cons i rest ih =>
      intro m h
      exact ih (removeSegsOne m i).1 (CC_removeSegsSubjects i (keysOf m.volumes) m h)

theorem keys_removeSegsPass_shrink :
    ∀ (ids : List String) (m : Manifest) (s2 : String),
      s2 ∈ keysOf (removeSegsPass m ids).1.volumes → s2 ∈ keysOf m.volumes := by
  intro ids
  induction ids with
  | nil => intro m s2 h; exact h
  | cons i rest ih =>
      intro m s2 h
      exact keys_removeSegsSubjects_shrink i (keysOf m.volumes) m s2
        (ih (removeSegsOne m i).1 s2 h)

theorem records_removeSegsPass_shrink :
    ∀ (ids : List String) (m : Manifest),
      ∀ p ∈ (removeSegsPass m ids).1.volumes, ∀ r ∈ p.2.versions,
        ∃ p0 ∈ m.volumes, p0.1 = p.1 ∧ r ∈ p0.2.versions := by
  intro ids
  induction ids with
  | nil => intro m p hp r hr; exact ⟨p, hp, rfl, hr⟩
  | cons i rest ih =>
      intro m p hp r hr
      obtain ⟨p1, hp1, hk1, hr1⟩ := ih (removeSegsOne m i).1 p hp r hr
      obtain ⟨p0, hp0, hk0, hr0⟩ :=
        records_removeSegsSubjects_shrink i (keysOf m.volumes) m p1 hp1 r hr1
      exact ⟨p0, hp0, hk0.trans hk1, hr0⟩

theorem mkId_inj {a c : String} {b d : Nat} (h : mkId a b = mkId c d) : a = c ∧ b = d := by
  have h2 := congrArg String.data h
  rw [mkId_data, mkId_data] at h2
  obtain ⟨hs, hd⟩ := sep_digits_inj (natDigits_all_isDigit b) (natDigits_all_isDigit d) h2
  exact ⟨stringDataEq hs, natDigits_inj hd⟩

theorem remove_vNone_noop {mc : Manifest} (hcc : CCVols mc.volumes)
    (hne : ∀ p ∈ mc.volumes, p.2.versions ≠ [])
    {seg_id s : String} (hex : extract_version_number seg_id s = none)
    (hs : s ∈ keysOf mc.volumes) :
    remove_volume_version mc s (vstrOpt (extract_version_number seg_id s)) = (mc, none) := by
  rw [hex]
  obtain ⟨e, he⟩ := lookup_of_mem_keys hs
  have hpe : (s, e) ∈ mc.volumes := lookup_mem he
  have hprops := hcc.2 (s, e) hpe
  refine remove_noop hcc.1 he ?_ ?_ (hne (s, e) hpe)
  · intro r hr
    obtain ⟨n, hn, _⟩ := hprops.1 r hr
    rw [hn]
    exact vstr_ne_vNone n
  · rcases hprops.2 with hnone | ⟨n, hn⟩
    · rw [hnone]; simp
    · rw [hn]
      intro hc
      exact vstr_ne_vNone n (Option.some.inj hc)

theorem nonempty_entries_of_aligned {idx : Vols} {mc : Manifest}
    (hcc : CCVols mc.volumes)
    (hnev : ∀ q ∈ idx, q.2.versions ≠ [])
    (hkeys : ∀ s ∈ keysOf mc.volumes, s ∈ keysOf idx)
    (hmn : ∀ q ∈ idx, ∃ e, lookupVol mc.volumes q.1 = some e ∧
      ∀ r ∈ q.2.versions, r.version ∈ tokensOf e) :
    ∀ p ∈ mc.volumes, p.2.versions ≠ [] := by
  intro p hp
  have hkp : p.1 ∈ keysOf mc.volumes := List.mem_map.mpr ⟨p, hp, rfl⟩
  obtain ⟨q, hq, hq1⟩ := List.mem_map.mp (hkeys p.1 hkp)
  obtain ⟨e, hle, hte⟩ := hmn q hq
  rw [hq1] at hle
  have hlp : lookupVol mc.volumes p.1 = some p.2 := mem_lookup hcc.1 hp
  have he : e = p.2 := by
    rw [hle] at hlp
    exact Option.some.inj hlp
  cases hqv : q.2.versions with
  | nil => exact absurd hqv (hnev q hq)
  | cons r0 rq =>
      have ht0 : r0.version ∈ tokensOf e := hte r0 (by rw [hqv]; exact List.mem_cons_self _ _)
      rw [he] at ht0
      intro hc
      have hnil : tokensOf p.2 = [] := by
        unfold tokensOf
        rw [hc]
        rfl
      rw [hnil] at ht0
      exact absurd ht0 (List.not_mem_nil _)

theorem removeSegsOne_step
    {idx : Vols} (hidx : CCVols idx) (hnev : ∀ q ∈ idx, q.2.versions ≠ [])
    {mc : Manifest} (hcc : CCVols mc.volumes)
    (hkeys : ∀ s ∈ keysOf mc.volumes, s ∈ keysOf idx)
    (hmn : ∀ q ∈ idx, ∃ e, lookupVol mc.volumes q.1 = some e ∧
      ∀ r ∈ q.2.versions, r.version ∈ tokensOf e)
    (sO : String) (k : Nat) (hnotidx : mkId sO k ∉ segIds idx) :
    (∀ q ∈ idx, ∃ e, lookupVol (removeSegsOne mc (mkId sO k)).1.volumes q.1 = some e ∧
      ∀ r ∈ q.2.versions, r.version ∈ tokensOf e) ∧
    (∀ p ∈ (removeSegsOne mc (mkId sO k)).1.volumes, ∀ r ∈ p.2.versions,
      r.id ≠ mkId sO k) := by
  have hne_entries := nonempty_entries_of_aligned hcc hnev hkeys hmn
  by_cases hmem : sO ∈ keysOf mc.volumes
  · have hcanon := @removeSegsOne_canon mc sO k hcc hne_entries hmem
    obtain ⟨eO, hlO⟩ := lookup_of_mem_keys hmem
    have hvk_not_idx_tok : ∀ q ∈ idx, q.1 = sO → ∀ r ∈ q.2.versions, r.version ≠ vstr k := by
      intro q hq hq1 r hr hc
      obtain ⟨n2, hn2, hid2⟩ := (hidx.2 q hq).1 r hr
      rw [hc] at hn2
      have hn2k : n2 = k := vstr_inj hn2.symm
      apply hnotidx
      refine mem_segIds.mpr ⟨q, hq, r, hr, ?_⟩
      rw [hid2, hq1, hn2k]
    have hFne : eO.versions.filter (fun v => v.version != vstr k) ≠ [] := by
      obtain ⟨qO, hqO, hqO1⟩ := List.mem_map.mp (hkeys sO hmem)
      obtain ⟨e', hle', hte'⟩ := hmn qO hqO
      rw [hqO1, hlO] at hle'
      have he' : e' = eO := (Option.some.inj hle').symm
      cases hqv : qO.2.versions with
      | nil => exact absurd hqv (hnev qO hqO)
      | cons r0 rq =>
          have hr0m : r0 ∈ qO.2.versions := by rw [hqv]; exact List.mem_cons_self _ _
          have ht0 : r0.version ∈ tokensOf eO := by
            rw [← he']
            exact hte' r0 hr0m
          obtain ⟨re, hre, hrev⟩ := List.mem_map.mp ht0
          have hneq : re.version ≠ vstr k := by
            rw [hrev]
            exact hvk_not_idx_tok qO hqO hqO1 r0 hr0m
          intro hc
          have : re ∈ eO.versions.filter (fun v => v.version != vstr k) :=
            List.mem_filter.mpr ⟨hre, by simp [bne_iff_ne, hneq]⟩
          rw [hc] at this
          exact absurd this (List.not_mem_nil _)
    obtain ⟨e2, hl2, hv2⟩ := remove_lookup_self hlO hFne
    have hccr := CC_remove_version mc sO (vstr k) hcc
    constructor
    · intro q hq
      by_cases hq1 : q.1 = sO
      · refine ⟨e2, by rw [hcanon, hq1]; exact hl2, ?_⟩
        intro r hr
        obtain ⟨e', hle', hte'⟩ := hmn q hq
        rw [hq1, hlO] at hle'
        have he' : e' = eO := (Option.some.inj hle').symm
        have htok : r.version ∈ tokensOf eO := by
          rw [← he']
          exact hte' r hr
        obtain ⟨re, hre, hrev⟩ := List.mem_map.mp htok
        have hneq : re.version ≠ vstr k := by
          rw [hrev]
          exact hvk_not_idx_tok q hq hq1 r hr
        have hmem2 : re ∈ eO.versions.filter (fun v => v.version != vstr k) :=
          List.mem_filter.mpr ⟨hre, by simp [bne_iff_ne, hneq]⟩
        show r.version ∈ tokensOf e2
        unfold tokensOf
        rw [hv2]
        exact List.mem_map.mpr ⟨re, hmem2, hrev⟩
      · obtain ⟨e', hle', hte'⟩ := hmn q hq
        refine ⟨e', ?_, hte'⟩
        rw [hcanon]
        dsimp only
        rw [remove_frame hq1]
        exact hle'
    · intro p hp r hr heq
      rw [hcanon] at hp
      dsimp only at hp
      obtain ⟨n, hver, hid⟩ := (hccr.2 p hp).1 r hr
      rw [heq] at hid
      obtain ⟨hp1, hnk⟩ := mkId_inj hid.symm
      have hlp : lookupVol (remove_volume_version mc sO (vstr k)).1.volumes p.1 = some p.2 :=
        mem_lookup hccr.1 hp
      rw [hp1] at hlp
      rw [hlp] at hl2
      have hpe2 : p.2 = e2 := Option.some.inj hl2
      rw [hpe2] at hr
      rw [hv2] at hr
      have hbad := (List.mem_filter.mp hr).2
      rw [hver, ← hnk] at hbad
      simp at hbad
  · have hres : removeSegsOne mc (mkId sO k) =
        (mc, (keysOf mc.volumes).map (fun s => LogMsg.removedSegVersion (mkId sO k) s)) := by
      show removeSegsSubjects mc (mkId sO k) (keysOf mc.volumes) = _
      refine removeSegsSubjects_noop (mkId sO k) (keysOf mc.volumes) mc ?_
      intro s hs
      have hsO : s ≠ sO := by
        intro hc
        rw [hc] at hs
        exact hmem hs
      have hex : extract_version_number (mkId sO k) s = none := by
        cases hx : extract_version_number (mkId sO k) s with
        | none => rfl
        | some n => exact absurd (extract_mkId_unique hx).1 hsO
      exact remove_vNone_noop hcc hne_entries hex hs
    rw [hres]
    constructor
    · exact hmn
    · intro p hp r hr heq
      obtain ⟨n, hver, hid⟩ := (hcc.2 p hp).1 r hr
      rw [heq] at hid
      obtain ⟨hp1, _⟩ := mkId_inj hid.symm
      apply hmem
      rw [← hp1]
      exact List.mem_map.mpr ⟨p, hp, rfl⟩

theorem removeSegsPass_maintains
    {idx : Vols} (hidx : CCVols idx) (hnev : ∀ q ∈ idx, q.2.versions ≠ []) :
    ∀ (ids : List String) (mc : Manifest),
      (∀ i ∈ ids, (∃ sO k, i = mkId sO k) ∧ i ∉ segIds idx) →
      CCVols mc.volumes →
      (∀ s ∈ keysOf mc.volumes, s ∈ keysOf idx) →
      (∀ q ∈ idx, ∃ e, lookupVol mc.volumes q.1 = some e ∧
        ∀ r ∈ q.2.versions, r.version ∈ tokensOf e) →
      CCVols (removeSegsPass mc ids).1.volumes ∧
      (∀ s ∈ keysOf (removeSegsPass mc ids).1.volumes, s ∈ keysOf idx) ∧
      (∀ q ∈ idx, ∃ e, lookupVol (removeSegsPass mc ids).1.volumes q.1 = some e ∧
        ∀ r ∈ q.2.versions, r.version ∈ tokensOf e) ∧
      (∀ i ∈ ids, ∀ p ∈ (removeSegsPass mc ids).1.volumes, ∀ r ∈ p.2.versions, r.id ≠ i) := by
  intro ids
  induction ids with
  | nil =>
      intro mc _ hcc hkeys hmn
      exact ⟨hcc, hkeys, hmn, fun i hi => absurd hi (List.not_mem_nil i)⟩
  | cons i rest ih =>
      intro mc hids hcc hkeys hmn
      obtain ⟨⟨sO, k, hik⟩, hinot⟩ := hids i (by simp)
      subst hik
      have hstep := removeSegsOne_step hidx hnev hcc hkeys hmn sO k hinot
      have hcc1 : CCVols (removeSegsOne mc (mkId sO k)).1.volumes :=
        CC_removeSegsSubjects _ (keysOf mc.volumes) mc hcc
      have hkeys1 : ∀ s ∈ keysOf (removeSegsOne mc (mkId sO k)).1.volumes, s ∈ keysOf idx :=
        fun s hs => hkeys s (keys_removeSegsSubjects_shrink _ (keysOf mc.volumes) mc s hs)
      have hrest := ih (removeSegsOne mc (mkId sO k)).1
        (fun i2 hi2 => hids i2 (by simp [hi2])) hcc1 hkeys1 hstep.1
      refine ⟨hrest.1, hrest.2.1, hrest.2.2.1, ?_⟩
      intro i2 hi2 p hp r hr
      rcases List.mem_cons.mp hi2 with rfl | hi2r
      · obtain ⟨p0, hp0, _, hr0⟩ := records_removeSegsPass_shrink rest
          (removeSegsOne mc (mkId sO k)).1 p hp r hr
        exact hstep.2 p0 hp0 r hr0
      · exact hrest.2.2.2 i2 hi2r p hp r hr

theorem update_index_snd (m : Manifest) (newVols : Vols) :
    (update_index m newVols).2 =
      (removeSegsPass
        { m with volumes :=
            (removeVolumesPass (mergePass m.volumes newVols).1
              ((keysOf m.volumes).filter (fun s => !((keysOf newVols).contains s)))).1 }
        ((segIds m.volumes).dedup.filter
          (fun i => !((segIds newVols).dedup.contains i)))).1 := rfl

theorem update_index_aligned {m0 : Manifest} {idx : Vols}
    (hcc : CCVols m0.volumes) (hidx : CCVols idx)
    (hnev : ∀ q ∈ idx, q.2.versions ≠ []) :
    Aligned (update_index m0 idx).2 idx := by
  rw [update_index_snd, removeVolumesPass_eq]
  dsimp only
  have hccM : CCVols (mergePass m0.volumes idx).1 := CC_mergePass hcc hidx
  have hccAV : CCVols (((keysOf m0.volumes).filter
      (fun s => !((keysOf idx).contains s))).foldl delVol (mergePass m0.volumes idx).1) :=
    CC_foldl_delVol _ hccM
  have hkeysAV : ∀ s ∈ keysOf (((keysOf m0.volumes).filter
      (fun s => !((keysOf idx).contains s))).foldl delVol (mergePass m0.volumes idx).1),
      s ∈ keysOf idx := by
    intro s hs
    rw [keys_foldl_delVol_mem] at hs
    obtain ⟨hsm, hsnot⟩ := hs
    by_cases hsi : s ∈ keysOf idx
    · exact hsi
    · exfalso
      rcases mergePass_keys_subset idx m0.volumes s hsm with h1 | h2
      · apply hsnot
        refine List.mem_filter.mpr ⟨h1, ?_⟩
        simp [hsi]
      · exact hsi h2
  have hmnAV : ∀ q ∈ idx, ∃ e, lookupVol (((keysOf m0.volumes).filter
      (fun s => !((keysOf idx).contains s))).foldl delVol (mergePass m0.volumes idx).1) q.1 =
        some e ∧ ∀ r ∈ q.2.versions, r.version ∈ tokensOf e := by
    intro q hq
    obtain ⟨e, hle, hte⟩ := mergePass_new_tokens idx m0.volumes q hq
    have hq1 : q.1 ∈ keysOf idx := List.mem_map.mpr ⟨q, hq, rfl⟩
    have hnotrm : q.1 ∉ (keysOf m0.volumes).filter (fun s => !((keysOf idx).contains s)) := by
      intro hc
      have h2 := (List.mem_filter.mp hc).2
      simp [hq1] at h2
    refine ⟨e, ?_, hte⟩
    rw [lookup_foldl_delVol, if_neg hnotrm]
    exact hle
  have hids : ∀ i ∈ (segIds m0.volumes).dedup.filter
      (fun i => !((segIds idx).dedup.contains i)),
      (∃ sO k, i = mkId sO k) ∧ i ∉ segIds idx := by
    intro i hi
    obtain ⟨hi1, hi2⟩ := List.mem_filter.mp hi
    constructor
    · obtain ⟨p, hp, r, hr, hid⟩ := mem_segIds.mp (List.mem_dedup.mp hi1)
      obtain ⟨n, _, hidn⟩ := (hcc.2 p hp).1 r hr
      exact ⟨p.1, n, by rw [← hid, hidn]⟩
    · intro hc
      have hdc : i ∈ (segIds idx).dedup := List.mem_dedup.mpr hc
      simp [hdc] at hi2
  have hmain := removeSegsPass_maintains hidx hnev
    ((segIds m0.volumes).dedup.filter (fun i => !((segIds idx).dedup.contains i)))
    { m0 with volumes := ((keysOf m0.volumes).filter
        (fun s => !((keysOf idx).contains s))).foldl delVol (mergePass m0.volumes idx).1 }
    hids hccAV hkeysAV hmnAV
  refine ⟨hmain.1.1, hmain.2.2.1, hmain.2.1, ?_⟩
  intro i hi
  obtain ⟨p, hp, r, hr, hid⟩ := mem_segIds.mp hi
  obtain ⟨p1, hp1, hk1, hr1⟩ := records_removeSegsPass_shrink _ _ p hp r hr
  have hp1m : p1 ∈ (mergePass m0.volumes idx).1 := mem_foldl_delVol _ hp1
  have hlm : lookupVol (mergePass m0.volumes idx).1 p1.1 = some p1.2 :=
    mem_lookup (mergePass_nodup idx hcc.1) hp1m
  have hprov : r.id ∈ segIds m0.volumes ∨ r.id ∈ segIds idx := by
    rcases mergePass_records idx hlm hr1 with ⟨e0, hl0, hr0⟩ | ⟨q, hq, hqs, hqr⟩
    · exact Or.inl (mem_segIds.mpr ⟨(p1.1, e0), lookup_mem hl0, r, hr0, rfl⟩)
    · exact Or.inr (mem_segIds.mpr ⟨q, hq, r, hqr, rfl⟩)
  rcases hprov with h1 | h2
  · by_cases hirm : r.id ∈ segIds idx
    · rw [← hid]
      exact hirm
    · exfalso
      have hmem_rs : r.id ∈ (segIds m0.volumes).dedup.filter
          (fun i => !((segIds idx).dedup.contains i)) := by
        refine List.mem_filter.mpr ⟨List.mem_dedup.mpr h1, ?_⟩
        have hnd2 : r.id ∉ (segIds idx).dedup := fun hc => hirm (List.mem_dedup.mp hc)
        simp [hnd2]
      exact hmain.2.2.2 r.id hmem_rs p hp r hr rfl
  · rw [← hid]
    exact h2

/-! ### Lemmas: the matcher output under canonical disk names; re-timed runs -/

theorem canonNames_spec {ref tar : List String} (h : canonNamesB ref tar = true) :
    ∀ t ∈ tar, ∀ s ∈ ref, ∀ n, extract_version_number t s = some n → t = mkId s n := by
  intro t ht s hs n hex
  unfold canonNamesB at h
  rw [List.all_eq_true] at h
  have h2 := h t ht
  rw [List.all_eq_true] at h2
  have h3 := h2 s hs
  rw [hex] at h3
  simpa using h3

theorem verify_CC (ref_fnames tar_fnames : List String) (sp sext : String)
    (hashF tsF : String → String) (hnames : canonNamesB ref_fnames tar_fnames = true) :
    CCVols (verify_volseg_match ref_fnames tar_fnames sp sext hashF tsF).index := by
  refine ⟨verify_keys_nodup ref_fnames tar_fnames sp sext hashF tsF, ?_⟩
  intro q hq
  obtain ⟨hs, hne, he⟩ :=
    (verify_mem_index ref_fnames tar_fnames sp sext hashF tsF q.1 q.2).mp hq
  constructor
  · intro r hr
    rw [he] at hr
    have hr2 : r ∈ matchList tar_fnames sp sext hashF tsF q.1 :=
      (sortVersions_perm _).mem_iff.mp hr
    obtain ⟨t, ht, n, hex, rfl⟩ := (matchList_mem tar_fnames sp sext hashF tsF q.1 r).mp hr2
    refine ⟨n, rfl, ?_⟩
    exact canonNames_spec hnames t ht q.1 (List.mem_dedup.mp hs) n hex
  · rw [he]
    right
    have hnil : sortVersions (matchList tar_fnames sp sext hashF tsF q.1) ≠ [] :=
      sortVersions_ne_nil hne
    have hmem := getLastD_mem hnil default
    have hmem2 : (sortVersions (matchList tar_fnames sp sext hashF tsF q.1)).getLastD default ∈
        matchList tar_fnames sp sext hashF tsF q.1 :=
      (sortVersions_perm _).mem_iff.mp hmem
    obtain ⟨t, ht, n, hex, hmk⟩ :=
      (matchList_mem tar_fnames sp sext hashF tsF q.1 _).mp hmem2
    refine ⟨n, ?_⟩
    show some (((sortVersions (matchList tar_fnames sp sext hashF tsF q.1)).getLastD default).version) =
      some (vstr n)
    rw [hmk]
    rfl

theorem verify_nonempty (ref_fnames tar_fnames : List String) (sp sext : String)
    (hashF tsF : String → String) :
    ∀ q ∈ (verify_volseg_match ref_fnames tar_fnames sp sext hashF tsF).index,
      q.2.versions ≠ [] := by
  intro q hq
  obtain ⟨_, hne, he⟩ :=
    (verify_mem_index ref_fnames tar_fnames sp sext hashF tsF q.1 q.2).mp hq
  rw [he]
  exact sortVersions_ne_nil hne

theorem matchList_retime (tar_fnames : List String) (sp sext : String)
    (hashF tsF tsF2 : String → String) (v : String) :
    matchList tar_fnames sp sext hashF tsF2 v =
      (matchList tar_fnames sp sext hashF tsF v).map (recRetime tsF2) := by
  unfold matchList
  rw [List.map_filterMap]
  apply List.filterMap_congr
  intro t _
  by_cases hg : (!startsWithChars t (v ++ "-v")) = true
  · rw [if_pos hg, if_pos hg]
    rfl
  · rw [if_neg hg, if_neg hg]
    cases hex : extract_version_number t v with
    | none => rfl
    | some n => rfl

theorem insertSorted_map_retime (f : String → String) (r : VersionRecord) :
    ∀ (l : List VersionRecord),
      insertSorted (recRetime f r) (l.map (recRetime f)) =
        (insertSorted r l).map (recRetime f) := by
  intro l
  induction l with
  | nil => rfl
  | cons x xs ih =>
      rw [List.map_cons]
      show (if recKey (recRetime f r) ≤ recKey (recRetime f x) then
          recRetime f r :: recRetime f x :: xs.map (recRetime f)
        else recRetime f x :: insertSorted (recRetime f r) (xs.map (recRetime f))) = _
      have hk1 : recKey (recRetime f r) = recKey r := rfl
      have hk2 : recKey (recRetime f x) = recKey x := rfl
      rw [hk1, hk2]
      by_cases h : recKey r ≤ recKey x
      · rw [if_pos h]
        show _ = (insertSorted r (x :: xs)).map (recRetime f)
        rw [insertSorted, if_pos h]
        rfl
      · rw [if_neg h]
        show _ = (insertSorted r (x :: xs)).map (recRetime f)
        rw [insertSorted, if_neg h, List.map_cons, ih]

theorem sortVersions_map_retime (f : String → String) :
    ∀ (l : List VersionRecord),
      sortVersions (l.map (recRetime f)) = (sortVersions l).map (recRetime f) := by
  intro l
  induction l with
  | nil => rfl
  | cons a xs ih =>
      show insertSorted (recRetime f a) (sortVersions (xs.map (recRetime f))) = _
      rw [ih]
      exact insertSorted_map_retime f a (sortVersions xs)

theorem getLastD_map_retime (f : String → String) :
    ∀ {l : List VersionRecord}, l ≠ [] → ∀ (d d2 : VersionRecord),
      (l.map (recRetime f)).getLastD d = recRetime f (l.getLastD d2) := by
  intro l
  induction l with
  | nil => intro h; exact absurd rfl h
  | cons a xs ih =>
      intro _ d d2
      rw [List.map_cons, List.getLastD_cons, List.getLastD_cons]
      cases xs with
      | nil => rfl
      | cons b xs2 => exact ih (List.cons_ne_nil b xs2) (recRetime f a) a

theorem verifyEntry_retime (tar_fnames : List String) (sp sext : String)
    (hashF tsF tsF2 : String → String) (v : String)
    (hne : matchList tar_fnames sp sext hashF tsF v ≠ []) :
    verifyEntry tar_fnames sp sext hashF tsF2 v =
      entryRetime tsF2 (verifyEntry tar_fnames sp sext hashF tsF v) := by
  unfold verifyEntry entryRetime
  dsimp only
  have hsv : sortVersions (matchList tar_fnames sp sext hashF tsF2 v) =
      (sortVersions (matchList tar_fnames sp sext hashF tsF v)).map (recRetime tsF2) := by
    rw [matchList_retime tar_fnames sp sext hashF tsF tsF2 v]
    exact sortVersions_map_retime tsF2 _
  rw [hsv]
  rw [getLastD_map_retime tsF2 (sortVersions_ne_nil hne) default default]
  rfl

theorem verify_index_retime (ref_fnames tar_fnames : List String) (sp sext : String)
    (hashF tsF tsF2 : String → String) :
    (verify_volseg_match ref_fnames tar_fnames sp sext hashF tsF2).index =
      volsRetime tsF2 (verify_volseg_match ref_fnames tar_fnames sp sext hashF tsF).index := by
  rw [verify_index_eq, verify_index_eq]
  unfold volsRetime
  rw [List.map_filterMap]
  apply List.filterMap_congr
  intro v _
  by_cases h : matchList tar_fnames sp sext hashF tsF v = []
  · have h2 : matchList tar_fnames sp sext hashF tsF2 v = [] := by
      rw [matchList_retime tar_fnames sp sext hashF tsF tsF2 v, h]
      rfl
    rw [if_pos h2, if_pos h]
    rfl
  · have h2 : matchList tar_fnames sp sext hashF tsF2 v ≠ [] := by
      rw [matchList_retime tar_fnames sp sext hashF tsF tsF2 v]
      intro hc
      exact h (List.map_eq_nil_iff.mp hc)
    rw [if_neg h2, if_neg h]
    rw [verifyEntry_retime tar_fnames sp sext hashF tsF tsF2 v h]
    rfl

theorem segIds_volsRetime (f : String → String) :
    ∀ (l : Vols), segIds (volsRetime f l) = segIds l := by
  intro l
  induction l with
  | nil => rfl
  | cons p rest ih =>
      show segIds ((p.1, entryRetime f p.2) :: volsRetime f rest) = _
      unfold segIds
      rw [List.flatMap_cons, List.flatMap_cons]
      have hrest : (volsRetime f rest).flatMap (fun p => p.2.versions.map (fun v => v.id)) =
          rest.flatMap (fun p => p.2.versions.map (fun v => v.id)) := ih
      rw [hrest]
      congr 1
      show ((p.2.versions.map (recRetime f)).map (fun v => v.id)) = _
      rw [List.map_map]
      apply List.map_congr_left
      intro r _
      rfl

theorem aligned_retime {m : Manifest} {idx : Vols} (f : String → String)
    (h : Aligned m idx) : Aligned m (volsRetime f idx) := by
  obtain ⟨hnd, hmn, hkeys, hids⟩ := h
  refine ⟨hnd, ?_, ?_, ?_⟩
  · intro p hp
    obtain ⟨q, hq, hpq⟩ := List.mem_map.mp hp
    obtain ⟨e, hle, hte⟩ := hmn q hq
    refine ⟨e, ?_, ?_⟩
    · rw [← hpq]
      exact hle
    · intro r hr
      rw [← hpq] at hr
      obtain ⟨r0, hr0, hrr⟩ := List.mem_map.mp hr
      rw [← hrr]
      exact hte r0 hr0
  · intro s hs
    have hkr : keysOf (volsRetime f idx) = keysOf idx := by
      simp [keysOf, volsRetime]
    rw [hkr]
    exact hkeys s hs
  · intro i hi
    rw [segIds_volsRetime]
    exact hids i hi

/-- Claim C1 (amended): reconciliation is NOT idempotent for every
spec-legal manifest — a stored token with leading zeros (`"v01"`) makes
every run re-add and re-remove the canonical `"v1"` — but it is idempotent
on the states the system itself produces: whenever the manifest is aligned
with an index, reconciling against it returns the manifest unchanged with
an empty log; and starting from any canonical manifest, after one
reconciliation against the matcher's index for a canonically-named disk
state, a second reconciliation against the index recomputed from the same
unchanged files (at any later clock reading) yields an empty log and the
identical manifest. -/
theorem claim_C1_idempotence :
    (∀ (m : Manifest) (idx : Vols), Aligned m idx → update_index m idx = ([], m)) ∧
    (∀ (ref_fnames tar_fnames : List String) (sp sext : String)
       (hashF tsF tsF2 : String → String) (m0 : Manifest),
       CCVols m0.volumes → canonNamesB ref_fnames tar_fnames = true →
       update_index
           (update_index m0 (verify_volseg_match ref_fnames tar_fnames sp sext hashF tsF).index).2
           (verify_volseg_match ref_fnames tar_fnames sp sext hashF tsF2).index =
         ([], (update_index m0
           (verify_volseg_match ref_fnames tar_fnames sp sext hashF tsF).index).2)) := by
  refine ⟨update_index_noop, ?_⟩
  intro ref_fnames tar_fnames sp sext hashF tsF tsF2 m0 hcc hnames
  have hidxCC := verify_CC ref_fnames tar_fnames sp sext hashF tsF hnames
  have hnev := verify_nonempty ref_fnames tar_fnames sp sext hashF tsF
  have hal := update_index_aligned hcc hidxCC hnev
  rw [verify_index_retime ref_fnames tar_fnames sp sext hashF tsF tsF2]
  exact update_index_noop _ _ (aligned_retime tsF2 hal)

/-- Witness for C1: the canonical two-subject manifest `mC2` against the
disk state `{A}` / `{A-v1}`, reconciled twice with the clock advanced
between runs. -/
theorem claim_C1_idempotence_witness :
    update_index
        (update_index mC2 (verify_volseg_match ["A"] ["A-v1"] "segs" ".nii" hashConst tsConst).index).2
        (verify_volseg_match ["A"] ["A-v1"] "segs" ".nii" hashConst tsConst2).index =
      ([], (update_index mC2
        (verify_volseg_match ["A"] ["A-v1"] "segs" ".nii" hashConst tsConst).index).2) :=
  claim_C1_idempotence.2 ["A"] ["A-v1"] "segs" ".nii" hashConst tsConst tsConst2 mC2
    (CCVols_of_b (by decide)) (by decide)

/-- Counterexample for C1 as stated: the manifest `mC1` stores the
spec-legal token `"v01"`; after one reconciliation against the unchanged
disk state `{A}` / `{A-v1}`, the SECOND reconciliation still logs an
addition and a removal — the log is not empty, so reconciliation is not
idempotent for every manifest. -/
theorem claim_C1_counterexample :
    (update_index m1C1 idxC1b).1 =
      [LogMsg.addedVersion "v1" "A", LogMsg.removedSegVersion "A-v01" "A"] ∧
    (update_index m1C1 idxC1b).1 ≠ [] := by
  refine ⟨by decide, by decide⟩

end SegVer
